import Mathlib

/-!
# Eye bitmap generator (`lib/eyes/eyes.cpp`)

A shallow embedding of the three renderers `Eyes::draw_open`, `Eyes::draw_half_open`,
`Eyes::draw_closed` and of the sclera-mask cache they share.

* `float` values are the rational numbers they denote; every arithmetic operation of the
  source is followed by `f32`, the IEEE-754 binary32 round-to-nearest-even of the exact result
  (`f64` for the `double` sub-expression around `M_PI`).  Infinities and NaN are not modelled.
* `tanf` comes from the C library and is a parameter of the model.
* A renderer is split into the sequence of `set_pixel` / `clear_pixel` calls its loops make,
  in program order (`*_calls`), and the execution of that sequence on the byte buffer (`run`).
  A write whose byte index is outside `[0, BUFFER_SIZE)` makes the execution fail (`none`).
-/

namespace Eyes

/-! ## Floating point -/

/-- Round to the nearest integer, ties to the even one. -/
def roundEven (q : ℚ) : ℤ :=
  if Int.fract q < 1 / 2 then ⌊q⌋
  else if 1 / 2 < Int.fract q then ⌊q⌋ + 1
  else if ⌊q⌋ % 2 = 0 then ⌊q⌋ else ⌊q⌋ + 1

/-- Exponent of the unit in the last place of `q` in a binary format with `prec` significant
bits whose smallest subnormal is `2 ^ emin`. -/
def ulpExp (prec : ℕ) (emin : ℤ) (q : ℚ) : ℤ :=
  max (Int.log 2 |q| + 1 - (prec : ℤ)) emin

/-- Round-to-nearest-even into the binary format `(prec, emin)` (no overflow to infinity). -/
def roundBin (prec : ℕ) (emin : ℤ) (q : ℚ) : ℚ :=
  (roundEven (q / (2 : ℚ) ^ ulpExp prec emin q) : ℚ) * (2 : ℚ) ^ ulpExp prec emin q

/-- Rounding to `float` (binary32). -/
def f32 (q : ℚ) : ℚ := roundBin 24 (-149) q

/-- Rounding to `double` (binary64). -/
def f64 (q : ℚ) : ℚ := roundBin 53 (-1074) q

/-- Values that the format `(prec, emin)` represents exactly. -/
def IsRep (prec : ℕ) (emin : ℤ) (b : ℚ) : Prop :=
  ∃ m k : ℤ, |m| < 2 ^ prec ∧ emin ≤ k ∧ b = (m : ℚ) * (2 : ℚ) ^ k

/-- Conversion `int -> float`. -/
def i2f (n : ℤ) : ℚ := f32 (n : ℚ)

/-- Conversion `float -> int`: truncation toward zero. -/
def f2i (q : ℚ) : ℤ := if 0 ≤ q then ⌊q⌋ else ⌈q⌉

/-- The C function `roundf`: nearest integer, halfway cases away from zero. -/
def roundf (q : ℚ) : ℚ := if 0 ≤ q then (⌊q + 1 / 2⌋ : ℤ) else (⌈q - 1 / 2⌉ : ℤ)

/-- The C function `fminf` on finite values; `fminf_any` covers an infinite or NaN argument. -/
def fminf (a b : ℚ) : ℚ := min a b

/-- The C function `fmaxf` on finite values; `fmaxf_any` covers the argument `-inf`. -/
def fmaxf (a b : ℚ) : ℚ := max a b

/-- The `double` constant `M_PI` (`0x1.921fb54442d18p+1`). -/
def M_PI : ℚ := 884279719003555 / 281474976710656

/-! ## Constants of `eyes.cpp` -/

def SCREEN_WIDTH : ℤ := 128
def SCREEN_HEIGHT : ℤ := 64
def BUFFER_SIZE : ℕ := 1024

def EYE_CENTER_Y : ℤ := 32
def LEFT_EYE_CENTER_X : ℤ := 32
def EYE_SEPARATION : ℤ := 64
def EYE_R : ℤ := 28
def IRIS_R : ℤ := 9
def PUPIL_R_MIN : ℚ := 3
def PUPIL_R_MAX : ℚ := 7
def IRIS_SHIFT_X : ℚ := 10
def IRIS_SHIFT_Y : ℚ := 10

def EYEBROW_Y_BASE : ℤ := 12
def EYEBROW_Y_RANGE : ℤ := 12
def EYEBROW_ANGLE_LIMIT : ℚ := 10

def CLOSED_EYE_Y : ℤ := 32
def CLOSED_EYE_LENGTH : ℤ := 40
def CLOSED_EYE_THICKNESS : ℤ := 2

def UPPER_EYELID_Y : ℤ := 24
def LOWER_EYELID_Y : ℤ := 40

/-! ## Buffers and pixel writes -/

/-- The C call `memset(buffer, 0, n)`. -/
def memset0 (buffer : List ℕ) (n : ℕ) : List ℕ := List.replicate n 0 ++ buffer.drop n

/-- The C call `memcpy(dst, src, n)`. -/
def memcpy (dst src : List ℕ) (n : ℕ) : List ℕ := src.take n ++ dst.drop n

/-- The helper `clear_buffer`. -/
def clear_buffer (buffer : List ℕ) : List ℕ := memset0 buffer BUFFER_SIZE

/-- The helper `set_pixel`: `buffer[pixel / 8] |= (1 << (7 - (pixel % 8)))`, failing when the
byte index is outside the `BUFFER_SIZE` bytes of the buffer. -/
def set_pixel (x y : ℤ) (buffer : List ℕ) : Option (List ℕ) :=
  let pixel := y * SCREEN_WIDTH + x
  if 0 ≤ Int.tdiv pixel 8 ∧ Int.tdiv pixel 8 < (BUFFER_SIZE : ℤ) then
    some (buffer.set (Int.tdiv pixel 8).toNat
      ((buffer.getD (Int.tdiv pixel 8).toNat 0 ||| 1 <<< (7 - Int.tmod pixel 8).toNat) % 256))
  else none

/-- The helper `clear_pixel`: `buffer[pixel / 8] &= ~(1 << (7 - (pixel % 8)))`, failing when
the byte index is outside the `BUFFER_SIZE` bytes of the buffer. -/
def clear_pixel (x y : ℤ) (buffer : List ℕ) : Option (List ℕ) :=
  let pixel := y * SCREEN_WIDTH + x
  if 0 ≤ Int.tdiv pixel 8 ∧ Int.tdiv pixel 8 < (BUFFER_SIZE : ℤ) then
    some (buffer.set (Int.tdiv pixel 8).toNat
      ((buffer.getD (Int.tdiv pixel 8).toNat 0
        &&& (0xFFFFFFFF ^^^ 1 <<< (7 - Int.tmod pixel 8).toNat)) % 256))
  else none

/-- The bit of pixel `(x, y)` in a packed bitmap (MSB first, index `y * 128 + x`). -/
def pixel_bit (buffer : List ℕ) (x y : ℤ) : Bool :=
  (buffer.getD (Int.tdiv (y * SCREEN_WIDTH + x) 8).toNat 0).testBit
    (7 - Int.tmod (y * SCREEN_WIDTH + x) 8).toNat

/-- One call of `set_pixel` or `clear_pixel`. -/
inductive Call where
  | set (x y : ℤ)
  | clear (x y : ℤ)
deriving DecidableEq

def Call.x : Call → ℤ
  | .set x _ => x
  | .clear x _ => x

def Call.y : Call → ℤ
  | .set _ y => y
  | .clear _ y => y

/-- The value the call gives its pixel. -/
def Call.lit : Call → Bool
  | .set _ _ => true
  | .clear _ _ => false

/-- Byte index `pixel / 8` addressed by the call. -/
def Call.byteIndex (c : Call) : ℤ := Int.tdiv (c.y * SCREEN_WIDTH + c.x) 8

def Call.exec : Call → List ℕ → Option (List ℕ)
  | .set x y, buffer => set_pixel x y buffer
  | .clear x y, buffer => clear_pixel x y buffer

/-- Execute a sequence of pixel writes in order. -/
def run (calls : List Call) (buffer : List ℕ) : Option (List ℕ) :=
  calls.foldlM (fun b c => c.exec b) buffer

/-- The pixel of the call lies on the 128x64 screen. -/
def InScreen (c : Call) : Prop :=
  0 ≤ c.x ∧ c.x < SCREEN_WIDTH ∧ 0 ≤ c.y ∧ c.y < SCREEN_HEIGHT

/-- Value of pixel `(x, y)` after a sequence of writes, given its value `b` before. -/
def paint (calls : List Call) (b : Bool) (x y : ℤ) : Bool :=
  calls.foldl (fun b c => if c.x = x ∧ c.y = y then c.lit else b) b

/-- Some call of the sequence writes pixel `(x, y)`. -/
def touches (calls : List Call) (x y : ℤ) : Bool :=
  calls.any fun c => decide (c.x = x ∧ c.y = y)

/-! ## Loops -/

/-- Values taken by `v` in `for (int v = lo; v < hi; v++)`. -/
def forLt (lo hi : ℤ) : List ℤ :=
  (List.range (hi - lo).toNat).map fun (k : ℕ) => lo + (k : ℤ)

/-- Values taken by `v` in `for (int v = lo; v <= hi; v++)` with a `float` bound `hi`. -/
def forLe (lo : ℤ) (hi : ℚ) : List ℤ := forLt lo (⌊hi⌋ + 1)

/-- Number of pixels of the screen whose bit is 1. -/
def lit_count (buffer : List ℕ) : ℕ :=
  ((forLt 0 SCREEN_HEIGHT).flatMap fun y =>
    (forLt 0 SCREEN_WIDTH).filter fun x => pixel_bit buffer x y).length

/-! ## Sclera mask cache -/

/-- The file-scope variables `sclera_mask` and `sclera_mask_generated`. -/
structure State where
  sclera_mask : List ℕ
  sclera_mask_generated : Bool

/-- State at program start: zero-initialised mask, flag `false`. -/
def State.initial : State := ⟨List.replicate BUFFER_SIZE 0, false⟩

/-- The disk test of `generate_sclera_mask` and `draw_half_open`. -/
def in_eye (eye_center_x x y : ℤ) : Bool :=
  let dx_eye := f32 (i2f (x - eye_center_x) / i2f EYE_R)
  let dy_eye := f32 (i2f (y - EYE_CENTER_Y) / i2f EYE_R)
  decide (f32 (f32 (dx_eye * dx_eye) + f32 (dy_eye * dy_eye)) ≤ 1)

/-- The writes of the loops of `generate_sclera_mask`. -/
def sclera_calls : List Call :=
  (forLt 0 2).flatMap fun i =>
    let eye_center_x := LEFT_EYE_CENTER_X + i * EYE_SEPARATION
    (forLt 0 SCREEN_HEIGHT).flatMap fun y =>
      ((forLt (eye_center_x - EYE_R) (eye_center_x + EYE_R)).filter fun x =>
        in_eye eye_center_x x y).map fun x => Call.set x y

/-- The bit that the loops of `generate_sclera_mask` give pixel `(x, y)`: the disk test of the
eye whose column range `[eye_center_x - EYE_R, eye_center_x + EYE_R)` contains `x`. -/
def sclera_bit (x y : ℤ) : Bool :=
  (decide (4 ≤ x ∧ x < 60) && in_eye 32 x y) || (decide (68 ≤ x ∧ x < 124) && in_eye 96 x y)

/-- The function `generate_sclera_mask`. -/
def generate_sclera_mask (s : State) : Option State :=
  if s.sclera_mask_generated then some s
  else (run sclera_calls (memset0 s.sclera_mask BUFFER_SIZE)).map fun m =>
    { sclera_mask := m, sclera_mask_generated := true }

/-- The mask that `generate_sclera_mask` builds. -/
def built_mask : Option (List ℕ) := run sclera_calls (List.replicate BUFFER_SIZE 0)

/-- States the program can be in: a 1024-byte mask which, once the flag is set, is the built
mask. -/
def State.Valid (s : State) : Prop :=
  s.sclera_mask.length = 1024 ∧
    (s.sclera_mask_generated = true → some s.sclera_mask = built_mask)

/-! ## `Eyes::draw_open` -/

/-- Pupil radius `PUPIL_R_MIN + (PUPIL_R_MAX - PUPIL_R_MIN) * pupil_size`. -/
def pupil_radius (pupil_size : ℚ) : ℚ :=
  f32 (PUPIL_R_MIN + f32 (f32 (PUPIL_R_MAX - PUPIL_R_MIN) * pupil_size))

/-- Iris centre coordinate `center + pupil * shift`. -/
def iris_center (center : ℤ) (pupil shift : ℚ) : ℚ := f32 (i2f center + f32 (pupil * shift))

/-- The test `d0 * d0 + d1 * d1 <= bound` on two coordinate differences. -/
def within (x : ℤ) (cx : ℚ) (y : ℤ) (cy : ℚ) (bound : ℚ) : Bool :=
  let dx := f32 (i2f x - cx)
  let dy := f32 (i2f y - cy)
  decide (f32 (f32 (dx * dx) + f32 (dy * dy)) ≤ bound)

/-- The loop "Clear iris area". -/
def iris_calls (iris_cx iris_cy : ℚ) : List Call :=
  (forLe (f2i (f32 (roundf iris_cy - i2f IRIS_R))) (f32 (roundf iris_cy + i2f IRIS_R))).flatMap
    fun y =>
      ((forLe (f2i (f32 (roundf iris_cx - i2f IRIS_R))) (f32 (roundf iris_cx + i2f IRIS_R))).filter
        fun x => within x iris_cx y iris_cy (i2f (IRIS_R * IRIS_R))).map fun x => Call.clear x y

/-- The loop "Draw pupil". -/
def pupil_calls (iris_cx iris_cy pupil_r : ℚ) : List Call :=
  (forLe (f2i (f32 (roundf iris_cy - pupil_r))) (f32 (roundf iris_cy + pupil_r))).flatMap
    fun y =>
      ((forLe (f2i (f32 (roundf iris_cx - pupil_r))) (f32 (roundf iris_cx + pupil_r))).filter
        fun x => within x iris_cx y iris_cy (f32 (pupil_r * pupil_r))).map fun x => Call.set x y

/-- The loop "Draw eyebrows". -/
def eyebrow_calls (eye_center_x eyebrow_y_base_pos : ℤ) (tan_angle : ℚ) : List Call :=
  (forLt (-EYE_R) (EYE_R + 1)).flatMap fun x_offset =>
    let x := eye_center_x + x_offset
    let eyebrow_y_at_x :=
      f2i (f32 (i2f eyebrow_y_base_pos + roundf (f32 (tan_angle * i2f x_offset))))
    (forLt 0 eyebrow_y_at_x).map fun y => Call.clear x y

/-- The eyebrow angle of eye `i` after mirroring and clamping, for a finite angle
(`clamped_angle_any` for an angle that is infinite or NaN). -/
def clamped_angle (i : ℤ) (eyebrow_angle : ℚ) : ℚ :=
  fmaxf (-EYEBROW_ANGLE_LIMIT)
    (fminf EYEBROW_ANGLE_LIMIT (if i = 1 then -eyebrow_angle else eyebrow_angle))

/-- The argument `current_eyebrow_angle * M_PI / 180.0f` as passed to `tanf`. -/
def tan_arg (current_eyebrow_angle : ℚ) : ℚ :=
  f32 (f64 (f64 (current_eyebrow_angle * M_PI) / 180))

/-- A concrete stand-in for the C library function `tanf`, used for closed instances: the
Taylor polynomial `t + t^3 / 3` evaluated in binary32. -/
def tanf_approx (t : ℚ) : ℚ := f32 (t + f32 (f32 (f32 (t * t) * t) / 3))

/-- The writes of one iteration of the per-eye loop of `draw_open`. -/
def eye_calls (tanf : ℚ → ℚ) (pupil_y pupil_x eyebrows_low pupil_size eyebrow_angle : ℚ)
    (i : ℤ) : List Call :=
  let pupil_r := pupil_radius pupil_size
  let eye_center_x := LEFT_EYE_CENTER_X + i * EYE_SEPARATION
  let iris_cx := iris_center eye_center_x pupil_x IRIS_SHIFT_X
  let iris_cy := iris_center EYE_CENTER_Y pupil_y IRIS_SHIFT_Y
  let eyebrow_y_base_pos := EYEBROW_Y_BASE + f2i (f32 (eyebrows_low * i2f EYEBROW_Y_RANGE))
  let tan_angle := tanf (tan_arg (clamped_angle i eyebrow_angle))
  iris_calls iris_cx iris_cy ++ pupil_calls iris_cx iris_cy pupil_r
    ++ eyebrow_calls eye_center_x eyebrow_y_base_pos tan_angle

/-- The writes of `draw_open` after the `memcpy`, in program order. -/
def draw_open_calls (tanf : ℚ → ℚ)
    (pupil_y pupil_x eyebrows_low pupil_size eyebrow_angle : ℚ) : List Call :=
  (forLt 0 2).flatMap fun i =>
    eye_calls tanf pupil_y pupil_x eyebrows_low pupil_size eyebrow_angle i

/-- The renderer `Eyes::draw_open`. -/
def draw_open (tanf : ℚ → ℚ) (pupil_y pupil_x eyebrows_low pupil_size eyebrow_angle : ℚ)
    (buffer : List ℕ) (s : State) : Option (List ℕ × State) :=
  (generate_sclera_mask s).bind fun s1 =>
    (run (draw_open_calls tanf pupil_y pupil_x eyebrows_low pupil_size eyebrow_angle)
      (memcpy buffer s1.sclera_mask BUFFER_SIZE)).map fun out => (out, s1)

/-! ## `Eyes::draw_half_open` -/

/-- The writes of `draw_half_open` after `clear_buffer`. -/
def draw_half_open_calls : List Call :=
  let pupil_y : ℚ := 0
  let pupil_x : ℚ := 0
  let pupil_size : ℚ := f32 (3 / 10)
  let pupil_r := pupil_radius pupil_size
  (forLt 0 2).flatMap fun i =>
    let eye_center_x := LEFT_EYE_CENTER_X + i * EYE_SEPARATION
    let iris_cx := iris_center eye_center_x pupil_x IRIS_SHIFT_X
    let iris_cy := iris_center EYE_CENTER_Y pupil_y IRIS_SHIFT_Y
    (forLt 0 SCREEN_HEIGHT).flatMap fun y =>
      ((forLt (eye_center_x - EYE_R) (eye_center_x + EYE_R)).filter fun x =>
        in_eye eye_center_x x y
          && !(decide (y < UPPER_EYELID_Y) || decide (y > LOWER_EYELID_Y))
          && (!within x iris_cx y iris_cy (i2f (IRIS_R * IRIS_R))
              || within x iris_cx y iris_cy (f32 (pupil_r * pupil_r)))).map fun x =>
        Call.set x y

/-- The renderer `Eyes::draw_half_open`. -/
def draw_half_open (buffer : List ℕ) : Option (List ℕ) :=
  run draw_half_open_calls (clear_buffer buffer)

/-! ## `Eyes::draw_closed` -/

/-- The writes of `draw_closed` after `clear_buffer`. -/
def draw_closed_calls : List Call :=
  (forLt 0 2).flatMap fun i =>
    let eye_center_x := LEFT_EYE_CENTER_X + i * EYE_SEPARATION
    let eye_start_x := eye_center_x - CLOSED_EYE_LENGTH / 2
    let eye_end_x := eye_center_x + CLOSED_EYE_LENGTH / 2
    (forLt CLOSED_EYE_Y (CLOSED_EYE_Y + CLOSED_EYE_THICKNESS)).flatMap fun y =>
      (forLt eye_start_x eye_end_x).map fun x => Call.set x y

/-- The renderer `Eyes::draw_closed`. -/
def draw_closed (buffer : List ℕ) : Option (List ℕ) :=
  run draw_closed_calls (clear_buffer buffer)

/-! ## Sequences of render calls -/

/-- One call of a renderer by the sequencer. -/
inductive RenderCall where
  | draw_open (pupil_y pupil_x eyebrows_low pupil_size eyebrow_angle : ℚ)
  | draw_half_open
  | draw_closed

def RenderCall.isOpen : RenderCall → Bool
  | .draw_open _ _ _ _ _ => true
  | _ => false

/-- The parameters of the call lie in their declared ranges. -/
def RenderCall.InRange : RenderCall → Prop
  | .draw_open pupil_y pupil_x eyebrows_low pupil_size _ =>
      -1 ≤ pupil_y ∧ pupil_y ≤ 1 ∧ -1 ≤ pupil_x ∧ pupil_x ≤ 1 ∧
      0 ≤ eyebrows_low ∧ eyebrows_low ≤ 1 ∧ 0 ≤ pupil_size ∧ pupil_size ≤ 1
  | _ => True

/-- Effect of one render call on the caller's buffer and on the file-scope state.  Only
`draw_open` is given the state; `draw_half_open` and `draw_closed` do not mention it. -/
def step (tanf : ℚ → ℚ) : List ℕ × State → RenderCall → Option (List ℕ × State)
  | (buffer, s), .draw_open pupil_y pupil_x eyebrows_low pupil_size eyebrow_angle =>
      draw_open tanf pupil_y pupil_x eyebrows_low pupil_size eyebrow_angle buffer s
  | (buffer, s), .draw_half_open => (draw_half_open buffer).map fun out => (out, s)
  | (buffer, s), .draw_closed => (draw_closed buffer).map fun out => (out, s)

/-- A single-threaded sequence of render calls on the same buffer. -/
def run_calls (tanf : ℚ → ℚ) (calls : List RenderCall) (start : List ℕ × State) :
    Option (List ℕ × State) :=
  calls.foldlM (step tanf) start

/-! ## Specification of the half-open frame -/

/-- Bit of pixel `(x, y)` of the half-open frame as specified: the bit of the sclera mask,
restricted to the rows 24..40 and to the pixels outside the iris disk (radius 9) or inside the
pupil disk (radius 4.2) of the eye of the pixel, in exact arithmetic. -/
def half_open_spec (mask : List ℕ) (x y : ℤ) : Bool :=
  let cx : ℤ := if x < 64 then 32 else 96
  let d : ℚ := (((x - cx) ^ 2 + (y - 32) ^ 2 : ℤ) : ℚ)
  pixel_bit mask x y && decide (24 ≤ y ∧ y ≤ 40)
    && (decide (81 < d) || decide (d ≤ (21 / 5) ^ 2))

/-! ## Eyebrow angles that are not finite

The parameter `eyebrow_angle` of `draw_open` is a `float` that the callers pass on unchecked, so
it can be infinite or NaN.  The definitions below follow `draw_open` for such an angle; the other
four parameters stay finite. -/

/-- A value of type `float`: finite, `+inf`, `-inf` or NaN. -/
inductive CFloat where
  | finite (q : ℚ)
  | inf
  | neg_inf
  | nan
deriving DecidableEq

/-- Unary minus on `float`: `-NaN` is NaN. -/
def CFloat.neg : CFloat → CFloat
  | .finite q => .finite (-q)
  | .inf => .neg_inf
  | .neg_inf => .inf
  | .nan => .nan

/-- The C function `fminf(a, b)` with a finite `a`.  If `b` is NaN the result is `a`.  The
result is finite or `-inf`, for which `none` stands. -/
def fminf_any (a : ℚ) : CFloat → Option ℚ
  | .finite q => some (fminf a q)
  | .inf => some a
  | .neg_inf => none
  | .nan => some a

/-- The C function `fmaxf(a, b)` with a finite `a` and `b` finite or `-inf` (`none`). -/
def fmaxf_any (a : ℚ) : Option ℚ → ℚ
  | some q => fmaxf a q
  | none => a

/-- The eyebrow angle of eye `i` after mirroring and clamping, for any `float` angle. -/
def clamped_angle_any (i : ℤ) (eyebrow_angle : CFloat) : ℚ :=
  fmaxf_any (-EYEBROW_ANGLE_LIMIT)
    (fminf_any EYEBROW_ANGLE_LIMIT (if i = 1 then eyebrow_angle.neg else eyebrow_angle))

/-- The writes of one iteration of the per-eye loop of `draw_open`, for any `float` angle. -/
def eye_calls_any (tanf : ℚ → ℚ) (pupil_y pupil_x eyebrows_low pupil_size : ℚ)
    (eyebrow_angle : CFloat) (i : ℤ) : List Call :=
  let pupil_r := pupil_radius pupil_size
  let eye_center_x := LEFT_EYE_CENTER_X + i * EYE_SEPARATION
  let iris_cx := iris_center eye_center_x pupil_x IRIS_SHIFT_X
  let iris_cy := iris_center EYE_CENTER_Y pupil_y IRIS_SHIFT_Y
  let eyebrow_y_base_pos := EYEBROW_Y_BASE + f2i (f32 (eyebrows_low * i2f EYEBROW_Y_RANGE))
  let tan_angle := tanf (tan_arg (clamped_angle_any i eyebrow_angle))
  iris_calls iris_cx iris_cy ++ pupil_calls iris_cx iris_cy pupil_r
    ++ eyebrow_calls eye_center_x eyebrow_y_base_pos tan_angle

/-- The writes of `draw_open` after the `memcpy`, for any `float` angle. -/
def draw_open_calls_any (tanf : ℚ → ℚ) (pupil_y pupil_x eyebrows_low pupil_size : ℚ)
    (eyebrow_angle : CFloat) : List Call :=
  (forLt 0 2).flatMap fun i =>
    eye_calls_any tanf pupil_y pupil_x eyebrows_low pupil_size eyebrow_angle i

/-- The renderer `Eyes::draw_open`, for any `float` angle. -/
def draw_open_any (tanf : ℚ → ℚ) (pupil_y pupil_x eyebrows_low pupil_size : ℚ)
    (eyebrow_angle : CFloat) (buffer : List ℕ) (s : State) : Option (List ℕ × State) :=
  (generate_sclera_mask s).bind fun s1 =>
    (run (draw_open_calls_any tanf pupil_y pupil_x eyebrows_low pupil_size eyebrow_angle)
      (memcpy buffer s1.sclera_mask BUFFER_SIZE)).map fun out => (out, s1)

end Eyes

/-!
# Hex decoding (`src/main.cpp`)

`hexToBytes` on the characters of the Arduino `String`.  The output array is represented by the
writes `out[outIndex] = byte` the loop makes, in program order.
-/

namespace Main

/-- Value of one hex digit as the `if` chains of `hexToBytes` compute it: `c - '0'` for a
decimal digit, `10 + (c - 'a')` for a lowercase letter up to `f`, no value otherwise. -/
def hexDigit (c : Char) : Option ℕ :=
  if '0' ≤ c ∧ c ≤ '9' then some (c.toNat - '0'.toNat)
  else if 'a' ≤ c ∧ c ≤ 'f' then some (10 + (c.toNat - 'a'.toNat))
  else none

/-- Outcome of `hexToBytes`: the writes `(index, byte)` made into `out`, and the return value. -/
structure HexResult where
  writes : List (ℕ × ℕ)
  ret : ℕ
deriving DecidableEq

/-- The loop `for (size_t i = 0; i < len; i += 2)` of `hexToBytes`, on the characters from
position `i` on: `return 0` at an invalid character, `out[outIndex++] = (hi << 4) | lo`
otherwise, `return outIndex` at the end. -/
def hexLoop : List Char → ℕ → List (ℕ × ℕ) → HexResult
  | hi_c :: lo_c :: rest, outIndex, writes =>
    match hexDigit hi_c, hexDigit lo_c with
    | some hi, some lo =>
      hexLoop rest (outIndex + 1) (writes ++ [(outIndex, ((hi <<< 4) ||| lo) % 256)])
    | _, _ => ⟨writes, 0⟩
  | _, outIndex, writes => ⟨writes, outIndex⟩

set_option linter.unusedVariables false in
/-- The function `hexToBytes(hex, out, outMax)`. -/
def hexToBytes (hex : List Char) (outMax : ℕ) : HexResult :=
  if hex.length % 2 ≠ 0 then ⟨[], 0⟩ else hexLoop hex 0 []

end Main

namespace Eyes

/-! ## Rounding lemmas -/

theorem roundEven_le {y : ℚ} {m : ℤ} (h : y ≤ m) : roundEven y ≤ m := by
  have hfl : ⌊y⌋ ≤ m := by
    have := Int.floor_le_floor h
    simpa using this
  by_cases hy : Int.fract y = 0
  · have : roundEven y = ⌊y⌋ := by
      unfold roundEven; rw [hy]; norm_num
    rw [this]; exact hfl
  · have hlt : ⌊y⌋ < m := by
      rcases lt_or_eq_of_le hfl with h1 | h1
      · exact h1
      · exfalso
        apply hy
        have h2 : (⌊y⌋ : ℚ) ≤ y := Int.floor_le y
        have h3 : y = ⌊y⌋ := le_antisymm (by rw [h1]; exact h) h2
        rw [Int.fract, ← h3]; simp
    unfold roundEven
    split_ifs <;> omega

theorem le_roundEven {y : ℚ} {m : ℤ} (h : (m : ℚ) ≤ y) : m ≤ roundEven y := by
  have hfl : m ≤ ⌊y⌋ := Int.le_floor.mpr h
  unfold roundEven
  split_ifs <;> omega

theorem roundEven_intCast (m : ℤ) : roundEven (m : ℚ) = m :=
  le_antisymm (roundEven_le le_rfl) (le_roundEven le_rfl)


theorem roundEven_neg (y : ℚ) : roundEven (-y) = -roundEven y := by
  by_cases hy : Int.fract y = 0
  · have h3 : y = ⌊y⌋ := by
      have := Int.self_sub_floor y
      rw [hy] at this; linarith
    rw [h3, ← Int.cast_neg, roundEven_intCast, roundEven_intCast]
  · have hfl : ⌊-y⌋ = -⌊y⌋ - 1 := by
      rw [Int.floor_eq_iff]
      have h1 := Int.floor_le y
      have h2 := Int.lt_floor_add_one y
      have h3 : (⌊y⌋ : ℚ) ≠ y := by
        intro h; apply hy; rw [Int.fract, ← h]; simp
      have h4 : (⌊y⌋ : ℚ) < y := lt_of_le_of_ne h1 h3
      push_cast
      constructor <;> linarith
    have hfr : Int.fract (-y) = 1 - Int.fract y := by
      rw [Int.fract, Int.fract, hfl]; push_cast; ring
    unfold roundEven
    rw [hfr, hfl]
    have hpos : 0 < Int.fract y := lt_of_le_of_ne (Int.fract_nonneg y) (Ne.symm hy)
    by_cases c1 : Int.fract y < 1 / 2
    · have c2 : ¬ (1 - Int.fract y < 1 / 2) := by linarith
      have c3 : 1 / 2 < 1 - Int.fract y := by linarith
      simp only [c1, c2, c3, if_true, if_false]; ring
    · by_cases c2 : 1 / 2 < Int.fract y
      · have c3 : 1 - Int.fract y < 1 / 2 := by linarith
        simp only [c1, c2, c3, if_true, if_false]; ring
      · have c3 : ¬ (1 - Int.fract y < 1 / 2) := by linarith
        have c4 : ¬ (1 / 2 < 1 - Int.fract y) := by linarith
        simp only [c1, c2, c3, c4, if_false]
        split_ifs <;> omega

theorem roundEven_eq_of_near {y : ℚ} {n : ℤ} (h : |y - n| < 1 / 2) : roundEven y = n := by
  rw [abs_lt] at h
  obtain ⟨h1, h2⟩ := h
  have hf1 := Int.floor_le y
  have hf2 := Int.lt_floor_add_one y
  unfold roundEven
  by_cases c : y < n
  · have hfl : ⌊y⌋ = n - 1 := by
      rw [Int.floor_eq_iff]; push_cast; constructor <;> linarith
    have hfr : Int.fract y = y - n + 1 := by rw [Int.fract, hfl]; push_cast; ring
    rw [hfr, hfl]
    have c1 : ¬ (y - n + 1 < 1 / 2) := by linarith
    have c2 : 1 / 2 < y - n + 1 := by linarith
    simp only [c1, c2, if_true, if_false]; ring
  · have hfl : ⌊y⌋ = n := by
      rw [Int.floor_eq_iff]; constructor <;> linarith
    have hfr : Int.fract y = y - n := by rw [Int.fract, hfl]
    rw [hfr, hfl]
    have c1 : y - n < 1 / 2 := by linarith
    simp only [c1, if_true]

theorem two_zpow_pos (e : ℤ) : (0 : ℚ) < (2 : ℚ) ^ e := zpow_pos (by norm_num) e

theorem roundBin_neg (p : ℕ) (emin : ℤ) (x : ℚ) : roundBin p emin (-x) = -roundBin p emin x := by
  unfold roundBin ulpExp
  rw [abs_neg, neg_div, roundEven_neg]
  push_cast; ring

theorem roundBin_zero (p : ℕ) (emin : ℤ) : roundBin p emin 0 = 0 := by
  unfold roundBin
  rw [zero_div]
  have : roundEven 0 = 0 := by simpa using roundEven_intCast 0
  rw [this]; simp


theorem ulpExp_eq_of_lt {p : ℕ} {emin k : ℤ} {x : ℚ} (hk : emin ≤ k) (h : k < ulpExp p emin x) :
    ulpExp p emin x = Int.log 2 |x| + 1 - (p : ℤ) := by
  unfold ulpExp at h ⊢
  rcases le_total (Int.log 2 |x| + 1 - (p : ℤ)) emin with c | c
  · rw [max_eq_right c] at h; omega
  · rw [max_eq_left c]

theorem abs_rep_lt {p : ℕ} {m k : ℤ} (hm : |m| < 2 ^ p) :
    |(m : ℚ) * (2 : ℚ) ^ k| < (2 : ℚ) ^ ((p : ℤ) + k) := by
  rw [abs_mul, abs_of_pos (two_zpow_pos k), zpow_add₀ (by norm_num), zpow_natCast]
  have : |(m : ℚ)| < (2 : ℚ) ^ p := by exact_mod_cast hm
  exact mul_lt_mul_of_pos_right this (two_zpow_pos k)

theorem roundBin_le_of_le {p : ℕ} {emin : ℤ} {x b : ℚ} (hp : 1 ≤ p)
    (hb : IsRep p emin b) (h : x ≤ b) : roundBin p emin x ≤ b := by
  obtain ⟨m, k, hm, hk, rfl⟩ := hb
  have hu : (0 : ℚ) < 2 ^ ulpExp p emin x := two_zpow_pos _
  by_cases hke : ulpExp p emin x ≤ k
  · have hint : (m : ℚ) * 2 ^ k
        = ((m * 2 ^ (k - ulpExp p emin x).toNat : ℤ) : ℚ) * 2 ^ ulpExp p emin x := by
      push_cast
      rw [mul_assoc, ← zpow_natCast, ← zpow_add₀ (by norm_num)]
      congr 2
      rw [Int.toNat_of_nonneg (by omega)]; ring
    have h1 : x / 2 ^ ulpExp p emin x ≤ ((m * 2 ^ (k - ulpExp p emin x).toNat : ℤ) : ℚ) := by
      rw [div_le_iff₀ hu, ← hint]; exact h
    have h2 := roundEven_le h1
    rw [hint]
    unfold roundBin
    exact mul_le_mul_of_nonneg_right (by exact_mod_cast h2) hu.le
  · push_neg at hke
    have hE := ulpExp_eq_of_lt hk hke
    have hbl := abs_rep_lt (k := k) hm
    have hpk : (2 : ℚ) ^ ((p : ℤ) + k) ≤ 2 ^ Int.log 2 |x| :=
      zpow_le_zpow_right₀ (by norm_num) (by omega)
    rw [abs_lt] at hbl
    rcases lt_trichotomy x 0 with hx | hx | hx
    · have hlog : (2 : ℚ) ^ Int.log 2 |x| ≤ |x| := by
        have := Int.zpow_log_le_self (b := 2) (r := |x|) (by norm_num) (abs_pos.mpr hx.ne)
        simpa using this
      have habs : |x| = -x := abs_of_neg hx
      have hsplit : (2 : ℚ) ^ Int.log 2 |x|
          = (((2 : ℤ) ^ (p - 1) : ℤ) : ℚ) * 2 ^ ulpExp p emin x := by
        push_cast
        rw [← zpow_natCast, ← zpow_add₀ (by norm_num)]
        congr 1
        rw [hE]; push_cast [Nat.cast_sub hp]; ring
      have h1 : x / 2 ^ ulpExp p emin x ≤ ((-(2 : ℤ) ^ (p - 1) : ℤ) : ℚ) := by
        rw [div_le_iff₀ hu]
        push_cast
        rw [neg_mul]
        have := hsplit
        push_cast at this
        rw [← this]; linarith [habs]
      have h2 := roundEven_le h1
      have h3 : roundBin p emin x ≤ ((-(2 : ℤ) ^ (p - 1) : ℤ) : ℚ) * 2 ^ ulpExp p emin x := by
        unfold roundBin
        exact mul_le_mul_of_nonneg_right (by exact_mod_cast h2) hu.le
      have h4 : ((-(2 : ℤ) ^ (p - 1) : ℤ) : ℚ) * 2 ^ ulpExp p emin x
          = - (2 : ℚ) ^ Int.log 2 |x| := by
        rw [hsplit]; push_cast; ring
      rw [h4] at h3
      linarith [hbl.1, habs]
    · subst hx
      rw [roundBin_zero]; exact h
    · exfalso
      have hlog : (2 : ℚ) ^ Int.log 2 |x| ≤ |x| := by
        have := Int.zpow_log_le_self (b := 2) (r := |x|) (by norm_num) (abs_pos.mpr hx.ne')
        simpa using this
      have habs : |x| = x := abs_of_pos hx
      linarith [hbl.2, habs]

theorem IsRep.neg {p : ℕ} {emin : ℤ} {b : ℚ} (hb : IsRep p emin b) : IsRep p emin (-b) := by
  obtain ⟨m, k, hm, hk, rfl⟩ := hb
  exact ⟨-m, k, by rwa [abs_neg], hk, by push_cast; ring⟩

theorem le_roundBin_of_le {p : ℕ} {emin : ℤ} {x b : ℚ} (hp : 1 ≤ p)
    (hb : IsRep p emin b) (h : b ≤ x) : b ≤ roundBin p emin x := by
  have := roundBin_le_of_le hp hb.neg (neg_le_neg h)
  rw [roundBin_neg] at this
  linarith

theorem roundBin_of_isRep {p : ℕ} {emin : ℤ} {b : ℚ} (hp : 1 ≤ p)
    (hb : IsRep p emin b) : roundBin p emin b = b :=
  le_antisymm (roundBin_le_of_le hp hb le_rfl) (le_roundBin_of_le hp hb le_rfl)

/-! ## binary32 facts -/

theorem isRep_int {p : ℕ} {emin : ℤ} (n : ℤ) (hn : |n| < 2 ^ p) (he : emin ≤ 0) :
    IsRep p emin (n : ℚ) :=
  ⟨n, 0, hn, he, by simp⟩

theorem isRep32_int (n : ℤ) (hn : |n| < 16777216) : IsRep 24 (-149) (n : ℚ) :=
  isRep_int n (by norm_num; exact hn) (by norm_num)

theorem f32_le_int {x : ℚ} {n : ℤ} (hn : |n| < 16777216) (h : x ≤ n) : f32 x ≤ n :=
  roundBin_le_of_le (by norm_num) (isRep32_int n hn) h

theorem int_le_f32 {x : ℚ} {n : ℤ} (hn : |n| < 16777216) (h : (n : ℚ) ≤ x) : (n : ℚ) ≤ f32 x :=
  le_roundBin_of_le (by norm_num) (isRep32_int n hn) h

theorem f32_int (n : ℤ) (hn : |n| < 16777216) : f32 (n : ℚ) = n :=
  roundBin_of_isRep (by norm_num) (isRep32_int n hn)

theorem i2f_eq (n : ℤ) (hn : |n| < 16777216) : i2f n = n := f32_int n hn

theorem f32_zero : f32 0 = 0 := roundBin_zero _ _

theorem f32_neg (x : ℚ) : f32 (-x) = -f32 x := roundBin_neg _ _ _

theorem f32_nonneg {x : ℚ} (h : 0 ≤ x) : 0 ≤ f32 x := by
  have := int_le_f32 (n := 0) (by norm_num) (by simpa using h)
  simpa using this

/-! ## Results of rounding lie on the binary grid -/

theorem roundBin_isRep {p : ℕ} {emin : ℤ} (hp : 1 ≤ p) (x : ℚ) :
    IsRep p emin (roundBin p emin x) := by
  have hu : (0 : ℚ) < 2 ^ ulpExp p emin x := two_zpow_pos _
  have he : Int.log 2 |x| + 1 - (p : ℤ) ≤ ulpExp p emin x := le_max_left _ _
  have hemin : emin ≤ ulpExp p emin x := le_max_right _ _
  have hlt : |x| < (2 : ℚ) ^ (ulpExp p emin x + p) := by
    have h1 := Int.lt_zpow_succ_log_self (b := 2) (by norm_num) |x|
    have h2 : ((2 : ℕ) : ℚ) ^ (Int.log 2 |x| + 1) ≤ (2 : ℚ) ^ (ulpExp p emin x + p) := by
      push_cast
      exact zpow_le_zpow_right₀ (by norm_num) (by omega)
    exact lt_of_lt_of_le h1 h2
  have hsplit : (2 : ℚ) ^ (ulpExp p emin x + p)
      = (((2 : ℤ) ^ p : ℤ) : ℚ) * 2 ^ ulpExp p emin x := by
    push_cast
    rw [zpow_add₀ (by norm_num), zpow_natCast]; ring
  rw [hsplit, abs_lt] at hlt
  have hN1 : roundEven (x / 2 ^ ulpExp p emin x) ≤ (2 : ℤ) ^ p := by
    apply roundEven_le
    rw [div_le_iff₀ hu]; exact hlt.2.le
  have hN2 : -(2 : ℤ) ^ p ≤ roundEven (x / 2 ^ ulpExp p emin x) := by
    apply le_roundEven
    rw [le_div_iff₀ hu]; push_cast; push_cast at hlt; linarith [hlt.1]
  have hpow : (2 : ℤ) ^ p = 2 * 2 ^ (p - 1) := by
    rw [← pow_succ']; congr 1; omega
  have hpos : (0 : ℤ) < 2 ^ (p - 1) := by positivity
  unfold roundBin
  rcases lt_or_eq_of_le hN1 with h1 | h1
  · rcases lt_or_eq_of_le hN2 with h2 | h2
    · exact ⟨_, _, by rw [abs_lt]; exact ⟨h2, h1⟩, hemin, rfl⟩
    · refine ⟨-(2 : ℤ) ^ (p - 1), ulpExp p emin x + 1, ?_, by omega, ?_⟩
      · rw [abs_neg, abs_of_pos hpos, hpow]; omega
      · rw [← h2, hpow, zpow_add₀ (by norm_num)]; push_cast; ring
  · refine ⟨(2 : ℤ) ^ (p - 1), ulpExp p emin x + 1, ?_, by omega, ?_⟩
    · rw [abs_of_pos hpos, hpow]; omega
    · rw [h1, hpow, zpow_add₀ (by norm_num)]; push_cast; ring

theorem f32_isRep (x : ℚ) : IsRep 24 (-149) (f32 x) := roundBin_isRep (by norm_num) x

/-- A representable value of magnitude at least `2 ^ j` is a multiple of `2 ^ (j + 1 - p)`. -/
theorem isRep_grid {p : ℕ} {emin : ℤ} {r : ℚ} (hr : IsRep p emin r) (j : ℤ)
    (h : (2 : ℚ) ^ j ≤ |r|) : ∃ z : ℤ, r = (z : ℚ) * (2 : ℚ) ^ (j + 1 - (p : ℤ)) := by
  obtain ⟨m, k, hm, _, rfl⟩ := hr
  by_cases hk : j + 1 - (p : ℤ) ≤ k
  · refine ⟨m * 2 ^ (k - (j + 1 - (p : ℤ))).toNat, ?_⟩
    push_cast
    rw [mul_assoc, ← zpow_natCast, ← zpow_add₀ (by norm_num)]
    congr 2
    rw [Int.toNat_of_nonneg (by omega)]; ring
  · exfalso
    push_neg at hk
    have h1 := abs_rep_lt (k := k) hm
    have h2 : (2 : ℚ) ^ ((p : ℤ) + k) ≤ 2 ^ j := zpow_le_zpow_right₀ (by norm_num) (by omega)
    linarith

theorem isRep32_of_grid (z : ℤ) (k : ℤ) (hz : |z| < 16777216) (hk : -149 ≤ k) :
    IsRep 24 (-149) ((z : ℚ) * (2 : ℚ) ^ k) :=
  ⟨z, k, by norm_num; exact hz, hk, rfl⟩

/-- Subtracting a binary32 value `c >= 16` from a nearby integer is exact. -/
theorem f32_int_sub_exact (y : ℤ) (c : ℚ) (hc : IsRep 24 (-149) c) (h16 : 16 ≤ c)
    (hnear : |(y : ℚ) - c| < 16) : f32 ((y : ℚ) - c) = (y : ℚ) - c := by
  obtain ⟨z, hz⟩ := isRep_grid hc 4 (by rw [abs_of_nonneg (by linarith)]; norm_num; exact h16)
  norm_num at hz
  have hval : (y : ℚ) - c = ((y * 524288 - z : ℤ) : ℚ) * (2 : ℚ) ^ (-19 : ℤ) := by
    rw [hz]; push_cast
    have : (2 : ℚ) ^ (-19 : ℤ) = 1 / 524288 := by norm_num [zpow_neg]
    rw [this]; ring
  have hbound : |y * 524288 - z| < 16777216 := by
    have h2 : (2 : ℚ) ^ (-19 : ℤ) = 1 / 524288 := by norm_num [zpow_neg]
    rw [hval, h2, abs_lt] at hnear
    rw [abs_lt]
    constructor
    · have := hnear.1
      have h3 : (-16777216 : ℚ) < ((y * 524288 - z : ℤ) : ℚ) := by linarith
      exact_mod_cast h3
    · have := hnear.2
      have h3 : ((y * 524288 - z : ℤ) : ℚ) < 16777216 := by linarith
      exact_mod_cast h3
  unfold f32
  rw [hval]
  exact roundBin_of_isRep (by norm_num) (isRep32_of_grid _ _ hbound (by norm_num))

theorem f32_le_of_grid {x : ℚ} (z k : ℤ) (hz : |z| < 16777216) (hk : -149 ≤ k)
    (h : x ≤ (z : ℚ) * (2 : ℚ) ^ k) : f32 x ≤ (z : ℚ) * (2 : ℚ) ^ k :=
  roundBin_le_of_le (by norm_num) (isRep32_of_grid z k hz hk) h

/-- Squaring in binary32 keeps a pupil radius `r` in `[3, 7]` strictly below the square of
every integer above `r`. -/
theorem f32_sq_lt_of_lt (r : ℚ) (hr : IsRep 24 (-149) r) (h3 : 3 ≤ r) (h7 : r ≤ 7)
    (k : ℤ) (hk : r < k) : f32 (r * r) < (k : ℚ) * k := by
  have hk4 : 4 ≤ k := by
    have : (3 : ℚ) < k := lt_of_le_of_lt h3 hk
    have : (3 : ℤ) < k := by exact_mod_cast this
    omega
  by_cases hk8 : 8 ≤ k
  · have h1 : f32 (r * r) ≤ ((49 : ℤ) : ℚ) := f32_le_int (by norm_num) (by push_cast; nlinarith)
    have h2 : (8 : ℚ) ≤ k := by exact_mod_cast hk8
    push_cast at h1
    nlinarith
  · push_neg at hk8
    by_cases hk1 : r ≤ k - 1
    · have h1 : f32 (r * r) ≤ (((k - 1) * (k - 1) : ℤ) : ℚ) := by
        apply f32_le_int
        · rw [abs_lt]; constructor <;> nlinarith
        · push_cast; nlinarith
      push_cast at h1
      have : (4 : ℚ) ≤ k := by exact_mod_cast hk4
      nlinarith
    · push_neg at hk1
      by_cases hk5 : k = 4
      · subst hk5
        obtain ⟨z, hz⟩ := isRep_grid hr 1 (by rw [abs_of_nonneg (by linarith)]; norm_num; linarith)
        norm_num at hz
        have hzlt : z < 16777216 := by
          have : (z : ℚ) < 16777216 := by
            push_cast at hk; rw [hz] at hk; linarith
          exact_mod_cast this
        have hzle : (z : ℚ) ≤ 16777215 := by
          have : z ≤ 16777215 := by omega
          exact_mod_cast this
        have hrle : r ≤ 4 - 1 / 4194304 := by rw [hz]; linarith
        have h20 : (2 : ℚ) ^ (-20 : ℤ) = 1 / 1048576 := by norm_num [zpow_neg]
        have h1 : f32 (r * r) ≤ ((16777215 : ℤ) : ℚ) * (2 : ℚ) ^ (-20 : ℤ) := by
          apply f32_le_of_grid _ _ (by norm_num) (by norm_num)
          rw [h20]; push_cast; nlinarith
        rw [h20] at h1
        push_cast at h1 ⊢
        linarith
      · have hk5' : 5 ≤ k := by omega
        have hk5q : (5 : ℚ) ≤ k := by exact_mod_cast hk5'
        have hk7q : (k : ℚ) ≤ 7 := by
          have : k ≤ 7 := by omega
          exact_mod_cast this
        obtain ⟨z, hz⟩ := isRep_grid hr 2 (by rw [abs_of_nonneg (by linarith)]; norm_num; linarith)
        norm_num at hz
        have hzlt : z < k * 2097152 := by
          have : (z : ℚ) < k * 2097152 := by rw [hz] at hk; linarith
          exact_mod_cast this
        have hzle : (z : ℚ) ≤ k * 2097152 - 1 := by
          have : z ≤ k * 2097152 - 1 := by omega
          exact_mod_cast this
        have hrle : r ≤ k - 1 / 2097152 := by rw [hz]; linarith
        have h18 : (2 : ℚ) ^ (-18 : ℤ) = 1 / 262144 := by norm_num [zpow_neg]
        have h1 : f32 (r * r) ≤ ((k * k * 262144 - 1 : ℤ) : ℚ) * (2 : ℚ) ^ (-18 : ℤ) := by
          apply f32_le_of_grid _ _ _ (by norm_num)
          · rw [h18]; push_cast; nlinarith
          · rw [abs_lt]; constructor <;> nlinarith
        rw [h18] at h1
        push_cast at h1
        linarith

/-! ## Pixel writes -/

theorem byte_set_bit (b k j : ℕ) (hj : j < 8) :
    ((b ||| 1 <<< k) % 256).testBit j = (decide (k = j) || b.testBit j) := by
  have : (256 : ℕ) = 2 ^ 8 := by norm_num
  rw [this, Nat.testBit_mod_two_pow, Nat.testBit_lor, Nat.one_shiftLeft, Nat.testBit_two_pow]
  simp [hj, Bool.or_comm]

theorem byte_clear_bit (b k j : ℕ) (hj : j < 8) :
    ((b &&& (0xFFFFFFFF ^^^ 1 <<< k)) % 256).testBit j = (!decide (k = j) && b.testBit j) := by
  have h1 : (256 : ℕ) = 2 ^ 8 := by norm_num
  have h2 : (0xFFFFFFFF : ℕ) = 2 ^ 32 - 1 := by norm_num
  rw [h1, Nat.testBit_mod_two_pow, Nat.testBit_land, Nat.testBit_xor, h2,
    Nat.testBit_two_pow_sub_one, Nat.one_shiftLeft, Nat.testBit_two_pow]
  have : j < 32 := by omega
  simp [hj, this, Bool.and_comm]


theorem pixel_split {x y x' y' : ℤ} (hx : 0 ≤ x) (hx2 : x < 128) (hx' : 0 ≤ x') (hx2' : x' < 128)
    (h1 : (y * 128 + x) / 8 = (y' * 128 + x') / 8)
    (h2 : (y * 128 + x) % 8 = (y' * 128 + x') % 8) : x = x' ∧ y = y' := by
  omega

theorem exec_spec (c : Call) (buf : List ℕ) (hc : InScreen c) (hlen : buf.length = 1024) :
    ∃ out, c.exec buf = some out ∧ out.length = 1024 ∧
      ∀ x y : ℤ, 0 ≤ x → x < 128 → 0 ≤ y → y < 64 →
        pixel_bit out x y = if c.x = x ∧ c.y = y then c.lit else pixel_bit buf x y := by
  obtain ⟨h1, h2, h3, h4⟩ := hc
  simp only [SCREEN_WIDTH, SCREEN_HEIGHT] at h2 h4
  have hp0 : 0 ≤ c.y * 128 + c.x := by omega
  have hd : Int.tdiv (c.y * 128 + c.x) 8 = (c.y * 128 + c.x) / 8 :=
    Int.tdiv_eq_ediv hp0 (by norm_num)
  have hm : Int.tmod (c.y * 128 + c.x) 8 = (c.y * 128 + c.x) % 8 :=
    Int.tmod_eq_emod hp0 (by norm_num)
  have hin : 0 ≤ (c.y * 128 + c.x) / 8 ∧ (c.y * 128 + c.x) / 8 < 1024 := by omega
  have key : ∀ (v : ℕ), (∀ j : ℕ, j < 8 → v.testBit j =
        if (7 - (c.y * 128 + c.x) % 8).toNat = j then c.lit
        else (buf.getD ((c.y * 128 + c.x) / 8).toNat 0).testBit j) →
      ∀ x y : ℤ, 0 ≤ x → x < 128 → 0 ≤ y → y < 64 →
        pixel_bit (buf.set ((c.y * 128 + c.x) / 8).toNat v) x y
          = if c.x = x ∧ c.y = y then c.lit else pixel_bit buf x y := by
    intro v hv x y hx hx2 hy hy2
    have hq0 : 0 ≤ y * 128 + x := by omega
    unfold pixel_bit
    simp only [SCREEN_WIDTH]
    rw [Int.tdiv_eq_ediv hq0 (by norm_num), Int.tmod_eq_emod hq0 (by norm_num)]
    by_cases hi : (c.y * 128 + c.x) / 8 = (y * 128 + x) / 8
    · rw [← hi]
      have hget : (buf.set ((c.y * 128 + c.x) / 8).toNat v).getD
          ((c.y * 128 + c.x) / 8).toNat 0 = v := by
        rw [List.getD_eq_getElem?_getD, List.getElem?_set]
        have : ((c.y * 128 + c.x) / 8).toNat < buf.length := by omega
        simp [this]
      rw [hget, hv _ (by omega)]
      by_cases hb : (c.y * 128 + c.x) % 8 = (y * 128 + x) % 8
      · have := pixel_split h1 h2 hx hx2 hi hb
        simp [this.1, this.2, hb]
      · have hne : ¬ (c.x = x ∧ c.y = y) := by
          rintro ⟨rfl, rfl⟩; exact hb rfl
        have hne2 : ¬ ((7 - (c.y * 128 + c.x) % 8).toNat = (7 - (y * 128 + x) % 8).toNat) := by
          omega
        simp [hne, hne2]
    · have hne : ¬ (c.x = x ∧ c.y = y) := by
        rintro ⟨rfl, rfl⟩; exact hi rfl
      have hget : (buf.set ((c.y * 128 + c.x) / 8).toNat v).getD ((y * 128 + x) / 8).toNat 0
          = buf.getD ((y * 128 + x) / 8).toNat 0 := by
        rw [List.getD_eq_getElem?_getD, List.getD_eq_getElem?_getD, List.getElem?_set]
        have : ((c.y * 128 + c.x) / 8).toNat ≠ ((y * 128 + x) / 8).toNat := by omega
        simp [this]
      rw [hget]; simp [hne]
  cases c with
  | set cx cy =>
    simp only [Call.x, Call.y] at *
    have hex : (Call.set cx cy).exec buf = some (buf.set ((cy * 128 + cx) / 8).toNat
        ((buf.getD ((cy * 128 + cx) / 8).toNat 0 ||| 1 <<< (7 - (cy * 128 + cx) % 8).toNat)
          % 256)) := by
      simp only [Call.exec, set_pixel, SCREEN_WIDTH, BUFFER_SIZE, hd, hm]
      rw [if_pos (by constructor <;> omega)]
    refine ⟨_, hex, by simp [hlen], key _ ?_⟩
    · intro j hj
      rw [byte_set_bit _ _ _ hj]
      by_cases hjj : (7 - (cy * 128 + cx) % 8).toNat = j <;> simp [hjj, Call.lit]
  | clear cx cy =>
    simp only [Call.x, Call.y] at *
    have hex : (Call.clear cx cy).exec buf = some (buf.set ((cy * 128 + cx) / 8).toNat
        ((buf.getD ((cy * 128 + cx) / 8).toNat 0
          &&& (0xFFFFFFFF ^^^ 1 <<< (7 - (cy * 128 + cx) % 8).toNat)) % 256)) := by
      simp only [Call.exec, clear_pixel, SCREEN_WIDTH, BUFFER_SIZE, hd, hm]
      rw [if_pos (by constructor <;> omega)]
    refine ⟨_, hex, by simp [hlen], key _ ?_⟩
    · intro j hj
      rw [byte_clear_bit _ _ _ hj]
      by_cases hjj : (7 - (cy * 128 + cx) % 8).toNat = j <;> simp [hjj, Call.lit]

theorem run_spec (calls : List Call) : ∀ (buf : List ℕ), (∀ c ∈ calls, InScreen c) →
    buf.length = 1024 →
    ∃ out, run calls buf = some out ∧ out.length = 1024 ∧
      ∀ x y : ℤ, 0 ≤ x → x < 128 → 0 ≤ y → y < 64 →
        pixel_bit out x y = paint calls (pixel_bit buf x y) x y := by
  induction calls with
  | nil =>
    intro buf _ hlen
    exact ⟨buf, rfl, hlen, fun _ _ _ _ _ _ => rfl⟩
  | cons c cs ih =>
    intro buf hall hlen
    obtain ⟨mid, hmid, hmlen, hmbit⟩ := exec_spec c buf (hall c (List.mem_cons_self _ _)) hlen
    obtain ⟨out, hout, holen, hobit⟩ :=
      ih mid (fun c' hc' => hall c' (List.mem_cons_of_mem _ hc')) hmlen
    refine ⟨out, ?_, holen, ?_⟩
    · unfold run at hout ⊢
      rw [List.foldlM_cons, hmid]
      exact hout
    · intro x y hx hx2 hy hy2
      rw [hobit x y hx hx2 hy hy2, hmbit x y hx hx2 hy hy2]
      rfl

/-! ## Loops, painting, cleared buffers -/

theorem mem_forLt {lo hi v : ℤ} : v ∈ forLt lo hi ↔ lo ≤ v ∧ v < hi := by
  unfold forLt
  simp only [List.mem_map, List.mem_range]
  constructor
  · rintro ⟨k, hk, rfl⟩
    omega
  · rintro ⟨h1, h2⟩
    exact ⟨(v - lo).toNat, by omega, by omega⟩

theorem mem_forLe {lo v : ℤ} {hi : ℚ} : v ∈ forLe lo hi ↔ lo ≤ v ∧ (v : ℚ) ≤ hi := by
  unfold forLe
  rw [mem_forLt, Int.lt_add_one_iff, Int.le_floor]

theorem paint_append (a b : List Call) (v : Bool) (x y : ℤ) :
    paint (a ++ b) v x y = paint b (paint a v x y) x y := by
  unfold paint; rw [List.foldl_append]

theorem paint_uniform (l : Bool) (calls : List Call) : ∀ (v : Bool) (x y : ℤ),
    (∀ c ∈ calls, c.lit = l) →
    paint calls v x y = if (∃ c ∈ calls, c.x = x ∧ c.y = y) then l else v := by
  induction calls with
  | nil => intro v x y _; simp [paint]
  | cons c cs ih =>
    intro v x y h
    have hc := h c (List.mem_cons_self _ _)
    have hcs := fun c' hc' => h c' (List.mem_cons_of_mem _ hc')
    have : paint (c :: cs) v x y = paint cs (if c.x = x ∧ c.y = y then c.lit else v) x y := rfl
    rw [this, ih _ x y hcs]
    by_cases h1 : ∃ c' ∈ cs, c'.x = x ∧ c'.y = y
    · have h2 : ∃ c' ∈ c :: cs, c'.x = x ∧ c'.y = y := by
        obtain ⟨c', hc', hxy⟩ := h1
        exact ⟨c', List.mem_cons_of_mem _ hc', hxy⟩
      rw [if_pos h1, if_pos h2]
    · rw [if_neg h1]
      by_cases h3 : c.x = x ∧ c.y = y
      · have h2 : ∃ c' ∈ c :: cs, c'.x = x ∧ c'.y = y := ⟨c, List.mem_cons_self _ _, h3⟩
        rw [if_pos h3, if_pos h2, hc]
      · have h2 : ¬ ∃ c' ∈ c :: cs, c'.x = x ∧ c'.y = y := by
          rintro ⟨c', hc', hxy⟩
          rcases List.mem_cons.mp hc' with rfl | hc'
          · exact h3 hxy
          · exact h1 ⟨c', hc', hxy⟩
        rw [if_neg h3, if_neg h2]

theorem paint_of_not_mem (calls : List Call) (v : Bool) (x y : ℤ)
    (h : ∀ c ∈ calls, ¬ (c.x = x ∧ c.y = y)) : paint calls v x y = v := by
  induction calls generalizing v with
  | nil => rfl
  | cons c cs ih =>
    have : paint (c :: cs) v x y = paint cs (if c.x = x ∧ c.y = y then c.lit else v) x y := rfl
    rw [this, if_neg (h c (List.mem_cons_self _ _))]
    exact ih v (fun c' hc' => h c' (List.mem_cons_of_mem _ hc'))

theorem clear_buffer_eq (buffer : List ℕ) (hlen : buffer.length = 1024) :
    clear_buffer buffer = List.replicate 1024 0 := by
  unfold clear_buffer memset0 BUFFER_SIZE
  rw [List.drop_of_length_le (by omega), List.append_nil]

theorem pixel_bit_zeros (n : ℕ) (x y : ℤ) : pixel_bit (List.replicate n 0) x y = false := by
  unfold pixel_bit
  rw [List.getD_eq_getElem?_getD, List.getElem?_replicate]
  split_ifs <;> simp

theorem mem_draw_closed_calls (c : Call) : c ∈ draw_closed_calls ↔
    ∃ x y : ℤ, c = Call.set x y ∧ (y = 32 ∨ y = 33) ∧ (12 ≤ x ∧ x < 52 ∨ 76 ≤ x ∧ x < 116) := by
  unfold draw_closed_calls
  simp only [List.mem_flatMap, List.mem_map, mem_forLt, LEFT_EYE_CENTER_X, EYE_SEPARATION,
    CLOSED_EYE_LENGTH, CLOSED_EYE_Y, CLOSED_EYE_THICKNESS]
  constructor
  · rintro ⟨i, hi, y, hy, x, hx, rfl⟩
    refine ⟨x, y, rfl, by omega, by omega⟩
  · rintro ⟨x, y, rfl, hy, hx | hx⟩
    · exact ⟨0, by omega, y, by omega, x, by omega, rfl⟩
    · exact ⟨1, by omega, y, by omega, x, by omega, rfl⟩

/-! ## `draw_closed` -/

set_option maxRecDepth 1000000 in
theorem closed_bar_count :
    ((forLt 0 SCREEN_HEIGHT).flatMap fun y => (forLt 0 SCREEN_WIDTH).filter fun x =>
      decide ((y = 32 ∨ y = 33) ∧ (12 ≤ x ∧ x < 52 ∨ 76 ≤ x ∧ x < 116))).length = 160 := by
  decide

theorem draw_closed_calls_inScreen : ∀ c ∈ draw_closed_calls, InScreen c := by
  intro c hc
  obtain ⟨x, y, rfl, hy, hx⟩ := (mem_draw_closed_calls c).mp hc
  simp only [InScreen, Call.x, Call.y, SCREEN_WIDTH, SCREEN_HEIGHT]
  omega

theorem flatMap_filter_congr {α : Type} (ys : List α) (xs : List α) (p q : α → α → Bool)
    (h : ∀ y ∈ ys, ∀ x ∈ xs, p y x = q y x) :
    (ys.flatMap fun y => xs.filter fun x => p y x)
      = (ys.flatMap fun y => xs.filter fun x => q y x) := by
  induction ys with
  | nil => rfl
  | cons y ys ih =>
    simp only [List.flatMap_cons]
    rw [ih (fun y' hy' => h y' (List.mem_cons_of_mem _ hy'))]
    congr 1
    apply List.filter_congr
    intro x hx
    exact h y (List.mem_cons_self _ _) x hx

/-- C3: for every initial content of the 1024-byte buffer, `draw_closed` succeeds and in its
output the bit of pixel `(x, y)` is 1 exactly when `y` is 32 or 33 and `x` lies in `[12, 52)`
or `[76, 116)`; 160 pixels of the screen are lit in total. -/
theorem draw_closed_two_bars (buffer : List ℕ) (hlen : buffer.length = 1024) :
    ∃ out, draw_closed buffer = some out ∧ out.length = 1024 ∧
      (∀ x y : ℤ, 0 ≤ x → x < 128 → 0 ≤ y → y < 64 →
        (pixel_bit out x y = true ↔
          (y = 32 ∨ y = 33) ∧ (12 ≤ x ∧ x < 52 ∨ 76 ≤ x ∧ x < 116))) ∧
      lit_count out = 160 := by
  obtain ⟨out, hout, holen, hbit⟩ := run_spec draw_closed_calls (clear_buffer buffer)
    draw_closed_calls_inScreen
    (by rw [clear_buffer_eq buffer hlen]; exact List.length_replicate _ _)
  have hchar : ∀ x y : ℤ, 0 ≤ x → x < 128 → 0 ≤ y → y < 64 →
      (pixel_bit out x y = true ↔
        (y = 32 ∨ y = 33) ∧ (12 ≤ x ∧ x < 52 ∨ 76 ≤ x ∧ x < 116)) := by
    intro x y hx hx2 hy hy2
    rw [hbit x y hx hx2 hy hy2, clear_buffer_eq buffer hlen, pixel_bit_zeros,
      paint_uniform true draw_closed_calls false x y
        (fun c hc => by
          obtain ⟨x', y', rfl, _⟩ := (mem_draw_closed_calls c).mp hc
          rfl)]
    constructor
    · intro h
      by_cases hex : ∃ c ∈ draw_closed_calls, c.x = x ∧ c.y = y
      · obtain ⟨c, hc, hcx, hcy⟩ := hex
        obtain ⟨x', y', rfl, hy', hx'⟩ := (mem_draw_closed_calls c).mp hc
        simp only [Call.x, Call.y] at hcx hcy
        subst hcx hcy
        exact ⟨hy', hx'⟩
      · rw [if_neg hex] at h; exact absurd h (by decide)
    · rintro ⟨hy', hx'⟩
      rw [if_pos ⟨Call.set x y, (mem_draw_closed_calls _).mpr ⟨x, y, rfl, hy', hx'⟩, rfl, rfl⟩]
  refine ⟨out, hout, holen, hchar, ?_⟩
  unfold lit_count
  rw [flatMap_filter_congr _ _ (fun y x => pixel_bit out x y)
    (fun y x => decide ((y = 32 ∨ y = 33) ∧ (12 ≤ x ∧ x < 52 ∨ 76 ≤ x ∧ x < 116)))]
  · exact closed_bar_count
  · intro y hy x hx
    rw [mem_forLt] at hy hx
    simp only [SCREEN_HEIGHT, SCREEN_WIDTH] at hy hx
    have := hchar x y hx.1 hx.2 hy.1 hy.2
    by_cases hb : pixel_bit out x y = true
    · rw [hb]; exact (decide_eq_true (this.mp hb)).symm
    · rw [Bool.not_eq_true] at hb
      rw [hb]
      exact (decide_eq_false
        (fun hP => by rw [this.mpr hP] at hb; exact absurd hb (by decide))).symm

theorem draw_closed_two_bars_witness :
    ∃ out, draw_closed (List.replicate 1024 0) = some out ∧ out.length = 1024 ∧
      (∀ x y : ℤ, 0 ≤ x → x < 128 → 0 ≤ y → y < 64 →
        (pixel_bit out x y = true ↔
          (y = 32 ∨ y = 33) ∧ (12 ≤ x ∧ x < 52 ∨ 76 ≤ x ∧ x < 116))) ∧
      lit_count out = 160 :=
  draw_closed_two_bars (List.replicate 1024 0) (List.length_replicate _ _)

/-! ## Sclera mask -/

theorem mem_sclera_calls (c : Call) : c ∈ sclera_calls ↔
    ∃ x y : ℤ, c = Call.set x y ∧ 0 ≤ y ∧ y < 64 ∧
      (4 ≤ x ∧ x < 60 ∧ in_eye 32 x y = true ∨ 68 ≤ x ∧ x < 124 ∧ in_eye 96 x y = true) := by
  unfold sclera_calls
  simp only [List.mem_flatMap, List.mem_map, List.mem_filter, mem_forLt, LEFT_EYE_CENTER_X,
    EYE_SEPARATION, SCREEN_HEIGHT, EYE_R]
  constructor
  · rintro ⟨i, hi, y, hy, x, ⟨hx, hin⟩, rfl⟩
    have : i = 0 ∨ i = 1 := by omega
    rcases this with rfl | rfl
    · exact ⟨x, y, rfl, hy.1, hy.2, Or.inl ⟨by omega, by omega, by simpa using hin⟩⟩
    · exact ⟨x, y, rfl, hy.1, hy.2, Or.inr ⟨by omega, by omega, by simpa using hin⟩⟩
  · rintro ⟨x, y, rfl, hy1, hy2, ⟨h1, h2, h3⟩ | ⟨h1, h2, h3⟩⟩
    · exact ⟨0, by omega, y, ⟨hy1, hy2⟩, x, ⟨by omega, by simpa using h3⟩, rfl⟩
    · exact ⟨1, by omega, y, ⟨hy1, hy2⟩, x, ⟨by omega, by simpa using h3⟩, rfl⟩

theorem sclera_calls_inScreen : ∀ c ∈ sclera_calls, InScreen c := by
  intro c hc
  obtain ⟨x, y, rfl, hy1, hy2, hx⟩ := (mem_sclera_calls c).mp hc
  simp only [InScreen, Call.x, Call.y, SCREEN_WIDTH, SCREEN_HEIGHT]
  omega

theorem memset0_eq (buffer : List ℕ) (hlen : buffer.length = 1024) :
    memset0 buffer BUFFER_SIZE = List.replicate 1024 0 := clear_buffer_eq buffer hlen

theorem sclera_run (mask : List ℕ) (hlen : mask.length = 1024) :
    ∃ m, run sclera_calls (memset0 mask BUFFER_SIZE) = some m ∧ m.length = 1024 ∧
      ∀ x y : ℤ, 0 ≤ x → x < 128 → 0 ≤ y → y < 64 → pixel_bit m x y = sclera_bit x y := by
  rw [memset0_eq mask hlen]
  obtain ⟨m, hm, hmlen, hbit⟩ := run_spec sclera_calls (List.replicate 1024 0)
    sclera_calls_inScreen (List.length_replicate _ _)
  refine ⟨m, hm, hmlen, ?_⟩
  intro x y hx hx2 hy hy2
  rw [hbit x y hx hx2 hy hy2, pixel_bit_zeros,
    paint_uniform true sclera_calls false x y
      (fun c hc => by
        obtain ⟨x', y', rfl, _⟩ := (mem_sclera_calls c).mp hc
        rfl)]
  unfold sclera_bit
  by_cases hex : ∃ c ∈ sclera_calls, c.x = x ∧ c.y = y
  · rw [if_pos hex]
    obtain ⟨c, hc, hcx, hcy⟩ := hex
    obtain ⟨x', y', rfl, _, _, hx'⟩ := (mem_sclera_calls c).mp hc
    simp only [Call.x, Call.y] at hcx hcy
    subst hcx hcy
    rcases hx' with ⟨h1, h2, h3⟩ | ⟨h1, h2, h3⟩
    · simp [h1, h2, h3]
    · simp [h1, h2, h3]
  · rw [if_neg hex]
    symm
    rw [Bool.or_eq_false_iff, Bool.and_eq_false_iff, Bool.and_eq_false_iff]
    constructor
    · by_cases h : 4 ≤ x ∧ x < 60 ∧ in_eye 32 x y = true
      · exact absurd ⟨Call.set x y, (mem_sclera_calls _).mpr
          ⟨x, y, rfl, hy, hy2, Or.inl h⟩, rfl, rfl⟩ hex
      · by_cases h' : 4 ≤ x ∧ x < 60
        · right
          have : ¬ in_eye 32 x y = true := fun hh => h ⟨h'.1, h'.2, hh⟩
          simpa using this
        · left; simpa using h'
    · by_cases h : 68 ≤ x ∧ x < 124 ∧ in_eye 96 x y = true
      · exact absurd ⟨Call.set x y, (mem_sclera_calls _).mpr
          ⟨x, y, rfl, hy, hy2, Or.inr h⟩, rfl, rfl⟩ hex
      · by_cases h' : 68 ≤ x ∧ x < 124
        · right
          have : ¬ in_eye 96 x y = true := fun hh => h ⟨h'.1, h'.2, hh⟩
          simpa using this
        · left; simpa using h'

theorem in_eye_left_edge (c : ℤ) : in_eye c (c - 28) 32 = true := by
  unfold in_eye
  have h1 : i2f (c - 28 - c) = -28 := by
    have : c - 28 - c = -28 := by ring
    rw [this, i2f_eq _ (by norm_num)]; norm_num
  have h2 : i2f EYE_R = 28 := by
    unfold EYE_R; rw [i2f_eq _ (by norm_num)]; norm_num
  have h3 : i2f (32 - EYE_CENTER_Y) = 0 := by
    unfold EYE_CENTER_Y; rw [i2f_eq _ (by norm_num)]; norm_num
  have h4 : f32 (-1) = -1 := by
    have := f32_int (-1) (by norm_num); simpa using this
  have h5 : f32 1 = 1 := by
    have := f32_int 1 (by norm_num); simpa using this
  simp only [h1, h2, h3]
  norm_num [h4, h5, f32_zero]

/-! ## The loops of `draw_open` -/

theorem roundf_spec (q : ℚ) : ∃ n : ℤ, roundf q = n ∧ (∀ a : ℤ, (a : ℚ) ≤ q → a ≤ n) ∧
    (∀ b : ℤ, q ≤ b → n ≤ b) := by
  unfold roundf
  by_cases h : 0 ≤ q
  · rw [if_pos h]
    refine ⟨⌊q + 1 / 2⌋, rfl, ?_, ?_⟩
    · intro a ha
      rw [Int.le_floor]; linarith
    · intro b hb
      have h1 : ⌊q + 1 / 2⌋ < b + 1 := by
        rw [Int.floor_lt]; push_cast; linarith
      omega
  · rw [if_neg h]
    refine ⟨⌈q - 1 / 2⌉, rfl, ?_, ?_⟩
    · intro a ha
      have h1 : a - 1 < ⌈q - 1 / 2⌉ := by
        rw [Int.lt_ceil]; push_cast; linarith
      omega
    · intro b hb
      rw [Int.ceil_le]; linarith

theorem le_f2i {q : ℚ} {a : ℤ} (h : (a : ℚ) ≤ q) : a ≤ f2i q := by
  unfold f2i
  split_ifs
  · exact Int.le_floor.mpr h
  · exact Int.le_ceil_iff.mpr (by linarith)

theorem f2i_le {q : ℚ} {b : ℤ} (h : q ≤ b) : f2i q ≤ b := by
  unfold f2i
  split_ifs
  · have := Int.floor_le q
    exact_mod_cast (this.trans h)
  · exact Int.ceil_le.mpr h

theorem f2i_int (n : ℤ) : f2i (n : ℚ) = n := le_antisymm (f2i_le le_rfl) (le_f2i le_rfl)


theorem f32_cast (n : ℤ) (q : ℚ) (h : q = n) (hn : |n| < 16777216) : f32 q = q := by
  rw [h]; exact f32_int n hn

theorem mem_iris_calls (c : Call) (icx icy : ℚ) : c ∈ iris_calls icx icy ↔
    ∃ x y : ℤ, c = Call.clear x y ∧
      y ∈ forLe (f2i (f32 (roundf icy - i2f IRIS_R))) (f32 (roundf icy + i2f IRIS_R)) ∧
      x ∈ forLe (f2i (f32 (roundf icx - i2f IRIS_R))) (f32 (roundf icx + i2f IRIS_R)) ∧
      within x icx y icy (i2f (IRIS_R * IRIS_R)) = true := by
  unfold iris_calls
  simp only [List.mem_flatMap, List.mem_map, List.mem_filter]
  constructor
  · rintro ⟨y, hy, x, ⟨hx, hw⟩, rfl⟩
    exact ⟨x, y, rfl, hy, hx, hw⟩
  · rintro ⟨x, y, rfl, hy, hx, hw⟩
    exact ⟨y, hy, x, ⟨hx, hw⟩, rfl⟩

theorem mem_pupil_calls (c : Call) (icx icy r : ℚ) : c ∈ pupil_calls icx icy r ↔
    ∃ x y : ℤ, c = Call.set x y ∧
      y ∈ forLe (f2i (f32 (roundf icy - r))) (f32 (roundf icy + r)) ∧
      x ∈ forLe (f2i (f32 (roundf icx - r))) (f32 (roundf icx + r)) ∧
      within x icx y icy (f32 (r * r)) = true := by
  unfold pupil_calls
  simp only [List.mem_flatMap, List.mem_map, List.mem_filter]
  constructor
  · rintro ⟨y, hy, x, ⟨hx, hw⟩, rfl⟩
    exact ⟨x, y, rfl, hy, hx, hw⟩
  · rintro ⟨x, y, rfl, hy, hx, hw⟩
    exact ⟨y, hy, x, ⟨hx, hw⟩, rfl⟩

/-- The eyebrow loop clears, in column `eye_center_x + x_offset`, the rows above its baseline. -/
theorem mem_eyebrow_calls (c : Call) (cx base : ℤ) (t : ℚ) : c ∈ eyebrow_calls cx base t ↔
    ∃ off y : ℤ, c = Call.clear (cx + off) y ∧ -28 ≤ off ∧ off ≤ 28 ∧ 0 ≤ y ∧
      y < f2i (f32 (i2f base + roundf (f32 (t * i2f off)))) := by
  unfold eyebrow_calls
  simp only [List.mem_flatMap, List.mem_map, mem_forLt, EYE_R]
  constructor
  · rintro ⟨off, hoff, y, hy, rfl⟩
    exact ⟨off, y, rfl, by omega, by omega, hy.1, hy.2⟩
  · rintro ⟨off, y, rfl, h1, h2, h3, h4⟩
    exact ⟨off, ⟨by omega, by omega⟩, y, ⟨h3, h4⟩, rfl⟩

/-! ## Bounds on the geometry of `draw_open` -/

theorem box_bounds {c r : ℚ} {lo hi R x : ℤ} (hlo : (lo : ℚ) ≤ c) (hhi : c ≤ hi)
    (hr2 : r ≤ R) (h1 : |lo - R| < 16777216) (h2 : |hi + R| < 16777216)
    (hx : x ∈ forLe (f2i (f32 (roundf c - r))) (f32 (roundf c + r))) :
    lo - R ≤ x ∧ x ≤ hi + R := by
  obtain ⟨n, hn, hna, hnb⟩ := roundf_spec c
  have hn1 := hna lo hlo
  have hn2 := hnb hi hhi
  rw [mem_forLe, hn] at hx
  obtain ⟨hx1, hx2⟩ := hx
  have hn1q : (lo : ℚ) ≤ n := by exact_mod_cast hn1
  have hn2q : (n : ℚ) ≤ hi := by exact_mod_cast hn2
  constructor
  · have : ((lo - R : ℤ) : ℚ) ≤ f32 (n - r) := int_le_f32 h1 (by push_cast; linarith)
    have := le_f2i this
    omega
  · have : f32 (n + r) ≤ ((hi + R : ℤ) : ℚ) := f32_le_int h2 (by push_cast; linarith)
    have : (x : ℚ) ≤ ((hi + R : ℤ) : ℚ) := hx2.trans this
    exact_mod_cast this

theorem iris_center_bounds (c : ℤ) (p : ℚ) (hc : |c| < 1000) (hp1 : -2 ≤ p) (hp2 : p ≤ 2) :
    ((c - 20 : ℤ) : ℚ) ≤ iris_center c p 10 ∧ iris_center c p 10 ≤ ((c + 20 : ℤ) : ℚ) := by
  unfold iris_center
  rw [abs_lt] at hc
  have hi : i2f c = c := i2f_eq c (by rw [abs_lt]; constructor <;> omega)
  have h1 : ((-20 : ℤ) : ℚ) ≤ f32 (p * 10) := int_le_f32 (by norm_num) (by push_cast; linarith)
  have h2 : f32 (p * 10) ≤ ((20 : ℤ) : ℚ) := f32_le_int (by norm_num) (by push_cast; linarith)
  push_cast at h1 h2
  rw [hi]
  constructor
  · exact int_le_f32 (by rw [abs_lt]; constructor <;> omega) (by push_cast; linarith)
  · exact f32_le_int (by rw [abs_lt]; constructor <;> omega) (by push_cast; linarith)

theorem pupil_radius_bounds (ps : ℚ) (h1 : -2 ≤ ps) (h2 : ps ≤ 2) :
    -(11 : ℚ) ≤ pupil_radius ps ∧ pupil_radius ps ≤ 11 := by
  unfold pupil_radius PUPIL_R_MAX PUPIL_R_MIN
  have h4 : f32 (7 - 3) = 4 := by
    have := f32_cast 4 (7 - 3) (by norm_num) (by norm_num)
    rw [this]; norm_num
  rw [h4]
  have a1 : ((-8 : ℤ) : ℚ) ≤ f32 (4 * ps) := int_le_f32 (by norm_num) (by push_cast; linarith)
  have a2 : f32 (4 * ps) ≤ ((8 : ℤ) : ℚ) := f32_le_int (by norm_num) (by push_cast; linarith)
  push_cast at a1 a2
  have b1 : ((-5 : ℤ) : ℚ) ≤ f32 (3 + f32 (4 * ps)) :=
    int_le_f32 (by norm_num) (by push_cast; linarith)
  have b2 : f32 (3 + f32 (4 * ps)) ≤ ((11 : ℤ) : ℚ) :=
    f32_le_int (by norm_num) (by push_cast; linarith)
  push_cast at b1 b2
  constructor <;> linarith

theorem clamped_angle_bounds (i : ℤ) (a : ℚ) :
    -10 ≤ clamped_angle i a ∧ clamped_angle i a ≤ 10 := by
  unfold clamped_angle fmaxf fminf EYEBROW_ANGLE_LIMIT
  constructor
  · exact le_max_left _ _
  · exact max_le (by norm_num) (min_le_left _ _)

theorem isRep_half (p : ℕ) (emin : ℤ) (hp : 1 ≤ p) (he : emin ≤ -1) :
    IsRep p emin (1 / 2) := by
  refine ⟨1, -1, ?_, he, ?_⟩
  · have : (1 : ℤ) < 2 ^ p := by
      calc (1 : ℤ) < 2 ^ 1 := by norm_num
        _ ≤ 2 ^ p := pow_le_pow_right₀ (by norm_num) hp
    simpa using this
  · norm_num

theorem tan_arg_bounds (a : ℚ) (h1 : -10 ≤ a) (h2 : a ≤ 10) : |tan_arg a| ≤ 1 / 2 := by
  unfold tan_arg M_PI
  have r32 : IsRep 53 (-1074) ((32 : ℤ) : ℚ) := isRep_int 32 (by norm_num) (by norm_num)
  have a1 : f64 (a * (884279719003555 / 281474976710656)) ≤ ((32 : ℤ) : ℚ) :=
    roundBin_le_of_le (by norm_num) r32 (by push_cast; linarith)
  have a2 : -((32 : ℤ) : ℚ) ≤ f64 (a * (884279719003555 / 281474976710656)) :=
    le_roundBin_of_le (by norm_num) r32.neg (by push_cast; linarith)
  push_cast at a1 a2
  have rh64 := isRep_half 53 (-1074) (by norm_num) (by norm_num)
  have rh32 := isRep_half 24 (-149) (by norm_num) (by norm_num)
  have b1 : f64 (f64 (a * (884279719003555 / 281474976710656)) / 180) ≤ 1 / 2 :=
    roundBin_le_of_le (by norm_num) rh64 (by linarith)
  have b2 : -(1 / 2) ≤ f64 (f64 (a * (884279719003555 / 281474976710656)) / 180) :=
    le_roundBin_of_le (by norm_num) rh64.neg (by linarith)
  rw [abs_le]
  constructor
  · exact le_roundBin_of_le (by norm_num) rh32.neg b2
  · exact roundBin_le_of_le (by norm_num) rh32 b1

theorem eyebrow_row_le (base : ℤ) (t : ℚ) (off : ℤ) (hb1 : -100 ≤ base) (hb2 : base ≤ 36)
    (ht : |t| ≤ 1) (ho1 : -28 ≤ off) (ho2 : off ≤ 28) :
    f2i (f32 (i2f base + roundf (f32 (t * i2f off)))) ≤ 64 := by
  have hoff : i2f off = off := i2f_eq off (by rw [abs_lt]; constructor <;> omega)
  have hbase : i2f base = base := i2f_eq base (by rw [abs_lt]; constructor <;> omega)
  rw [hoff, hbase]
  rw [abs_le] at ht
  have ho1q : (-28 : ℚ) ≤ off := by exact_mod_cast ho1
  have ho2q : (off : ℚ) ≤ 28 := by exact_mod_cast ho2
  have hprod : t * off ≤ 28 ∧ -28 ≤ t * off := by
    constructor <;> nlinarith [ht.1, ht.2]
  have h1 : f32 (t * off) ≤ ((28 : ℤ) : ℚ) := f32_le_int (by norm_num) (by push_cast; linarith)
  obtain ⟨n, hn, _, hnb⟩ := roundf_spec (f32 (t * off))
  have hn28 : n ≤ 28 := hnb 28 h1
  rw [hn]
  apply f2i_le
  have : f32 ((base : ℚ) + n) ≤ ((64 : ℤ) : ℚ) := by
    apply f32_le_int (by norm_num)
    have : (base : ℚ) + n ≤ 36 + 28 := by
      have h3 : (base : ℚ) ≤ 36 := by exact_mod_cast hb2
      have h4 : (n : ℚ) ≤ 28 := by exact_mod_cast hn28
      linarith
    push_cast; linarith
  exact this

theorem eyebrow_base_bounds (el : ℚ) (h1 : -2 ≤ el) (h2 : el ≤ 2) :
    -12 ≤ EYEBROW_Y_BASE + f2i (f32 (el * i2f EYEBROW_Y_RANGE)) ∧
      EYEBROW_Y_BASE + f2i (f32 (el * i2f EYEBROW_Y_RANGE)) ≤ 36 := by
  unfold EYEBROW_Y_BASE EYEBROW_Y_RANGE
  have h12 : i2f 12 = 12 := by
    have := i2f_eq 12 (by norm_num); simpa using this
  rw [h12]
  have a1 : ((-24 : ℤ) : ℚ) ≤ f32 (el * 12) := int_le_f32 (by norm_num) (by push_cast; linarith)
  have a2 : f32 (el * 12) ≤ ((24 : ℤ) : ℚ) := f32_le_int (by norm_num) (by push_cast; linarith)
  have b1 := le_f2i a1
  have b2 := f2i_le a2
  omega

/-- Every write of eye `i` stays in that eye's half of the screen, whenever the four bounded
parameters lie in `[-2, 2]` and `tanf` is bounded by 1 on `[-1/2, 1/2]`. -/
theorem eye_calls_region (tanf : ℚ → ℚ) (htan : ∀ t : ℚ, |t| ≤ 1 / 2 → |tanf t| ≤ 1)
    (py px el ps ang : ℚ) (hy1 : -2 ≤ py) (hy2 : py ≤ 2) (hx1 : -2 ≤ px) (hx2 : px ≤ 2)
    (hl1 : -2 ≤ el) (hl2 : el ≤ 2) (hs1 : -2 ≤ ps) (hs2 : ps ≤ 2)
    (i : ℤ) (hi : i = 0 ∨ i = 1) (c : Call) (hc : c ∈ eye_calls tanf py px el ps ang i) :
    64 * i ≤ c.x ∧ c.x < 64 * i + 64 ∧ 0 ≤ c.y ∧ c.y < 64 := by
  unfold eye_calls at hc
  simp only [LEFT_EYE_CENTER_X, EYE_SEPARATION, EYE_CENTER_Y, IRIS_SHIFT_X, IRIS_SHIFT_Y,
    List.mem_append] at hc
  have hcx := iris_center_bounds (32 + i * 64) px (by rw [abs_lt]; constructor <;> omega) hx1 hx2
  have hcy := iris_center_bounds 32 py (by norm_num) hy1 hy2
  have h9 : i2f IRIS_R = 9 := by
    have := i2f_eq 9 (by norm_num); simpa [IRIS_R] using this
  have hr := pupil_radius_bounds ps hs1 hs2
  rcases hc with (hc | hc) | hc
  · obtain ⟨x, y, rfl, hyb, hxb, _⟩ := (mem_iris_calls _ _ _).mp hc
    rw [h9] at hyb hxb
    have bx := box_bounds (R := 9) hcx.1 hcx.2 (by norm_num)
      (by rw [abs_lt]; constructor <;> omega) (by rw [abs_lt]; constructor <;> omega) hxb
    have bY := box_bounds (R := 9) hcy.1 hcy.2 (by norm_num)
      (by norm_num) (by norm_num) hyb
    simp only [Call.x, Call.y]
    omega
  · obtain ⟨x, y, rfl, hyb, hxb, _⟩ := (mem_pupil_calls _ _ _ _).mp hc
    have bx := box_bounds (R := 11) hcx.1 hcx.2 (by push_cast; exact hr.2)
      (by rw [abs_lt]; constructor <;> omega) (by rw [abs_lt]; constructor <;> omega) hxb
    have bY := box_bounds (R := 11) hcy.1 hcy.2 (by push_cast; exact hr.2)
      (by norm_num) (by norm_num) hyb
    simp only [Call.x, Call.y]
    omega
  · obtain ⟨off, y, rfl, ho1, ho2, hy0, hyl⟩ := (mem_eyebrow_calls _ _ _ _).mp hc
    have hb := eyebrow_base_bounds el hl1 hl2
    have hca := clamped_angle_bounds i ang
    have ht := htan _ (tan_arg_bounds _ hca.1 hca.2)
    have := eyebrow_row_le _ _ off (by omega) hb.2 ht ho1 ho2
    simp only [Call.x, Call.y]
    omega

/-! ## `draw_open` as a whole -/

theorem byteIndex_of_inScreen {c : Call} (h : InScreen c) :
    0 ≤ c.byteIndex ∧ c.byteIndex < 1024 := by
  obtain ⟨h1, h2, h3, h4⟩ := h
  simp only [SCREEN_WIDTH, SCREEN_HEIGHT] at h2 h4
  unfold Call.byteIndex
  simp only [SCREEN_WIDTH]
  rw [Int.tdiv_eq_ediv (by omega) (by norm_num)]
  omega

theorem run_eq_none_of_mem (calls : List Call) : ∀ (buf : List ℕ) (c : Call), c ∈ calls →
    ¬ (0 ≤ c.byteIndex ∧ c.byteIndex < 1024) → run calls buf = none := by
  induction calls with
  | nil => intro buf c hc; simp at hc
  | cons c' cs ih =>
    intro buf c hc hbad
    unfold run
    rw [List.foldlM_cons]
    cases hexec : c'.exec buf with
    | none => rfl
    | some b' =>
      rcases List.mem_cons.mp hc with rfl | hc'
      · exfalso
        cases c with
        | set x y =>
          simp only [Call.exec, set_pixel, BUFFER_SIZE] at hexec
          simp only [Call.byteIndex, Call.x, Call.y] at hbad
          split_ifs at hexec with h
          exact hbad (by simpa using h)
        | clear x y =>
          simp only [Call.exec, clear_pixel, BUFFER_SIZE] at hexec
          simp only [Call.byteIndex, Call.x, Call.y] at hbad
          split_ifs at hexec with h
          exact hbad (by simpa using h)
      · exact ih b' c hc' hbad

theorem memcpy_eq (dst src : List ℕ) (h1 : dst.length = 1024) (h2 : src.length = 1024) :
    memcpy dst src BUFFER_SIZE = src := by
  unfold memcpy BUFFER_SIZE
  rw [List.drop_of_length_le (by omega), List.append_nil, List.take_of_length_le (by omega)]

theorem built_mask_spec : ∃ m, built_mask = some m ∧ m.length = 1024 ∧
    ∀ x y : ℤ, 0 ≤ x → x < 128 → 0 ≤ y → y < 64 → pixel_bit m x y = sclera_bit x y := by
  have := sclera_run (List.replicate 1024 0) (List.length_replicate _ _)
  rw [memset0_eq _ (List.length_replicate _ _)] at this
  exact this

theorem generate_fresh (s : State) (hf : s.sclera_mask_generated = false)
    (hlen : s.sclera_mask.length = 1024) (m : List ℕ) (hm : built_mask = some m) :
    generate_sclera_mask s = some ⟨m, true⟩ := by
  unfold generate_sclera_mask
  rw [hf, memset0_eq _ hlen]
  unfold built_mask BUFFER_SIZE at hm
  rw [if_neg Bool.false_ne_true, hm]
  rfl

theorem generate_built (s : State) (hf : s.sclera_mask_generated = true) :
    generate_sclera_mask s = some s := by
  unfold generate_sclera_mask
  rw [hf]; rfl

/-- From a valid state `generate_sclera_mask` ends with the built mask and the flag set. -/
theorem generate_valid (s : State) (hs : s.Valid) (m : List ℕ) (hm : built_mask = some m) :
    generate_sclera_mask s = some ⟨m, true⟩ := by
  cases hf : s.sclera_mask_generated with
  | false => exact generate_fresh s hf hs.1 m hm
  | true =>
    have h1 := hs.2 hf
    rw [hm] at h1
    have h2 : s.sclera_mask = m := Option.some.inj h1
    rw [generate_built s hf]
    cases s with
    | mk mask flag =>
      simp only at hf h2
      rw [hf, h2]

theorem mem_draw_open_calls (tanf : ℚ → ℚ) (py px el ps ang : ℚ) (c : Call) :
    c ∈ draw_open_calls tanf py px el ps ang ↔
      c ∈ eye_calls tanf py px el ps ang 0 ∨ c ∈ eye_calls tanf py px el ps ang 1 := by
  unfold draw_open_calls
  simp only [List.mem_flatMap, mem_forLt]
  constructor
  · rintro ⟨i, hi, hc⟩
    have : i = 0 ∨ i = 1 := by omega
    rcases this with rfl | rfl
    · exact Or.inl hc
    · exact Or.inr hc
  · rintro (hc | hc)
    · exact ⟨0, by omega, hc⟩
    · exact ⟨1, by omega, hc⟩

theorem draw_open_calls_eq (tanf : ℚ → ℚ) (py px el ps ang : ℚ) :
    draw_open_calls tanf py px el ps ang
      = eye_calls tanf py px el ps ang 0 ++ eye_calls tanf py px el ps ang 1 := by
  unfold draw_open_calls
  have : forLt 0 2 = [0, 1] := by decide
  rw [this]
  simp [List.flatMap_cons]

/-- The renderer `draw_open` from a valid state, when all its writes are on the screen: it
succeeds, leaves the cache built, and each pixel is the sclera bit repainted by the writes. -/
theorem draw_open_spec (tanf : ℚ → ℚ) (py px el ps ang : ℚ) (buffer : List ℕ) (s : State)
    (hlen : buffer.length = 1024) (hs : s.Valid)
    (hscr : ∀ c ∈ draw_open_calls tanf py px el ps ang, InScreen c) :
    ∃ out m, draw_open tanf py px el ps ang buffer s = some (out, ⟨m, true⟩) ∧
      built_mask = some m ∧ out.length = 1024 ∧
      ∀ x y : ℤ, 0 ≤ x → x < 128 → 0 ≤ y → y < 64 →
        pixel_bit out x y
          = paint (draw_open_calls tanf py px el ps ang) (sclera_bit x y) x y := by
  obtain ⟨m, hm, hmlen, hmbit⟩ := built_mask_spec
  obtain ⟨out, hout, holen, hobit⟩ := run_spec (draw_open_calls tanf py px el ps ang) m hscr hmlen
  refine ⟨out, m, ?_, hm, holen, ?_⟩
  · unfold draw_open
    rw [generate_valid s hs m hm]
    show (run (draw_open_calls tanf py px el ps ang) (memcpy buffer m BUFFER_SIZE)).map _ = _
    rw [memcpy_eq buffer m hlen hmlen, hout]
    rfl
  · intro x y hx hx2 hy hy2
    rw [hobit x y hx hx2 hy hy2, hmbit x y hx hx2 hy hy2]

theorem draw_half_open_calls_inScreen : ∀ c ∈ draw_half_open_calls, InScreen c := by
  intro c hc
  unfold draw_half_open_calls at hc
  simp only [List.mem_flatMap, List.mem_map, List.mem_filter, mem_forLt, LEFT_EYE_CENTER_X,
    EYE_SEPARATION, SCREEN_HEIGHT, EYE_R] at hc
  obtain ⟨i, hi, y, hy, x, ⟨hx, _⟩, rfl⟩ := hc
  simp only [InScreen, Call.x, Call.y, SCREEN_WIDTH, SCREEN_HEIGHT]
  omega

theorem tanf_approx_zero : tanf_approx 0 = 0 := by
  unfold tanf_approx
  norm_num [f32_zero]

theorem tanf_approx_bound (t : ℚ) (ht : |t| ≤ 1 / 2) : |tanf_approx t| ≤ 1 := by
  rw [abs_le] at ht
  unfold tanf_approx
  have rh := isRep_half 24 (-149) (by norm_num) (by norm_num)
  have a1 : f32 (t * t) ≤ ((1 : ℤ) : ℚ) := f32_le_int (by norm_num) (by push_cast; nlinarith)
  have a0 : 0 ≤ f32 (t * t) := f32_nonneg (by nlinarith)
  push_cast at a1
  have b1 : f32 (f32 (t * t) * t) ≤ 1 / 2 :=
    roundBin_le_of_le (by norm_num) rh (by nlinarith)
  have b2 : -(1 / 2) ≤ f32 (f32 (t * t) * t) :=
    le_roundBin_of_le (by norm_num) rh.neg (by nlinarith)
  have c1 : f32 (f32 (f32 (t * t) * t) / 3) ≤ 1 / 2 :=
    roundBin_le_of_le (by norm_num) rh (by linarith)
  have c2 : -(1 / 2) ≤ f32 (f32 (f32 (t * t) * t) / 3) :=
    le_roundBin_of_le (by norm_num) rh.neg (by linarith)
  rw [abs_le]
  constructor
  · have := int_le_f32 (n := -1) (x := t + f32 (f32 (f32 (t * t) * t) / 3)) (by norm_num)
      (by push_cast; linarith)
    simpa using this
  · have := f32_le_int (n := 1) (x := t + f32 (f32 (f32 (t * t) * t) / 3)) (by norm_num)
      (by push_cast; linarith)
    simpa using this

theorem draw_open_calls_inScreen (tanf : ℚ → ℚ) (htan : ∀ t : ℚ, |t| ≤ 1 / 2 → |tanf t| ≤ 1)
    (py px el ps ang : ℚ) (hy1 : -2 ≤ py) (hy2 : py ≤ 2) (hx1 : -2 ≤ px) (hx2 : px ≤ 2)
    (hl1 : -2 ≤ el) (hl2 : el ≤ 2) (hs1 : -2 ≤ ps) (hs2 : ps ≤ 2) :
    ∀ c ∈ draw_open_calls tanf py px el ps ang, InScreen c := by
  intro c hc
  rw [mem_draw_open_calls] at hc
  simp only [InScreen, SCREEN_WIDTH, SCREEN_HEIGHT]
  rcases hc with hc | hc
  · have := eye_calls_region tanf htan py px el ps ang hy1 hy2 hx1 hx2 hl1 hl2 hs1 hs2 0
      (Or.inl rfl) c hc
    omega
  · have := eye_calls_region tanf htan py px el ps ang hy1 hy2 hx1 hx2 hl1 hl2 hs1 hs2 1
      (Or.inr rfl) c hc
    omega

theorem run_ok (calls : List Call) (buf : List ℕ) (h : ∀ c ∈ calls, InScreen c)
    (hlen : buf.length = 1024) : ∃ out, run calls buf = some out ∧ out.length = 1024 := by
  obtain ⟨out, h1, h2, _⟩ := run_spec calls buf h hlen
  exact ⟨out, h1, h2⟩

/-- C1: for parameters in the declared ranges every pixel written by `draw_open`, and every
pixel written by `draw_closed` and `draw_half_open`, has `0 <= x < 128` and `0 <= y < 64`, so
its byte index lies in `[0, 1024)`; each renderer returns a 1024-byte bitmap. -/
theorem renders_stay_in_buffer (tanf : ℚ → ℚ) (htan : ∀ t : ℚ, |t| ≤ 1 / 2 → |tanf t| ≤ 1)
    (pupil_y pupil_x eyebrows_low pupil_size eyebrow_angle : ℚ)
    (hy1 : -1 ≤ pupil_y) (hy2 : pupil_y ≤ 1) (hx1 : -1 ≤ pupil_x) (hx2 : pupil_x ≤ 1)
    (hl1 : 0 ≤ eyebrows_low) (hl2 : eyebrows_low ≤ 1) (hs1 : 0 ≤ pupil_size)
    (hs2 : pupil_size ≤ 1) (buffer : List ℕ) (hlen : buffer.length = 1024)
    (s : State) (hs : s.Valid) :
    (∀ c, c ∈ draw_open_calls tanf pupil_y pupil_x eyebrows_low pupil_size eyebrow_angle
        ∨ c ∈ draw_closed_calls ∨ c ∈ draw_half_open_calls →
      0 ≤ c.x ∧ c.x < 128 ∧ 0 ≤ c.y ∧ c.y < 64 ∧ 0 ≤ c.byteIndex ∧ c.byteIndex < 1024) ∧
    (∃ out s', draw_open tanf pupil_y pupil_x eyebrows_low pupil_size eyebrow_angle buffer s
        = some (out, s') ∧ out.length = 1024) ∧
    (∃ out, draw_half_open buffer = some out ∧ out.length = 1024) ∧
    (∃ out, draw_closed buffer = some out ∧ out.length = 1024) := by
  have hopen := draw_open_calls_inScreen tanf htan pupil_y pupil_x eyebrows_low pupil_size
    eyebrow_angle (by linarith) (by linarith) (by linarith) (by linarith) (by linarith)
    (by linarith) (by linarith) (by linarith)
  have hclr : (clear_buffer buffer).length = 1024 := by
    rw [clear_buffer_eq buffer hlen]; exact List.length_replicate _ _
  refine ⟨?_, ?_, run_ok _ _ draw_half_open_calls_inScreen hclr,
    run_ok _ _ draw_closed_calls_inScreen hclr⟩
  · intro c hc
    have hscr : InScreen c := by
      rcases hc with hc | hc | hc
      · exact hopen c hc
      · exact draw_closed_calls_inScreen c hc
      · exact draw_half_open_calls_inScreen c hc
    have hb := byteIndex_of_inScreen hscr
    exact ⟨hscr.1, hscr.2.1, hscr.2.2.1, hscr.2.2.2, hb.1, hb.2⟩
  · obtain ⟨out, m, h1, _, h3, _⟩ := draw_open_spec tanf pupil_y pupil_x eyebrows_low pupil_size
      eyebrow_angle buffer s hlen hs hopen
    exact ⟨out, _, h1, h3⟩

theorem State.initial_valid : State.initial.Valid :=
  ⟨List.length_replicate _ _, fun h => absurd h (by decide)⟩

theorem renders_stay_in_buffer_witness :
    (∀ c, c ∈ draw_open_calls tanf_approx 0 0 0 (1 / 2) 0
        ∨ c ∈ draw_closed_calls ∨ c ∈ draw_half_open_calls →
      0 ≤ c.x ∧ c.x < 128 ∧ 0 ≤ c.y ∧ c.y < 64 ∧ 0 ≤ c.byteIndex ∧ c.byteIndex < 1024) ∧
    (∃ out s', draw_open tanf_approx 0 0 0 (1 / 2) 0 (List.replicate 1024 0) State.initial
        = some (out, s') ∧ out.length = 1024) ∧
    (∃ out, draw_half_open (List.replicate 1024 0) = some out ∧ out.length = 1024) ∧
    (∃ out, draw_closed (List.replicate 1024 0) = some out ∧ out.length = 1024) :=
  renders_stay_in_buffer tanf_approx tanf_approx_bound 0 0 0 (1 / 2) 0 (by norm_num)
    (by norm_num) (by norm_num) (by norm_num) (by norm_num) (by norm_num) (by norm_num)
    (by norm_num) (List.replicate 1024 0) (List.length_replicate _ _) State.initial
    State.initial_valid

/-! ## Evaluation at literals -/

theorem f32_ofNat (n : ℕ) [n.AtLeastTwo] (h : n < 16777216) :
    f32 (no_index (OfNat.ofNat n) : ℚ) = OfNat.ofNat n := by
  have := f32_int (n : ℤ) (by rw [abs_lt]; constructor <;> omega)
  simpa using this

theorem f32_one : f32 1 = 1 := by
  have := f32_int 1 (by norm_num); simpa using this

theorem roundf_int (n : ℤ) : roundf (n : ℚ) = n := by
  obtain ⟨m, hm, h1, h2⟩ := roundf_spec (n : ℚ)
  have := h1 n le_rfl
  have := h2 n le_rfl
  rw [hm]; congr 1; omega

theorem roundf_ofNat (n : ℕ) [n.AtLeastTwo] :
    roundf (no_index (OfNat.ofNat n) : ℚ) = OfNat.ofNat n := by
  have := roundf_int (n : ℤ)
  simpa using this

theorem f2i_ofNat (n : ℕ) [n.AtLeastTwo] : f2i (no_index (OfNat.ofNat n) : ℚ) = OfNat.ofNat n := by
  have := f2i_int (n : ℤ)
  simpa using this

/-- C2, refuted as stated: with `pupil_y = 10` the iris loop of `draw_open` calls
`clear_pixel(32, 123)`, whose byte index 1972 is outside `[0, 1024)`, so the call does not
yield a valid bitmap. -/
theorem draw_open_overruns_buffer :
    Call.clear 32 123 ∈ draw_open_calls tanf_approx 10 0 0 0 0 ∧
      (Call.clear 32 123).byteIndex = 1972 ∧
      draw_open tanf_approx 10 0 0 0 0 (List.replicate 1024 0) State.initial = none := by
  have hmem : Call.clear 32 123 ∈ draw_open_calls tanf_approx 10 0 0 0 0 := by
    rw [mem_draw_open_calls]
    left
    unfold eye_calls
    simp only [List.mem_append]
    left; left
    rw [mem_iris_calls]
    refine ⟨32, 123, rfl, ?_, ?_, ?_⟩
    · rw [mem_forLe]
      norm_num [iris_center, EYE_CENTER_Y, IRIS_SHIFT_Y, IRIS_R, i2f, f32_ofNat, roundf_ofNat,
        f2i_ofNat]
    · rw [mem_forLe]
      norm_num [iris_center, LEFT_EYE_CENTER_X, EYE_SEPARATION, IRIS_SHIFT_X, IRIS_R, i2f,
        f32_ofNat, roundf_ofNat, f2i_ofNat, f32_zero]
    · norm_num [within, iris_center, LEFT_EYE_CENTER_X, EYE_SEPARATION, IRIS_SHIFT_X,
        EYE_CENTER_Y, IRIS_SHIFT_Y, IRIS_R, i2f, f32_ofNat, f32_zero, f32_neg]
  have hidx : (Call.clear 32 123).byteIndex = 1972 := by decide
  refine ⟨hmem, hidx, ?_⟩
  obtain ⟨m, hm, _, _⟩ := built_mask_spec
  unfold draw_open
  rw [generate_valid _ State.initial_valid m hm]
  show (run (draw_open_calls tanf_approx 10 0 0 0 0) _).map _ = none
  rw [run_eq_none_of_mem _ _ _ hmem (by rw [hidx]; norm_num)]
  rfl

/-- C2, amended: `draw_open` completes with every `set_pixel` / `clear_pixel` addressing a byte
index in `[0, 1024)`, and returns a 1024-byte bitmap, for every tuple whose `pupil_y`,
`pupil_x`, `eyebrows_low` and `pupil_size` lie in `[-2, 2]` (a superset of the nominal ranges)
and any `eyebrow_angle`. -/
theorem draw_open_total_near_range (tanf : ℚ → ℚ)
    (htan : ∀ t : ℚ, |t| ≤ 1 / 2 → |tanf t| ≤ 1)
    (pupil_y pupil_x eyebrows_low pupil_size eyebrow_angle : ℚ)
    (hy : |pupil_y| ≤ 2) (hx : |pupil_x| ≤ 2) (hl : |eyebrows_low| ≤ 2) (hs : |pupil_size| ≤ 2)
    (buffer : List ℕ) (hlen : buffer.length = 1024) (s : State) (hv : s.Valid) :
    (∀ c ∈ draw_open_calls tanf pupil_y pupil_x eyebrows_low pupil_size eyebrow_angle,
      0 ≤ c.byteIndex ∧ c.byteIndex < 1024) ∧
    ∃ out s', draw_open tanf pupil_y pupil_x eyebrows_low pupil_size eyebrow_angle buffer s
        = some (out, s') ∧ out.length = 1024 := by
  rw [abs_le] at hy hx hl hs
  have hopen := draw_open_calls_inScreen tanf htan pupil_y pupil_x eyebrows_low pupil_size
    eyebrow_angle hy.1 hy.2 hx.1 hx.2 hl.1 hl.2 hs.1 hs.2
  refine ⟨fun c hc => byteIndex_of_inScreen (hopen c hc), ?_⟩
  obtain ⟨out, m, h1, _, h3, _⟩ := draw_open_spec tanf pupil_y pupil_x eyebrows_low pupil_size
    eyebrow_angle buffer s hlen hv hopen
  exact ⟨out, _, h1, h3⟩

theorem draw_open_total_near_range_witness :
    (∀ c ∈ draw_open_calls tanf_approx 2 (-2) 2 2 45, 0 ≤ c.byteIndex ∧ c.byteIndex < 1024) ∧
    ∃ out s', draw_open tanf_approx 2 (-2) 2 2 45 (List.replicate 1024 0) State.initial
        = some (out, s') ∧ out.length = 1024 :=
  draw_open_total_near_range tanf_approx tanf_approx_bound 2 (-2) 2 2 45 (by norm_num)
    (by norm_num) (by norm_num) (by norm_num) (List.replicate 1024 0)
    (List.length_replicate _ _) State.initial State.initial_valid

/-- C4, the code at the failing input: after `generate_sclera_mask` from the initial state, the
left-edge pixel `(4, 32)` of the left eye disk is set, but the right-edge pixels `(60, 32)` and
`(124, 32)`, which satisfy `dx^2 + dy^2 = 28^2` as well, are not: the column loop
`x < eye_center_x + EYE_R` stops one column short. -/
theorem sclera_mask_misses_right_edge :
    ∃ s, generate_sclera_mask State.initial = some s ∧ s.sclera_mask_generated = true ∧
      pixel_bit s.sclera_mask 4 32 = true ∧
      pixel_bit s.sclera_mask 60 32 = false ∧ pixel_bit s.sclera_mask 124 32 = false ∧
      ((60 : ℤ) - 32) ^ 2 + (32 - 32) ^ 2 = 28 ^ 2 ∧
      ((124 : ℤ) - 96) ^ 2 + (32 - 32) ^ 2 = 28 ^ 2 := by
  obtain ⟨m, hm, _, hbit⟩ := built_mask_spec
  refine ⟨⟨m, true⟩, generate_valid _ State.initial_valid m hm, rfl, ?_, ?_, ?_,
    by norm_num, by norm_num⟩
  · show pixel_bit m 4 32 = true
    rw [hbit 4 32 (by norm_num) (by norm_num) (by norm_num) (by norm_num)]
    unfold sclera_bit
    have := in_eye_left_edge 32
    norm_num at this
    simp [this]
  · show pixel_bit m 60 32 = false
    rw [hbit 60 32 (by norm_num) (by norm_num) (by norm_num) (by norm_num)]
    simp [sclera_bit]
  · show pixel_bit m 124 32 = false
    rw [hbit 124 32 (by norm_num) (by norm_num) (by norm_num) (by norm_num)]
    simp [sclera_bit]

/-! ## Eyebrow angle -/

theorem clamped_angle_clamp (i : ℤ) (a : ℚ) :
    clamped_angle i (fmaxf (-EYEBROW_ANGLE_LIMIT) (fminf EYEBROW_ANGLE_LIMIT a))
      = clamped_angle i a := by
  unfold clamped_angle fmaxf fminf EYEBROW_ANGLE_LIMIT
  by_cases hi : i = 1
  · simp only [hi, if_true, max_def, min_def]
    split_ifs <;> first | rfl | linarith
  · simp only [hi, if_false, max_def, min_def]
    split_ifs <;> first | rfl | linarith

theorem clamped_angle_mirror (a : ℚ) : clamped_angle 1 a = -clamped_angle 0 a := by
  unfold clamped_angle fmaxf fminf EYEBROW_ANGLE_LIMIT
  simp only [if_true, show ¬ ((0 : ℤ) = 1) by norm_num, if_false, max_def, min_def]
  split_ifs <;> first | rfl | linarith

theorem eye_calls_clamp (tanf : ℚ → ℚ) (py px el ps a : ℚ) (i : ℤ) :
    eye_calls tanf py px el ps (fmaxf (-EYEBROW_ANGLE_LIMIT) (fminf EYEBROW_ANGLE_LIMIT a)) i
      = eye_calls tanf py px el ps a i := by
  unfold eye_calls
  rw [clamped_angle_clamp]

theorem draw_open_calls_clamp (tanf : ℚ → ℚ) (py px el ps a : ℚ) :
    draw_open_calls tanf py px el ps (fmaxf (-EYEBROW_ANGLE_LIMIT) (fminf EYEBROW_ANGLE_LIMIT a))
      = draw_open_calls tanf py px el ps a := by
  rw [draw_open_calls_eq, draw_open_calls_eq, eye_calls_clamp, eye_calls_clamp]

theorem draw_open_clamp (tanf : ℚ → ℚ) (py px el ps a : ℚ) (buffer : List ℕ) (s : State) :
    draw_open tanf py px el ps a buffer s
      = draw_open tanf py px el ps (fmaxf (-EYEBROW_ANGLE_LIMIT) (fminf EYEBROW_ANGLE_LIMIT a))
          buffer s := by
  unfold draw_open
  rw [draw_open_calls_clamp]

/-! ## Full overwrite -/

theorem draw_open_eq (tanf : ℚ → ℚ) (py px el ps ang : ℚ) (buffer : List ℕ) (s : State)
    (hlen : buffer.length = 1024) (hs : s.Valid) (m : List ℕ) (hm : built_mask = some m) :
    draw_open tanf py px el ps ang buffer s
      = (run (draw_open_calls tanf py px el ps ang) m).map fun out =>
          (out, (⟨m, true⟩ : State)) := by
  obtain ⟨m', hm', hmlen, _⟩ := built_mask_spec
  have : m' = m := by rw [hm] at hm'; exact (Option.some.inj hm').symm
  subst this
  unfold draw_open
  rw [generate_valid s hs m' hm]
  show (run (draw_open_calls tanf py px el ps ang) (memcpy buffer m' BUFFER_SIZE)).map _ = _
  rw [memcpy_eq buffer m' hlen hmlen]

theorem built_state_valid (m : List ℕ) (hm : built_mask = some m) :
    (⟨m, true⟩ : State).Valid := by
  obtain ⟨m', hm', hmlen, _⟩ := built_mask_spec
  have : m' = m := by rw [hm] at hm'; exact (Option.some.inj hm').symm
  subst this
  exact ⟨hmlen, fun _ => hm.symm⟩

/-- C7: each renderer overwrites the whole buffer.  For in-range parameters, any two initial
1024-byte buffers and any two states of the sclera cache (not yet built, or built), `draw_open`
returns the same bitmap, and rendering again into that bitmap returns it once more; likewise
`draw_half_open` and `draw_closed` for any two initial buffers. -/
theorem render_ignores_previous_frame (tanf : ℚ → ℚ)
    (htan : ∀ t : ℚ, |t| ≤ 1 / 2 → |tanf t| ≤ 1)
    (pupil_y pupil_x eyebrows_low pupil_size eyebrow_angle : ℚ)
    (hy1 : -1 ≤ pupil_y) (hy2 : pupil_y ≤ 1) (hx1 : -1 ≤ pupil_x) (hx2 : pupil_x ≤ 1)
    (hl1 : 0 ≤ eyebrows_low) (hl2 : eyebrows_low ≤ 1) (hs1 : 0 ≤ pupil_size)
    (hs2 : pupil_size ≤ 1) (b1 b2 : List ℕ) (hb1 : b1.length = 1024) (hb2 : b2.length = 1024)
    (s1 s2 : State) (hv1 : s1.Valid) (hv2 : s2.Valid) :
    (∃ out s',
      draw_open tanf pupil_y pupil_x eyebrows_low pupil_size eyebrow_angle b1 s1
        = some (out, s') ∧
      draw_open tanf pupil_y pupil_x eyebrows_low pupil_size eyebrow_angle b2 s2
        = some (out, s') ∧
      draw_open tanf pupil_y pupil_x eyebrows_low pupil_size eyebrow_angle out s'
        = some (out, s') ∧ out.length = 1024) ∧
    (∃ out, draw_half_open b1 = some out ∧ draw_half_open b2 = some out ∧
      draw_half_open out = some out ∧ out.length = 1024) ∧
    (∃ out, draw_closed b1 = some out ∧ draw_closed b2 = some out ∧
      draw_closed out = some out ∧ out.length = 1024) := by
  have hopen := draw_open_calls_inScreen tanf htan pupil_y pupil_x eyebrows_low pupil_size
    eyebrow_angle (by linarith) (by linarith) (by linarith) (by linarith) (by linarith)
    (by linarith) (by linarith) (by linarith)
  obtain ⟨m, hm, hmlen, _⟩ := built_mask_spec
  have hz : (List.replicate 1024 0 : List ℕ).length = 1024 := List.length_replicate _ _
  refine ⟨?_, ?_, ?_⟩
  · obtain ⟨out, hout, holen⟩ := run_ok _ m hopen hmlen
    refine ⟨out, ⟨m, true⟩, ?_, ?_, ?_, holen⟩
    · rw [draw_open_eq tanf _ _ _ _ _ b1 s1 hb1 hv1 m hm, hout]; rfl
    · rw [draw_open_eq tanf _ _ _ _ _ b2 s2 hb2 hv2 m hm, hout]; rfl
    · rw [draw_open_eq tanf _ _ _ _ _ out _ holen (built_state_valid m hm) m hm, hout]; rfl
  · obtain ⟨out, hout, holen⟩ := run_ok _ _ draw_half_open_calls_inScreen hz
    refine ⟨out, ?_, ?_, ?_, holen⟩ <;> unfold draw_half_open
    · rw [clear_buffer_eq b1 hb1]; exact hout
    · rw [clear_buffer_eq b2 hb2]; exact hout
    · rw [clear_buffer_eq out holen]; exact hout
  · obtain ⟨out, hout, holen⟩ := run_ok _ _ draw_closed_calls_inScreen hz
    refine ⟨out, ?_, ?_, ?_, holen⟩ <;> unfold draw_closed
    · rw [clear_buffer_eq b1 hb1]; exact hout
    · rw [clear_buffer_eq b2 hb2]; exact hout
    · rw [clear_buffer_eq out holen]; exact hout

theorem render_ignores_previous_frame_witness :
    (∃ out s',
      draw_open tanf_approx 0 0 0 (1 / 2) 0 (List.replicate 1024 0) State.initial
        = some (out, s') ∧
      draw_open tanf_approx 0 0 0 (1 / 2) 0 (List.replicate 1024 255) State.initial
        = some (out, s') ∧
      draw_open tanf_approx 0 0 0 (1 / 2) 0 out s' = some (out, s') ∧ out.length = 1024) ∧
    (∃ out, draw_half_open (List.replicate 1024 0) = some out ∧
      draw_half_open (List.replicate 1024 255) = some out ∧
      draw_half_open out = some out ∧ out.length = 1024) ∧
    (∃ out, draw_closed (List.replicate 1024 0) = some out ∧
      draw_closed (List.replicate 1024 255) = some out ∧
      draw_closed out = some out ∧ out.length = 1024) :=
  render_ignores_previous_frame tanf_approx tanf_approx_bound 0 0 0 (1 / 2) 0 (by norm_num)
    (by norm_num) (by norm_num) (by norm_num) (by norm_num) (by norm_num) (by norm_num)
    (by norm_num) (List.replicate 1024 0) (List.replicate 1024 255)
    (List.length_replicate _ _) (List.length_replicate _ _) State.initial State.initial
    State.initial_valid State.initial_valid

/-! ## Cache life cycle -/

/-- One render call with in-range parameters from a valid state and a 1024-byte buffer. -/
theorem step_spec (tanf : ℚ → ℚ) (htan : ∀ t : ℚ, |t| ≤ 1 / 2 → |tanf t| ≤ 1)
    (c : RenderCall) (hc : c.InRange) (buffer : List ℕ) (hlen : buffer.length = 1024)
    (s : State) (hv : s.Valid) (m : List ℕ) (hm : built_mask = some m) :
    ∃ out, step tanf (buffer, s) c = some (out, if c.isOpen then ⟨m, true⟩ else s) ∧
      out.length = 1024 := by
  have hz : (clear_buffer buffer).length = 1024 := by
    rw [clear_buffer_eq buffer hlen]; exact List.length_replicate _ _
  cases c with
  | draw_open py px el ps ang =>
    obtain ⟨h1, h2, h3, h4, h5, h6, h7, h8⟩ := hc
    have hopen := draw_open_calls_inScreen tanf htan py px el ps ang (by linarith) (by linarith)
      (by linarith) (by linarith) (by linarith) (by linarith) (by linarith) (by linarith)
    obtain ⟨m', hm', hmlen, _⟩ := built_mask_spec
    have : m' = m := by rw [hm] at hm'; exact (Option.some.inj hm').symm
    subst this
    obtain ⟨out, hout, holen⟩ := run_ok _ m' hopen hmlen
    refine ⟨out, ?_, holen⟩
    simp only [step, draw_open_eq tanf _ _ _ _ _ buffer s hlen hv m' hm, hout,
      Option.map_some', RenderCall.isOpen]
    rfl
  | draw_half_open =>
    obtain ⟨out, hout, holen⟩ := run_ok _ _ draw_half_open_calls_inScreen hz
    refine ⟨out, ?_, holen⟩
    simp only [step, draw_half_open, hout, Option.map_some', RenderCall.isOpen]
    rfl
  | draw_closed =>
    obtain ⟨out, hout, holen⟩ := run_ok _ _ draw_closed_calls_inScreen hz
    refine ⟨out, ?_, holen⟩
    simp only [step, draw_closed, hout, Option.map_some', RenderCall.isOpen]
    rfl

/-- A sequence of in-range render calls from a valid state. -/
theorem run_calls_spec (tanf : ℚ → ℚ) (htan : ∀ t : ℚ, |t| ≤ 1 / 2 → |tanf t| ≤ 1)
    (m : List ℕ) (hm : built_mask = some m) (calls : List RenderCall) :
    ∀ (buffer : List ℕ) (s : State), (∀ c ∈ calls, c.InRange) → buffer.length = 1024 →
      s.Valid →
      ∃ out, run_calls tanf calls (buffer, s)
          = some (out, if calls.any RenderCall.isOpen then ⟨m, true⟩ else s) ∧
        out.length = 1024 := by
  induction calls with
  | nil =>
    intro buffer s _ hlen _
    exact ⟨buffer, rfl, hlen⟩
  | cons c cs ih =>
    intro buffer s hr hlen hv
    obtain ⟨mid, hmid, hmlen⟩ := step_spec tanf htan c (hr c (List.mem_cons_self _ _)) buffer
      hlen s hv m hm
    have hv' : (if c.isOpen then (⟨m, true⟩ : State) else s).Valid := by
      split_ifs
      · exact built_state_valid m hm
      · exact hv
    obtain ⟨out, hout, holen⟩ := ih mid _ (fun c' hc' => hr c' (List.mem_cons_of_mem _ hc'))
      hmlen hv'
    refine ⟨out, ?_, holen⟩
    unfold run_calls at hout ⊢
    rw [List.foldlM_cons, hmid]
    show List.foldlM (step tanf) _ cs = _
    rw [hout]
    congr 2
    rw [List.any_cons]
    cases c.isOpen <;> cases cs.any RenderCall.isOpen <;> simp


/-- C8: in every single-threaded sequence of in-range render calls from the initial state, once
`sclera_mask_generated` is true `generate_sclera_mask` returns without changing the state; at
each position of the sequence the state (mask and flag) changes only if the call is a
`draw_open` that no `draw_open` precedes, so the mask is written during the first `draw_open`
only; `draw_half_open` and `draw_closed` leave mask and flag as they are; and a set flag stays
set. -/
theorem sclera_cache_built_once (tanf : ℚ → ℚ) (htan : ∀ t : ℚ, |t| ≤ 1 / 2 → |tanf t| ≤ 1)
    (calls : List RenderCall) (hr : ∀ c ∈ calls, c.InRange)
    (buffer : List ℕ) (hlen : buffer.length = 1024) :
    (∀ s : State, s.sclera_mask_generated = true → generate_sclera_mask s = some s) ∧
    (∀ (pre post : List RenderCall) (c : RenderCall), calls = pre ++ c :: post →
      ∃ b1 s1 b2 s2, run_calls tanf pre (buffer, State.initial) = some (b1, s1) ∧
        step tanf (b1, s1) c = some (b2, s2) ∧
        s1.sclera_mask_generated = pre.any RenderCall.isOpen ∧
        s2.sclera_mask_generated = (pre.any RenderCall.isOpen || c.isOpen) ∧
        (s1.sclera_mask_generated = true → s2 = s1) ∧
        (c.isOpen = false → s2 = s1) ∧
        (s2 ≠ s1 → c.isOpen = true ∧ pre.any RenderCall.isOpen = false)) ∧
    (∃ out s, run_calls tanf calls (buffer, State.initial) = some (out, s) ∧
      out.length = 1024 ∧
      (calls.any RenderCall.isOpen = false → s = State.initial) ∧
      (calls.any RenderCall.isOpen = true →
        s.sclera_mask_generated = true ∧ some s.sclera_mask = built_mask)) := by
  obtain ⟨m, hm, hmlen, _⟩ := built_mask_spec
  refine ⟨generate_built, ?_, ?_⟩
  · intro pre post c hcalls
    have hpre : ∀ c' ∈ pre, c'.InRange := fun c' hc' =>
      hr c' (by rw [hcalls]; exact List.mem_append_left _ hc')
    have hc : c.InRange := hr c (by rw [hcalls]; simp)
    obtain ⟨b1, h1, hb1⟩ := run_calls_spec tanf htan m hm pre buffer State.initial hpre hlen
      State.initial_valid
    have hv1 : (if pre.any RenderCall.isOpen then (⟨m, true⟩ : State)
        else State.initial).Valid := by
      split_ifs
      · exact built_state_valid m hm
      · exact State.initial_valid
    obtain ⟨b2, h2, _⟩ := step_spec tanf htan c hc b1 hb1 _ hv1 m hm
    refine ⟨b1, _, b2, _, h1, h2, ?_, ?_, ?_, ?_, ?_⟩
    · cases pre.any RenderCall.isOpen <;> rfl
    · cases pre.any RenderCall.isOpen <;> cases c.isOpen <;> rfl
    · cases hp : pre.any RenderCall.isOpen <;> cases c.isOpen <;> simp [State.initial]
    · intro hco; rw [hco]; rfl
    · cases hp : pre.any RenderCall.isOpen <;> cases hco : c.isOpen <;> simp
  · obtain ⟨out, h1, holen⟩ := run_calls_spec tanf htan m hm calls buffer State.initial hr hlen
      State.initial_valid
    refine ⟨out, _, h1, holen, ?_, ?_⟩
    · intro h; rw [h]; rfl
    · intro h; rw [h]; exact ⟨rfl, hm.symm⟩

theorem sclera_cache_built_once_witness :
    (∀ s : State, s.sclera_mask_generated = true → generate_sclera_mask s = some s) ∧
    (∀ (pre post : List RenderCall) (c : RenderCall),
      [RenderCall.draw_closed, RenderCall.draw_half_open,
        RenderCall.draw_open 0 0 0 (1 / 2) 0, RenderCall.draw_open 1 (-1) 1 1 45,
        RenderCall.draw_half_open, RenderCall.draw_closed] = pre ++ c :: post →
      ∃ b1 s1 b2 s2,
        run_calls tanf_approx pre (List.replicate 1024 0, State.initial) = some (b1, s1) ∧
        step tanf_approx (b1, s1) c = some (b2, s2) ∧
        s1.sclera_mask_generated = pre.any RenderCall.isOpen ∧
        s2.sclera_mask_generated = (pre.any RenderCall.isOpen || c.isOpen) ∧
        (s1.sclera_mask_generated = true → s2 = s1) ∧
        (c.isOpen = false → s2 = s1) ∧
        (s2 ≠ s1 → c.isOpen = true ∧ pre.any RenderCall.isOpen = false)) ∧
    (∃ out s,
      run_calls tanf_approx
        [RenderCall.draw_closed, RenderCall.draw_half_open,
          RenderCall.draw_open 0 0 0 (1 / 2) 0, RenderCall.draw_open 1 (-1) 1 1 45,
          RenderCall.draw_half_open, RenderCall.draw_closed]
        (List.replicate 1024 0, State.initial) = some (out, s) ∧
      out.length = 1024 ∧
      (([RenderCall.draw_closed, RenderCall.draw_half_open,
          RenderCall.draw_open 0 0 0 (1 / 2) 0, RenderCall.draw_open 1 (-1) 1 1 45,
          RenderCall.draw_half_open, RenderCall.draw_closed] : List RenderCall).any
            RenderCall.isOpen = false → s = State.initial) ∧
      (([RenderCall.draw_closed, RenderCall.draw_half_open,
          RenderCall.draw_open 0 0 0 (1 / 2) 0, RenderCall.draw_open 1 (-1) 1 1 45,
          RenderCall.draw_half_open, RenderCall.draw_closed] : List RenderCall).any
            RenderCall.isOpen = true →
        s.sclera_mask_generated = true ∧ some s.sclera_mask = built_mask)) :=
  sclera_cache_built_once tanf_approx tanf_approx_bound
    [RenderCall.draw_closed, RenderCall.draw_half_open,
      RenderCall.draw_open 0 0 0 (1 / 2) 0, RenderCall.draw_open 1 (-1) 1 1 45,
      RenderCall.draw_half_open, RenderCall.draw_closed]
    (by
      intro c hc
      simp only [List.mem_cons, List.mem_singleton, List.not_mem_nil, or_false] at hc
      rcases hc with rfl | rfl | rfl | rfl | rfl | rfl <;> norm_num [RenderCall.InRange])
    (List.replicate 1024 0) (List.length_replicate _ _)

/-! ## What one eye does to a pixel -/

theorem touches_iff (calls : List Call) (x y : ℤ) :
    touches calls x y = true ↔ ∃ c ∈ calls, c.x = x ∧ c.y = y := by
  unfold touches
  rw [List.any_eq_true]
  constructor
  · rintro ⟨c, hc, h⟩
    exact ⟨c, hc, of_decide_eq_true h⟩
  · rintro ⟨c, hc, h⟩
    exact ⟨c, hc, decide_eq_true h⟩

theorem paint_uniform_touches (l : Bool) (calls : List Call) (v : Bool) (x y : ℤ)
    (h : ∀ c ∈ calls, c.lit = l) :
    paint calls v x y = if touches calls x y = true then l else v := by
  rw [paint_uniform l calls v x y h]
  by_cases hex : ∃ c ∈ calls, c.x = x ∧ c.y = y
  · rw [if_pos hex, if_pos ((touches_iff calls x y).mpr hex)]
  · rw [if_neg hex, if_neg (fun h' => hex ((touches_iff calls x y).mp h'))]

theorem touches_iris (icx icy : ℚ) (x y : ℤ) :
    touches (iris_calls icx icy) x y = true ↔
      y ∈ forLe (f2i (f32 (roundf icy - i2f IRIS_R))) (f32 (roundf icy + i2f IRIS_R)) ∧
      x ∈ forLe (f2i (f32 (roundf icx - i2f IRIS_R))) (f32 (roundf icx + i2f IRIS_R)) ∧
      within x icx y icy (i2f (IRIS_R * IRIS_R)) = true := by
  rw [touches_iff]
  constructor
  · rintro ⟨c, hc, hx, hy⟩
    obtain ⟨x', y', rfl, h1, h2, h3⟩ := (mem_iris_calls c icx icy).mp hc
    simp only [Call.x, Call.y] at hx hy
    subst hx hy
    exact ⟨h1, h2, h3⟩
  · rintro ⟨h1, h2, h3⟩
    exact ⟨Call.clear x y, (mem_iris_calls _ icx icy).mpr ⟨x, y, rfl, h1, h2, h3⟩, rfl, rfl⟩

theorem touches_pupil (icx icy r : ℚ) (x y : ℤ) :
    touches (pupil_calls icx icy r) x y = true ↔
      y ∈ forLe (f2i (f32 (roundf icy - r))) (f32 (roundf icy + r)) ∧
      x ∈ forLe (f2i (f32 (roundf icx - r))) (f32 (roundf icx + r)) ∧
      within x icx y icy (f32 (r * r)) = true := by
  rw [touches_iff]
  constructor
  · rintro ⟨c, hc, hx, hy⟩
    obtain ⟨x', y', rfl, h1, h2, h3⟩ := (mem_pupil_calls c icx icy r).mp hc
    simp only [Call.x, Call.y] at hx hy
    subst hx hy
    exact ⟨h1, h2, h3⟩
  · rintro ⟨h1, h2, h3⟩
    exact ⟨Call.set x y, (mem_pupil_calls _ icx icy r).mpr ⟨x, y, rfl, h1, h2, h3⟩, rfl, rfl⟩

theorem touches_eyebrow (cx base : ℤ) (t : ℚ) (x y : ℤ) :
    touches (eyebrow_calls cx base t) x y = true ↔
      -28 ≤ x - cx ∧ x - cx ≤ 28 ∧ 0 ≤ y ∧
        y < f2i (f32 (i2f base + roundf (f32 (t * i2f (x - cx))))) := by
  rw [touches_iff]
  constructor
  · rintro ⟨c, hc, hx, hy⟩
    obtain ⟨off, y', rfl, h1, h2, h3, h4⟩ := (mem_eyebrow_calls c cx base t).mp hc
    simp only [Call.x, Call.y] at hx hy
    subst hx hy
    have : cx + off - cx = off := by ring
    rw [this]
    exact ⟨h1, h2, h3, h4⟩
  · rintro ⟨h1, h2, h3, h4⟩
    refine ⟨Call.clear (cx + (x - cx)) y, (mem_eyebrow_calls _ cx base t).mpr
      ⟨x - cx, y, rfl, h1, h2, h3, h4⟩, ?_, rfl⟩
    simp only [Call.x]; ring

theorem eye_calls_eq (tanf : ℚ → ℚ) (py px el ps ang : ℚ) (i : ℤ) :
    eye_calls tanf py px el ps ang i
      = iris_calls (iris_center (32 + i * 64) px 10) (iris_center 32 py 10)
        ++ pupil_calls (iris_center (32 + i * 64) px 10) (iris_center 32 py 10)
            (pupil_radius ps)
        ++ eyebrow_calls (32 + i * 64) (12 + f2i (f32 (el * i2f 12)))
            (tanf (tan_arg (clamped_angle i ang))) := rfl

theorem iris_calls_lit (icx icy : ℚ) : ∀ c ∈ iris_calls icx icy, c.lit = false := by
  intro c hc
  obtain ⟨x, y, rfl, _⟩ := (mem_iris_calls c icx icy).mp hc
  rfl

theorem pupil_calls_lit (icx icy r : ℚ) : ∀ c ∈ pupil_calls icx icy r, c.lit = true := by
  intro c hc
  obtain ⟨x, y, rfl, _⟩ := (mem_pupil_calls c icx icy r).mp hc
  rfl

theorem eyebrow_calls_lit (cx base : ℤ) (t : ℚ) :
    ∀ c ∈ eyebrow_calls cx base t, c.lit = false := by
  intro c hc
  obtain ⟨off, y, rfl, _⟩ := (mem_eyebrow_calls c cx base t).mp hc
  rfl

/-- Effect of the three loops of one eye on a pixel: eyebrow over pupil over iris. -/
theorem eye_paint (tanf : ℚ → ℚ) (py px el ps ang : ℚ) (i : ℤ) (v : Bool) (x y : ℤ) :
    paint (eye_calls tanf py px el ps ang i) v x y
      = if touches (eyebrow_calls (32 + i * 64) (12 + f2i (f32 (el * i2f 12)))
            (tanf (tan_arg (clamped_angle i ang)))) x y = true then false
        else if touches (pupil_calls (iris_center (32 + i * 64) px 10) (iris_center 32 py 10)
            (pupil_radius ps)) x y = true then true
        else if touches (iris_calls (iris_center (32 + i * 64) px 10) (iris_center 32 py 10))
            x y = true then false
        else v := by
  rw [eye_calls_eq, paint_append, paint_append,
    paint_uniform_touches false _ _ x y (eyebrow_calls_lit _ _ _),
    paint_uniform_touches true _ _ x y (pupil_calls_lit _ _ _),
    paint_uniform_touches false _ _ x y (iris_calls_lit _ _)]

/-- For parameters in `[-2, 2]`, a pixel in the half of the screen of eye `i` is painted by that
eye's loops only. -/
theorem paint_draw_open (tanf : ℚ → ℚ) (htan : ∀ t : ℚ, |t| ≤ 1 / 2 → |tanf t| ≤ 1)
    (py px el ps ang : ℚ) (hy1 : -2 ≤ py) (hy2 : py ≤ 2) (hx1 : -2 ≤ px) (hx2 : px ≤ 2)
    (hl1 : -2 ≤ el) (hl2 : el ≤ 2) (hs1 : -2 ≤ ps) (hs2 : ps ≤ 2)
    (i : ℤ) (hi : i = 0 ∨ i = 1) (v : Bool) (x y : ℤ) (h1 : 64 * i ≤ x) (h2 : x < 64 * i + 64) :
    paint (draw_open_calls tanf py px el ps ang) v x y
      = paint (eye_calls tanf py px el ps ang i) v x y := by
  rw [draw_open_calls_eq, paint_append]
  rcases hi with rfl | rfl
  · apply paint_of_not_mem
    intro c hc hxy
    have := eye_calls_region tanf htan py px el ps ang hy1 hy2 hx1 hx2 hl1 hl2 hs1 hs2 1
      (Or.inr rfl) c hc
    omega
  · congr 1
    apply paint_of_not_mem
    intro c hc hxy
    have := eye_calls_region tanf htan py px el ps ang hy1 hy2 hx1 hx2 hl1 hl2 hs1 hs2 0
      (Or.inl rfl) c hc
    omega

/-! ## Neutral eyebrows and integer gaze -/

theorem clamped_angle_zero (i : ℤ) : clamped_angle i 0 = 0 := by
  unfold clamped_angle fmaxf fminf EYEBROW_ANGLE_LIMIT
  split_ifs <;> norm_num

theorem tan_arg_zero : tan_arg 0 = 0 := by
  unfold tan_arg f32 f64
  rw [zero_mul, roundBin_zero, zero_div, roundBin_zero, roundBin_zero]

theorem roundf_zero : roundf 0 = 0 := by
  have := roundf_int 0
  simpa using this

/-- With `eyebrow_angle = 0` (and `tanf 0 = 0`) the eyebrow loop clears the rows above the
base row in the 57 columns of the eye. -/
theorem touches_eyebrow_zero (tanf : ℚ → ℚ) (htan0 : tanf 0 = 0) (i cx base : ℤ)
    (hb : |base| < 16777216) (x y : ℤ) :
    touches (eyebrow_calls cx base (tanf (tan_arg (clamped_angle i 0)))) x y = true ↔
      -28 ≤ x - cx ∧ x - cx ≤ 28 ∧ 0 ≤ y ∧ y < base := by
  rw [touches_eyebrow, clamped_angle_zero, tan_arg_zero, htan0, zero_mul, f32_zero, roundf_zero,
    add_zero, i2f_eq base hb, f32_int base hb, f2i_int]

theorem iris_center_int (c : ℤ) (p : ℤ) (hc : |c| < 1000) (hp : |p| < 100) :
    iris_center c p 10 = ((c + p * 10 : ℤ) : ℚ) := by
  unfold iris_center
  rw [abs_lt] at hc hp
  rw [i2f_eq c (by rw [abs_lt]; constructor <;> omega)]
  have h1 : f32 ((p : ℚ) * 10) = ((p * 10 : ℤ) : ℚ) := by
    have := f32_int (p * 10) (by rw [abs_lt]; constructor <;> omega)
    rw [← this]; push_cast; rfl
  rw [h1]
  have := f32_int (c + p * 10) (by rw [abs_lt]; constructor <;> omega)
  rw [← this]; push_cast; rfl

/-! ## Pupil test around an integer centre column -/

theorem pupil_radius_range (ps : ℚ) (h1 : 0 ≤ ps) (h2 : ps ≤ 1) :
    3 ≤ pupil_radius ps ∧ pupil_radius ps ≤ 7 ∧ IsRep 24 (-149) (pupil_radius ps) := by
  refine ⟨?_, ?_, f32_isRep _⟩
  all_goals
    unfold pupil_radius PUPIL_R_MAX PUPIL_R_MIN
    have h4 : f32 (7 - 3) = 4 := by
      have := f32_cast 4 (7 - 3) (by norm_num) (by norm_num)
      rw [this]; norm_num
    rw [h4]
    have a1 : ((0 : ℤ) : ℚ) ≤ f32 (4 * ps) := int_le_f32 (by norm_num) (by push_cast; linarith)
    have a2 : f32 (4 * ps) ≤ ((4 : ℤ) : ℚ) := f32_le_int (by norm_num) (by push_cast; linarith)
    push_cast at a1 a2
  · have := int_le_f32 (n := 3) (x := 3 + f32 (4 * ps)) (by norm_num) (by push_cast; linarith)
    simpa using this
  · have := f32_le_int (n := 7) (x := 3 + f32 (4 * ps)) (by norm_num) (by push_cast; linarith)
    simpa using this

theorem iris_cy_range (py : ℚ) (h1 : -1 ≤ py) (h2 : py ≤ 1) :
    22 ≤ iris_center 32 py 10 ∧ iris_center 32 py 10 ≤ 42 ∧
      IsRep 24 (-149) (iris_center 32 py 10) := by
  refine ⟨?_, ?_, f32_isRep _⟩
  all_goals
    unfold iris_center
    have hi : i2f 32 = 32 := by
      have := i2f_eq 32 (by norm_num); simpa using this
    have a1 : ((-10 : ℤ) : ℚ) ≤ f32 (py * 10) := int_le_f32 (by norm_num) (by push_cast; linarith)
    have a2 : f32 (py * 10) ≤ ((10 : ℤ) : ℚ) := f32_le_int (by norm_num) (by push_cast; linarith)
    push_cast at a1 a2
    rw [hi]
  · have := int_le_f32 (n := 22) (x := 32 + f32 (py * 10)) (by norm_num) (by push_cast; linarith)
    simpa using this
  · have := f32_le_int (n := 42) (x := 32 + f32 (py * 10)) (by norm_num) (by push_cast; linarith)
    simpa using this

/-- The value tested by `within` when the centre column is the integer `C`. -/
theorem within_int_center (x C y : ℤ) (icy bound : ℚ) (hx : |x| < 1000) (hC : |C| < 1000) :
    within x (C : ℚ) y icy bound
      = decide (f32 ((((x - C) * (x - C) : ℤ) : ℚ) + f32 (f32 (i2f y - icy) * f32 (i2f y - icy)))
          ≤ bound) := by
  unfold within
  rw [abs_lt] at hx hC
  have h1 : f32 (i2f x - (C : ℚ)) = ((x - C : ℤ) : ℚ) := by
    rw [i2f_eq x (by rw [abs_lt]; constructor <;> omega)]
    have := f32_int (x - C) (by rw [abs_lt]; constructor <;> omega)
    rw [← this]; push_cast; rfl
  have h2 : f32 (((x - C : ℤ) : ℚ) * ((x - C : ℤ) : ℚ)) = (((x - C) * (x - C) : ℤ) : ℚ) := by
    have := f32_int ((x - C) * (x - C)) (by rw [abs_lt]; constructor <;> nlinarith)
    rw [← this]; push_cast; rfl
  simp only [h1, h2]

/-- A pixel that passes the pupil test around an integer centre column lies in the column
range of the pupil loop. -/
theorem pupil_column_of_within (x C y : ℤ) (icy r : ℚ) (hx : |x| < 1000) (hC : |C| < 1000)
    (hr : IsRep 24 (-149) r) (h3 : 3 ≤ r) (h7 : r ≤ 7)
    (hw : within x (C : ℚ) y icy (f32 (r * r)) = true) :
    x ∈ forLe (f2i (f32 (roundf (C : ℚ) - r))) (f32 (roundf (C : ℚ) + r)) := by
  rw [within_int_center x C y icy _ hx hC] at hw
  have hw := of_decide_eq_true hw
  rw [abs_lt] at hx hC
  have hsq : |(x - C) * (x - C)| < 16777216 := by rw [abs_lt]; constructor <;> nlinarith
  have h1 : (((x - C) * (x - C) : ℤ) : ℚ) ≤ f32 (r * r) := by
    refine le_trans (int_le_f32 hsq ?_) hw
    have := f32_nonneg (mul_self_nonneg (f32 (i2f y - icy)))
    linarith
  have habs : ((|x - C| : ℤ) : ℚ) ≤ r := by
    by_contra hlt
    push_neg at hlt
    have := f32_sq_lt_of_lt r hr h3 h7 (|x - C|) hlt
    have h2 : ((|x - C| : ℤ) : ℚ) * (|x - C| : ℤ) = (((x - C) * (x - C) : ℤ) : ℚ) := by
      rw [← Int.cast_mul, abs_mul_abs_self]
    rw [h2] at this
    linarith
  have hle : ((x - C : ℤ) : ℚ) ≤ r := le_trans (by exact_mod_cast le_abs_self (x - C)) habs
  have hge : -r ≤ ((x - C : ℤ) : ℚ) := by
    have : ((-(x - C) : ℤ) : ℚ) ≤ r := le_trans (by exact_mod_cast neg_le_abs (x - C)) habs
    push_cast at this ⊢; linarith
  push_cast at hle hge
  rw [mem_forLe, roundf_int]
  constructor
  · apply f2i_le
    exact f32_le_int (by rw [abs_lt]; constructor <;> omega) (by linarith)
  · exact int_le_f32 (by rw [abs_lt]; constructor <;> omega) (by linarith)

/-- A pixel within distance 9 of an iris centre with integer column `C` is cleared by the iris
loop. -/
theorem touches_iris_of_disk (x C y : ℤ) (icy : ℚ) (hC : |C| < 500)
    (h22 : 22 ≤ icy) (h42 : icy ≤ 42) (hrep : IsRep 24 (-149) icy)
    (hdisk : (((x - C : ℤ) : ℚ)) ^ 2 + ((y : ℚ) - icy) ^ 2 ≤ 81) :
    touches (iris_calls (C : ℚ) icy) x y = true := by
  have hdx : (((x - C : ℤ) : ℚ)) ^ 2 ≤ 81 := by nlinarith [sq_nonneg ((y : ℚ) - icy)]
  have hdy : ((y : ℚ) - icy) ^ 2 ≤ 81 := by nlinarith [sq_nonneg (((x - C : ℤ) : ℚ))]
  have hdx' : -9 ≤ x - C ∧ x - C ≤ 9 := by
    have h1 : (x - C) ^ 2 ≤ 81 := by exact_mod_cast hdx
    constructor <;> nlinarith
  have hdy' : -9 ≤ (y : ℚ) - icy ∧ (y : ℚ) - icy ≤ 9 := by
    constructor <;> nlinarith
  rw [abs_lt] at hC
  have hxs : |x| < 1000 := by rw [abs_lt]; constructor <;> omega
  have hCs : |C| < 1000 := by rw [abs_lt]; constructor <;> omega
  have h9 : i2f IRIS_R = 9 := by
    have := i2f_eq 9 (by norm_num); simpa [IRIS_R] using this
  have h81 : i2f (IRIS_R * IRIS_R) = 81 := by
    have := i2f_eq 81 (by norm_num); simpa [IRIS_R] using this
  rw [touches_iris, h9, h81]
  refine ⟨?_, ?_, ?_⟩
  · obtain ⟨n, hn, hna, hnb⟩ := roundf_spec icy
    have hn1 : y - 9 ≤ n := hna (y - 9) (by push_cast; linarith)
    have hn2 : n ≤ y + 9 := hnb (y + 9) (by push_cast; linarith)
    have hn3 : 22 ≤ n := hna 22 (by push_cast; linarith)
    have hn4 : n ≤ 42 := hnb 42 (by push_cast; linarith)
    rw [mem_forLe, hn]
    constructor
    · apply f2i_le
      exact f32_le_int (by rw [abs_lt]; constructor <;> omega)
        (by have : (n : ℚ) ≤ y + 9 := by exact_mod_cast hn2
            linarith)
    · exact int_le_f32 (by rw [abs_lt]; constructor <;> omega)
        (by have : (y : ℚ) - 9 ≤ n := by exact_mod_cast hn1
            linarith)
  · rw [mem_forLe, roundf_int]
    constructor
    · apply f2i_le
      exact f32_le_int (by rw [abs_lt]; constructor <;> omega)
        (by have : (C : ℚ) - 9 ≤ x := by exact_mod_cast (by omega : C - 9 ≤ x)
            linarith)
    · exact int_le_f32 (by rw [abs_lt]; constructor <;> omega)
        (by have : (x : ℚ) ≤ C + 9 := by exact_mod_cast (by omega : x ≤ C + 9)
            linarith)
  · rw [within_int_center x C y icy _ hxs hCs]
    apply decide_eq_true
    have hy : |y| < 16777216 := by
      have h1 : (y : ℚ) ≤ 51 := by linarith
      have h2 : (13 : ℚ) ≤ y := by linarith
      have h1' : y ≤ 51 := by exact_mod_cast h1
      have h2' : 13 ≤ y := by exact_mod_cast h2
      rw [abs_lt]; constructor <;> omega
    have hsub : f32 (i2f y - icy) = (y : ℚ) - icy := by
      rw [i2f_eq y hy]
      exact f32_int_sub_exact y icy hrep (by linarith) (by rw [abs_lt]; constructor <;> linarith)
    rw [hsub]
    have hsq : f32 (((y : ℚ) - icy) * ((y : ℚ) - icy))
        ≤ ((81 - (x - C) * (x - C) : ℤ) : ℚ) := by
      apply f32_le_int (by rw [abs_lt]; constructor <;> nlinarith)
      push_cast; push_cast at hdisk; nlinarith
    have := f32_le_int (n := 81)
      (x := (((x - C) * (x - C) : ℤ) : ℚ) + f32 (((y : ℚ) - icy) * ((y : ℚ) - icy)))
      (by norm_num) (by push_cast at hsq ⊢; linarith)
    simpa using this

/-- With neutral eyebrows, a pixel within distance 9 of an iris centre with integer column `C`
ends up lit exactly when it is not above the eyebrow base row and passes the pupil test in a
row of the pupil loop; the sclera bit `v` plays no part. -/
theorem iris_disk_paint (tanf : ℚ → ℚ) (htan0 : tanf 0 = 0) (py px el ps : ℚ)
    (hy1 : -1 ≤ py) (hy2 : py ≤ 1) (hl1 : 0 ≤ el) (hl2 : el ≤ 1) (hs1 : 0 ≤ ps) (hs2 : ps ≤ 1)
    (i : ℤ) (hi : i = 0 ∨ i = 1) (C : ℤ) (hC : iris_center (32 + i * 64) px 10 = (C : ℚ))
    (hCr : |C - (32 + i * 64)| ≤ 10) (x y : ℤ)
    (hdisk : (((x - C : ℤ) : ℚ)) ^ 2 + ((y : ℚ) - iris_center 32 py 10) ^ 2 ≤ 81) (v : Bool) :
    paint (eye_calls tanf py px el ps 0 i) v x y
      = if y < 12 + f2i (f32 (el * i2f 12)) then false
        else if y ∈ forLe (f2i (f32 (roundf (iris_center 32 py 10) - pupil_radius ps)))
              (f32 (roundf (iris_center 32 py 10) + pupil_radius ps)) ∧
            f32 ((((x - C) * (x - C) : ℤ) : ℚ)
              + f32 (f32 (i2f y - iris_center 32 py 10) * f32 (i2f y - iris_center 32 py 10)))
              ≤ f32 (pupil_radius ps * pupil_radius ps) then true
        else false := by
  obtain ⟨h22, h42, hrep⟩ := iris_cy_range py hy1 hy2
  obtain ⟨hr3, hr7, hrrep⟩ := pupil_radius_range ps hs1 hs2
  have hbase := eyebrow_base_bounds el (by linarith) (by linarith)
  simp only [EYEBROW_Y_BASE, EYEBROW_Y_RANGE] at hbase
  rw [abs_le] at hCr
  have hCs : |C| < 500 := by
    rw [abs_lt]; rcases hi with rfl | rfl <;> constructor <;> omega
  have hdx : (((x - C : ℤ) : ℚ)) ^ 2 ≤ 81 := by
    nlinarith [sq_nonneg ((y : ℚ) - iris_center 32 py 10)]
  have hdy : ((y : ℚ) - iris_center 32 py 10) ^ 2 ≤ 81 := by
    nlinarith [sq_nonneg (((x - C : ℤ) : ℚ))]
  have hdx' : -9 ≤ x - C ∧ x - C ≤ 9 := by
    have h1 : (x - C) ^ 2 ≤ 81 := by exact_mod_cast hdx
    constructor <;> nlinarith
  have hy0 : 0 ≤ y := by
    have : (0 : ℚ) ≤ y := by nlinarith
    exact_mod_cast this
  have hxs : |x| < 1000 := by rw [abs_lt] at hCs ⊢; constructor <;> omega
  have hCs' : |C| < 1000 := by rw [abs_lt] at hCs ⊢; constructor <;> omega
  have hbrow := touches_eyebrow_zero tanf htan0 i (32 + i * 64) (12 + f2i (f32 (el * i2f 12)))
    (by rw [abs_lt]; constructor <;> omega) x y
  have hpupil : touches (pupil_calls (C : ℚ) (iris_center 32 py 10) (pupil_radius ps)) x y = true
      ↔ (y ∈ forLe (f2i (f32 (roundf (iris_center 32 py 10) - pupil_radius ps)))
              (f32 (roundf (iris_center 32 py 10) + pupil_radius ps)) ∧
            f32 ((((x - C) * (x - C) : ℤ) : ℚ)
              + f32 (f32 (i2f y - iris_center 32 py 10) * f32 (i2f y - iris_center 32 py 10)))
              ≤ f32 (pupil_radius ps * pupil_radius ps)) := by
    rw [touches_pupil]
    constructor
    · rintro ⟨h1, _, h3⟩
      rw [within_int_center x C y _ _ hxs hCs'] at h3
      exact ⟨h1, of_decide_eq_true h3⟩
    · rintro ⟨h1, h3⟩
      have hw : within x (C : ℚ) y (iris_center 32 py 10)
          (f32 (pupil_radius ps * pupil_radius ps)) = true := by
        rw [within_int_center x C y _ _ hxs hCs']
        exact decide_eq_true h3
      exact ⟨h1, pupil_column_of_within x C y _ _ hxs hCs' hrrep hr3 hr7 hw, hw⟩
  have hiris := touches_iris_of_disk x C y _ hCs h22 h42 hrep hdisk
  rw [eye_paint, hC]
  by_cases hb : y < 12 + f2i (f32 (el * i2f 12))
  · rw [if_pos (hbrow.mpr ⟨by omega, by omega, hy0, hb⟩), if_pos hb]
  · rw [if_neg (fun h => hb (hbrow.mp h).2.2.2), if_neg hb]
    by_cases hp : (y ∈ forLe (f2i (f32 (roundf (iris_center 32 py 10) - pupil_radius ps)))
              (f32 (roundf (iris_center 32 py 10) + pupil_radius ps)) ∧
            f32 ((((x - C) * (x - C) : ℤ) : ℚ)
              + f32 (f32 (i2f y - iris_center 32 py 10) * f32 (i2f y - iris_center 32 py 10)))
              ≤ f32 (pupil_radius ps * pupil_radius ps))
    · rw [if_pos (hpupil.mpr hp), if_pos hp]
    · rw [if_neg (fun h => hp (hpupil.mp h)), if_neg hp, if_pos hiris]

/-! ## Gaze shift -/

/-- C10: with `eyebrow_angle = 0` and the same in-range `pupil_y`, `eyebrows_low`, `pupil_size`,
for each eye `i` and every pixel `(x, y)` within `IRIS_R = 9` of the iris centre of the
`pupil_x = 0` frame, the bit of `(x + 10, y)` in the `pupil_x = 1` frame equals the bit of
`(x, y)` in the `pupil_x = 0` frame. -/
theorem gaze_shift_right (tanf : ℚ → ℚ) (htan : ∀ t : ℚ, |t| ≤ 1 / 2 → |tanf t| ≤ 1)
    (htan0 : tanf 0 = 0) (pupil_y eyebrows_low pupil_size : ℚ)
    (hy1 : -1 ≤ pupil_y) (hy2 : pupil_y ≤ 1) (hl1 : 0 ≤ eyebrows_low) (hl2 : eyebrows_low ≤ 1)
    (hs1 : 0 ≤ pupil_size) (hs2 : pupil_size ≤ 1)
    (b0 b1 : List ℕ) (hb0 : b0.length = 1024) (hb1 : b1.length = 1024)
    (s0 s1 : State) (hv0 : s0.Valid) (hv1 : s1.Valid)
    (i : ℤ) (hi : i = 0 ∨ i = 1) (x y : ℤ)
    (hdisk : (((x - (LEFT_EYE_CENTER_X + i * EYE_SEPARATION) : ℤ) : ℚ)) ^ 2
      + ((y : ℚ) - iris_center EYE_CENTER_Y pupil_y IRIS_SHIFT_Y) ^ 2 ≤ ((IRIS_R : ℤ) : ℚ) ^ 2) :
    ∃ out0 out1 t0 t1,
      draw_open tanf pupil_y 0 eyebrows_low pupil_size 0 b0 s0 = some (out0, t0) ∧
      draw_open tanf pupil_y 1 eyebrows_low pupil_size 0 b1 s1 = some (out1, t1) ∧
      pixel_bit out1 (x + 10) y = pixel_bit out0 x y := by
  simp only [LEFT_EYE_CENTER_X, EYE_SEPARATION, EYE_CENTER_Y, IRIS_SHIFT_Y, IRIS_R] at hdisk
  norm_num at hdisk
  have hscr0 := draw_open_calls_inScreen tanf htan pupil_y 0 eyebrows_low pupil_size 0
    (by linarith) (by linarith) (by norm_num) (by norm_num) (by linarith) (by linarith)
    (by linarith) (by linarith)
  have hscr1 := draw_open_calls_inScreen tanf htan pupil_y 1 eyebrows_low pupil_size 0
    (by linarith) (by linarith) (by norm_num) (by norm_num) (by linarith) (by linarith)
    (by linarith) (by linarith)
  obtain ⟨out0, m0, ho0, _, _, hbit0⟩ := draw_open_spec tanf pupil_y 0 eyebrows_low pupil_size 0
    b0 s0 hb0 hv0 hscr0
  obtain ⟨out1, m1, ho1, _, _, hbit1⟩ := draw_open_spec tanf pupil_y 1 eyebrows_low pupil_size 0
    b1 s1 hb1 hv1 hscr1
  refine ⟨out0, out1, _, _, ho0, ho1, ?_⟩
  obtain ⟨h22, h42, _⟩ := iris_cy_range pupil_y hy1 hy2
  have hdx : (((x - (32 + i * 64) : ℤ) : ℚ)) ^ 2 ≤ 81 := by
    push_cast
    nlinarith [sq_nonneg ((y : ℚ) - iris_center 32 pupil_y 10)]
  have hdy : ((y : ℚ) - iris_center 32 pupil_y 10) ^ 2 ≤ 81 := by
    nlinarith [sq_nonneg ((x : ℚ) - (32 + (i : ℚ) * 64))]
  have hdx' : -9 ≤ x - (32 + i * 64) ∧ x - (32 + i * 64) ≤ 9 := by
    have h1 : (x - (32 + i * 64)) ^ 2 ≤ 81 := by exact_mod_cast hdx
    constructor <;> nlinarith
  have hyr : 13 ≤ y ∧ y ≤ 51 := by
    have h1 : (13 : ℚ) ≤ y := by nlinarith
    have h2 : (y : ℚ) ≤ 51 := by nlinarith
    exact ⟨by exact_mod_cast h1, by exact_mod_cast h2⟩
  have hi01 : 0 ≤ i ∧ i ≤ 1 := by rcases hi with rfl | rfl <;> norm_num
  have hc0 : iris_center (32 + i * 64) 0 10 = ((32 + i * 64 : ℤ) : ℚ) := by
    have := iris_center_int (32 + i * 64) 0 (by rw [abs_lt]; constructor <;> omega)
      (by norm_num)
    simpa using this
  have hc1 : iris_center (32 + i * 64) 1 10 = ((32 + i * 64 + 10 : ℤ) : ℚ) := by
    have := iris_center_int (32 + i * 64) 1 (by rw [abs_lt]; constructor <;> omega)
      (by norm_num)
    simpa using this
  rw [hbit0 x y (by omega) (by omega) (by omega) (by omega),
    hbit1 (x + 10) y (by omega) (by omega) (by omega) (by omega),
    paint_draw_open tanf htan pupil_y 0 eyebrows_low pupil_size 0 (by linarith) (by linarith)
      (by norm_num) (by norm_num) (by linarith) (by linarith) (by linarith) (by linarith)
      i hi _ x y (by omega) (by omega),
    paint_draw_open tanf htan pupil_y 1 eyebrows_low pupil_size 0 (by linarith) (by linarith)
      (by norm_num) (by norm_num) (by linarith) (by linarith) (by linarith) (by linarith)
      i hi _ (x + 10) y (by omega) (by omega),
    iris_disk_paint tanf htan0 pupil_y 0 eyebrows_low pupil_size hy1 hy2 hl1 hl2 hs1 hs2 i hi
      (32 + i * 64) hc0 (by simp) x y (by push_cast at hdisk ⊢; linarith),
    iris_disk_paint tanf htan0 pupil_y 1 eyebrows_low pupil_size hy1 hy2 hl1 hl2 hs1 hs2 i hi
      (32 + i * 64 + 10) hc1 (by simp) (x + 10) y
      (by push_cast at hdisk ⊢; ring_nf at hdisk ⊢; linarith)]
  have hshift : x + 10 - (32 + i * 64 + 10) = x - (32 + i * 64) := by ring
  rw [hshift]

theorem gaze_shift_right_witness :
    ∃ out0 out1 t0 t1,
      draw_open tanf_approx 0 0 0 (1 / 2) 0 (List.replicate 1024 0) State.initial
        = some (out0, t0) ∧
      draw_open tanf_approx 0 1 0 (1 / 2) 0 (List.replicate 1024 0) State.initial
        = some (out1, t1) ∧
      pixel_bit out1 (35 + 10) 28 = pixel_bit out0 35 28 :=
  gaze_shift_right tanf_approx tanf_approx_bound tanf_approx_zero 0 0 (1 / 2) (by norm_num)
    (by norm_num) (by norm_num) (by norm_num) (by norm_num) (by norm_num)
    (List.replicate 1024 0) (List.replicate 1024 0) (List.length_replicate _ _)
    (List.length_replicate _ _) State.initial State.initial State.initial_valid
    State.initial_valid 0 (Or.inl rfl) 35 28
    (by
      have h : iris_center EYE_CENTER_Y 0 IRIS_SHIFT_Y = 32 := by
        have := iris_center_int 32 0 (by norm_num) (by norm_num)
        simpa [EYE_CENTER_Y, IRIS_SHIFT_Y] using this
      rw [h]
      norm_num [LEFT_EYE_CENTER_X, EYE_SEPARATION, IRIS_R])

/-! ## Evaluating roundings -/

theorem f32_exact (q : ℚ) (z k : ℤ) (hq : q = (z : ℚ) * (2 : ℚ) ^ k) (hz : |z| < 16777216)
    (hk : -149 ≤ k) : f32 q = q := by
  rw [hq]
  exact roundBin_of_isRep (by norm_num) (isRep32_of_grid z k hz hk)

/-- Value of a binary32 rounding: `x` lies in the binade `[2^E, 2^(E+1))` and `n` is the
integer nearest to `x / 2^(E-23)`. -/
theorem f32_eq_of_near (x : ℚ) (E n : ℤ) (h1 : (2 : ℚ) ^ E ≤ |x|) (h2 : |x| < (2 : ℚ) ^ (E + 1))
    (hE : -126 ≤ E) (h3 : |x / (2 : ℚ) ^ (E - 23) - n| < 1 / 2) :
    f32 x = (n : ℚ) * (2 : ℚ) ^ (E - 23) := by
  have hpos : 0 < |x| := lt_of_lt_of_le (two_zpow_pos E) h1
  have hlog : Int.log 2 |x| = E := by
    have a1 : E ≤ Int.log 2 |x| := by
      rw [← Int.zpow_le_iff_le_log (by norm_num) hpos]
      simpa using h1
    have a2 : Int.log 2 |x| < E + 1 := by
      rw [← Int.lt_zpow_iff_log_lt (by norm_num) hpos]
      simpa using h2
    omega
  have hulp : ulpExp 24 (-149) x = E - 23 := by
    unfold ulpExp
    rw [hlog]
    push_cast
    rw [max_eq_left (by omega)]
    ring
  unfold f32 roundBin
  rw [hulp, roundEven_eq_of_near h3]

theorem roundf_eq (q : ℚ) (n : ℤ) (h0 : 0 ≤ q) (h1 : (n : ℚ) - 1 / 2 ≤ q)
    (h2 : q < (n : ℚ) + 1 / 2) : roundf q = n := by
  unfold roundf
  rw [if_pos h0]
  congr 1
  rw [Int.floor_eq_iff]
  constructor <;> linarith

theorem pupil_radius_half : pupil_radius (1 / 2) = 5 := by
  unfold pupil_radius PUPIL_R_MAX PUPIL_R_MIN
  have h4 : f32 (7 - 3) = 4 := by
    have := f32_cast 4 (7 - 3) (by norm_num) (by norm_num)
    rw [this]; norm_num
  rw [h4]
  norm_num [f32_ofNat]

theorem pupil_radius_zero : pupil_radius 0 = 3 := by
  unfold pupil_radius PUPIL_R_MAX PUPIL_R_MIN
  rw [mul_zero, f32_zero]
  norm_num [f32_ofNat]

theorem pupil_radius_one : pupil_radius 1 = 7 := by
  unfold pupil_radius PUPIL_R_MAX PUPIL_R_MIN
  have h4 : f32 (7 - 3) = 4 := by
    have := f32_cast 4 (7 - 3) (by norm_num) (by norm_num)
    rw [this]; norm_num
  rw [h4]
  norm_num [f32_ofNat]

/-! ## Pupil fill -/

theorem pupil_radius_three_sixteenths : pupil_radius (3 / 16) = 15 / 4 := by
  unfold pupil_radius PUPIL_R_MAX PUPIL_R_MIN
  have h4 : f32 (7 - 3) = 4 := by
    have := f32_cast 4 (7 - 3) (by norm_num) (by norm_num)
    rw [this]; norm_num
  have h1 : f32 (4 * (3 / 16)) = 3 / 4 := by
    rw [f32_exact _ 3 (-2) (by norm_num [zpow_neg]) (by norm_num) (by norm_num)]; norm_num
  have h2 : f32 (3 + 3 / 4) = 15 / 4 := by
    rw [f32_exact _ 15 (-2) (by norm_num [zpow_neg]) (by norm_num) (by norm_num)]; norm_num
  rw [h4, h1, h2]

theorem iris_cy_one_thirtysecond : iris_center 32 (1 / 32) 10 = 517 / 16 := by
  unfold iris_center
  have hi : i2f 32 = 32 := by
    have := i2f_eq 32 (by norm_num); simpa using this
  have h1 : f32 (1 / 32 * 10) = 5 / 16 := by
    rw [f32_exact _ 5 (-4) (by norm_num [zpow_neg]) (by norm_num) (by norm_num)]; norm_num
  have h2 : f32 (32 + 5 / 16) = 517 / 16 := by
    rw [f32_exact _ 517 (-4) (by norm_num [zpow_neg]) (by norm_num) (by norm_num)]; norm_num
  rw [hi, h1, h2]

/-- C5, the code at a failing input: the pupil radius is 3, 5, 7 at `pupil_size` 0, 0.5, 1; for
`draw_open(1/32, 0, 0, 3/16, 0)` it is 3.75 and the left iris centre is `(32, 32.3125)`; pixel
`(32, 36)` lies within the pupil radius of that centre (distance 3.6875) and below the eyebrow
base row 12, yet its output bit is 0: the row loop of the pupil stops at
`roundf(iris_cy) + pupil_r = 35.75`. -/
theorem pupil_edge_pixel_unset :
    ∃ out s', draw_open tanf_approx (1 / 32) 0 0 (3 / 16) 0 (List.replicate 1024 0)
        State.initial = some (out, s') ∧
      pupil_radius 0 = 3 ∧ pupil_radius (1 / 2) = 5 ∧ pupil_radius 1 = 7 ∧
      pupil_radius (3 / 16) = 15 / 4 ∧
      iris_center (LEFT_EYE_CENTER_X + 0 * EYE_SEPARATION) 0 IRIS_SHIFT_X = 32 ∧
      iris_center EYE_CENTER_Y (1 / 32) IRIS_SHIFT_Y = 517 / 16 ∧
      ((32 : ℚ) - 32) ^ 2 + ((36 : ℚ) - 517 / 16) ^ 2 ≤ (15 / 4 : ℚ) ^ 2 ∧
      EYEBROW_Y_BASE + f2i (f32 (0 * i2f EYEBROW_Y_RANGE)) ≤ 36 ∧
      pixel_bit out 32 36 = false := by
  have hscr := draw_open_calls_inScreen tanf_approx tanf_approx_bound (1 / 32) 0 0 (3 / 16) 0
    (by norm_num) (by norm_num) (by norm_num) (by norm_num) (by norm_num) (by norm_num)
    (by norm_num) (by norm_num)
  obtain ⟨out, m, ho, _, _, hbit⟩ := draw_open_spec tanf_approx (1 / 32) 0 0 (3 / 16) 0
    (List.replicate 1024 0) State.initial (List.length_replicate _ _) State.initial_valid hscr
  have hcx : iris_center (32 + 0 * 64) 0 10 = ((32 : ℤ) : ℚ) := by
    have := iris_center_int 32 0 (by norm_num) (by norm_num)
    simpa using this
  have hbase : EYEBROW_Y_BASE + f2i (f32 (0 * i2f EYEBROW_Y_RANGE)) = 12 := by
    rw [zero_mul, f32_zero]
    have := f2i_int 0
    norm_num at this
    rw [this]; rfl
  refine ⟨out, _, ho, pupil_radius_zero, pupil_radius_half, pupil_radius_one,
    pupil_radius_three_sixteenths, ?_, iris_cy_one_thirtysecond,
    by norm_num, by rw [hbase]; norm_num, ?_⟩
  · have := iris_center_int 32 0 (by norm_num) (by norm_num)
    simpa [LEFT_EYE_CENTER_X, EYE_SEPARATION, IRIS_SHIFT_X] using this
  · rw [hbit 32 36 (by norm_num) (by norm_num) (by norm_num) (by norm_num),
      paint_draw_open tanf_approx tanf_approx_bound (1 / 32) 0 0 (3 / 16) 0 (by norm_num)
        (by norm_num) (by norm_num) (by norm_num) (by norm_num) (by norm_num) (by norm_num)
        (by norm_num) 0 (Or.inl rfl) _ 32 36 (by norm_num) (by norm_num),
      eye_paint, hcx, iris_cy_one_thirtysecond, pupil_radius_three_sixteenths]
    have hrf : roundf (517 / 16) = ((32 : ℤ) : ℚ) :=
      roundf_eq _ 32 (by norm_num) (by norm_num) (by norm_num)
    have hpupil : ¬ touches (pupil_calls ((32 : ℤ) : ℚ) (517 / 16) (15 / 4)) 32 36 = true := by
      rw [touches_pupil, mem_forLe, hrf]
      rintro ⟨⟨_, h⟩, _⟩
      have h2 : f32 (((32 : ℤ) : ℚ) + 15 / 4) = 143 / 4 := by
        rw [f32_exact _ 143 (-2) (by norm_num [zpow_neg]) (by norm_num) (by norm_num)]
        norm_num
      rw [h2] at h
      norm_num at h
    have hiris : touches (iris_calls ((32 : ℤ) : ℚ) (517 / 16)) 32 36 = true := by
      obtain ⟨h22, h42, hrep⟩ := iris_cy_range (1 / 32) (by norm_num) (by norm_num)
      rw [iris_cy_one_thirtysecond] at h22 h42 hrep
      exact touches_iris_of_disk 32 32 36 _ (by norm_num) h22 h42 hrep (by norm_num)
    rw [if_neg hpupil, if_pos hiris]
    split_ifs <;> rfl

/-! ## Left and right eye -/

theorem iris_cx_left_tiny : iris_center (32 + 0 * 64) (1 / 4194304) 10 = 8388609 / 262144 := by
  unfold iris_center
  have hi : i2f (32 + 0 * 64) = 32 := by
    have := i2f_eq 32 (by norm_num); simpa using this
  have h1 : f32 (1 / 4194304 * 10) = 5 / 2097152 := by
    rw [f32_exact _ 5 (-21) (by norm_num [zpow_neg]) (by norm_num) (by norm_num)]; norm_num
  rw [hi, h1, f32_eq_of_near (32 + 5 / 2097152) 5 8388609 (by norm_num [abs_of_pos])
    (by norm_num [abs_of_pos]) (by norm_num) (by norm_num [zpow_neg, abs_lt])]
  norm_num [zpow_neg]

theorem iris_cx_right_tiny : iris_center (32 + 1 * 64) (1 / 4194304) 10 = 96 := by
  unfold iris_center
  have hi : i2f (32 + 1 * 64) = 96 := by
    have := i2f_eq 96 (by norm_num); simpa using this
  have h1 : f32 (1 / 4194304 * 10) = 5 / 2097152 := by
    rw [f32_exact _ 5 (-21) (by norm_num [zpow_neg]) (by norm_num) (by norm_num)]; norm_num
  rw [hi, h1, f32_eq_of_near (96 + 5 / 2097152) 6 12582912 (by norm_num [abs_of_pos])
    (by norm_num [abs_of_pos]) (by norm_num) (by norm_num [zpow_neg, abs_lt])]
  norm_num [zpow_neg]

theorem iris_cy_zero : iris_center 32 0 10 = 32 := by
  have := iris_center_int 32 0 (by norm_num) (by norm_num)
  simpa using this

/-- The sum of squares that both tests of the left eye compute for pixel `(28, 35)`. -/
theorem left_sum_28_35 :
    f32 (f32 (f32 (i2f 28 - 8388609 / 262144) * f32 (i2f 28 - 8388609 / 262144))
      + f32 (f32 (i2f 35 - 32) * f32 (i2f 35 - 32))) = 819201 / 32768 := by
  have h28 : i2f 28 = 28 := by
    have := i2f_eq 28 (by norm_num); simpa using this
  have h35 : i2f 35 = 35 := by
    have := i2f_eq 35 (by norm_num); simpa using this
  have hdx : f32 (28 - 8388609 / 262144) = -(1048577 / 262144) := by
    rw [f32_exact _ (-1048577) (-18) (by norm_num [zpow_neg]) (by norm_num) (by norm_num)]
    norm_num
  have hdy : f32 (35 - 32) = 3 := by norm_num [f32_ofNat]
  have hsq : f32 (-(1048577 / 262144) * -(1048577 / 262144)) = 524289 / 32768 := by
    rw [f32_eq_of_near _ 4 8388624 (by norm_num [abs_of_pos]) (by norm_num [abs_of_pos])
      (by norm_num) (by norm_num [zpow_neg, abs_lt])]
    norm_num [zpow_neg]
  have h9 : f32 (3 * 3) = 9 := by norm_num [f32_ofNat]
  rw [h28, h35, hdx, hdy, hsq, h9,
    f32_exact _ 819201 (-15) (by norm_num [zpow_neg]) (by norm_num) (by norm_num)]
  norm_num

/-- C9, refuted as stated: for the in-range tuple `draw_open(0, 2^-22, 0, 0.5, 0)` the left iris
column `32 + 10 * 2^-22` rounds to `32 + 2^-18` in binary32 while the right one, `96 + 10 * 2^-22`,
rounds to 96; pixel `(28, 35)` then fails the pupil test (`25 + 2^-15 > 25`) and stays cleared,
whereas its translate `(92, 35)` passes it (`25 <= 25`) and is set. -/
theorem eyes_differ_for_tiny_gaze :
    ∃ out s', draw_open tanf_approx 0 (1 / 4194304) 0 (1 / 2) 0 (List.replicate 1024 0)
        State.initial = some (out, s') ∧
      pixel_bit out 28 35 = false ∧ pixel_bit out (28 + 64) 35 = true := by
  have hscr := draw_open_calls_inScreen tanf_approx tanf_approx_bound 0 (1 / 4194304) 0 (1 / 2) 0
    (by norm_num) (by norm_num) (by norm_num) (by norm_num) (by norm_num) (by norm_num)
    (by norm_num) (by norm_num)
  obtain ⟨out, m, ho, _, _, hbit⟩ := draw_open_spec tanf_approx 0 (1 / 4194304) 0 (1 / 2) 0
    (List.replicate 1024 0) State.initial (List.length_replicate _ _) State.initial_valid hscr
  have h9 : i2f IRIS_R = 9 := by
    have := i2f_eq 9 (by norm_num); simpa [IRIS_R] using this
  have h81 : i2f (IRIS_R * IRIS_R) = 81 := by
    have := i2f_eq 81 (by norm_num); simpa [IRIS_R] using this
  have hr32 : roundf 32 = 32 := roundf_ofNat 32
  have hybox9 : (35 : ℤ) ∈ forLe (f2i (f32 (roundf 32 - 9))) (f32 (roundf 32 + 9)) := by
    rw [mem_forLe]
    norm_num [f32_ofNat, roundf_ofNat, f2i_ofNat]
  have hybox5 : (35 : ℤ) ∈ forLe (f2i (f32 (roundf 32 - 5))) (f32 (roundf 32 + 5)) := by
    rw [mem_forLe]
    norm_num [f32_ofNat, roundf_ofNat, f2i_ofNat]
  refine ⟨out, _, ho, ?_, ?_⟩
  · rw [hbit 28 35 (by norm_num) (by norm_num) (by norm_num) (by norm_num),
      paint_draw_open tanf_approx tanf_approx_bound 0 (1 / 4194304) 0 (1 / 2) 0 (by norm_num)
        (by norm_num) (by norm_num) (by norm_num) (by norm_num) (by norm_num) (by norm_num)
        (by norm_num) 0 (Or.inl rfl) _ 28 35 (by norm_num) (by norm_num),
      eye_paint, iris_cx_left_tiny, iris_cy_zero, pupil_radius_half]
    have hpupil : ¬ touches (pupil_calls (8388609 / 262144) 32 5) 28 35 = true := by
      rw [touches_pupil]
      rintro ⟨_, _, hw⟩
      simp only [within] at hw
      rw [left_sum_28_35] at hw
      have := of_decide_eq_true hw
      have h25 : f32 (5 * 5) = 25 := by norm_num [f32_ofNat]
      rw [h25] at this
      norm_num at this
    have hiris : touches (iris_calls (8388609 / 262144) 32) 28 35 = true := by
      rw [touches_iris, h9, h81]
      refine ⟨hybox9, ?_, ?_⟩
      · have hrf : roundf (8388609 / 262144) = ((32 : ℤ) : ℚ) :=
          roundf_eq _ 32 (by norm_num) (by norm_num) (by norm_num)
        rw [mem_forLe, hrf]
        norm_num [f32_ofNat, f2i_ofNat]
      · simp only [within]
        rw [left_sum_28_35]
        exact decide_eq_true (by norm_num)
    rw [if_neg hpupil, if_pos hiris]
    split_ifs <;> rfl
  · rw [hbit (28 + 64) 35 (by norm_num) (by norm_num) (by norm_num) (by norm_num),
      paint_draw_open tanf_approx tanf_approx_bound 0 (1 / 4194304) 0 (1 / 2) 0 (by norm_num)
        (by norm_num) (by norm_num) (by norm_num) (by norm_num) (by norm_num) (by norm_num)
        (by norm_num) 1 (Or.inr rfl) _ (28 + 64) 35 (by norm_num) (by norm_num),
      eye_paint, iris_cx_right_tiny, iris_cy_zero, pupil_radius_half]
    have hbrow : ¬ touches (eyebrow_calls (32 + 1 * 64) (12 + f2i (f32 (0 * i2f 12)))
        (tanf_approx (tan_arg (clamped_angle 1 0)))) (28 + 64) 35 = true := by
      have hb : (12 : ℤ) + f2i (f32 (0 * i2f 12)) = 12 := by
        rw [zero_mul, f32_zero]
        have := f2i_int 0
        norm_num at this
        rw [this]; rfl
      rw [hb, touches_eyebrow_zero tanf_approx tanf_approx_zero 1 _ 12 (by norm_num)]
      rintro ⟨_, _, _, h⟩
      norm_num at h
    have hpupil : touches (pupil_calls 96 32 5) (28 + 64) 35 = true := by
      rw [touches_pupil]
      refine ⟨hybox5, ?_, ?_⟩
      · rw [mem_forLe]
        norm_num [f32_ofNat, roundf_ofNat, f2i_ofNat]
      · simp only [within]
        apply decide_eq_true
        norm_num [i2f, f32_ofNat, f32_neg]
    rw [if_neg hbrow, if_pos hpupil]

theorem in_eye_shift (x y : ℤ) : in_eye 96 (x + 64) y = in_eye 32 x y := by
  unfold in_eye
  have : x + 64 - 96 = x - 32 := by ring
  rw [this]

theorem sclera_bit_shift (x y : ℤ) (h0 : 0 ≤ x) (h1 : x < 64) :
    sclera_bit (x + 64) y = sclera_bit x y := by
  unfold sclera_bit
  rw [in_eye_shift]
  have a1 : decide (4 ≤ x + 64 ∧ x + 64 < 60) = false := decide_eq_false (by omega)
  have a2 : decide (68 ≤ x ∧ x < 124) = false := decide_eq_false (by omega)
  have a3 : decide (68 ≤ x + 64 ∧ x + 64 < 124) = decide (4 ≤ x ∧ x < 60) := by
    apply decide_eq_decide.mpr
    constructor <;> intro h <;> omega
  rw [a1, a2, a3]
  simp

theorem f32_grid17 (q : ℚ) (k : ℤ) (h : q = (k : ℚ) / 131072) (hq : |q| < 128) : f32 q = q := by
  have hk : |k| < 16777216 := by
    rw [h, abs_lt] at hq
    rw [abs_lt]
    constructor
    · have : (-16777216 : ℚ) < k := by linarith [hq.1]
      exact_mod_cast this
    · have : (k : ℚ) < 16777216 := by linarith [hq.2]
      exact_mod_cast this
  exact f32_exact q k (-17) (by rw [h]; norm_num [zpow_neg]; ring) hk (by norm_num)

theorem roundf_add_64 (q : ℚ) (h : 0 ≤ q) : roundf (q + 64) = roundf q + 64 := by
  unfold roundf
  rw [if_pos h, if_pos (by linarith)]
  have : q + 64 + 1 / 2 = q + 1 / 2 + ((64 : ℤ) : ℚ) := by push_cast; ring
  rw [this, Int.floor_add_int]
  push_cast; ring

theorem f2i_add_64 (q : ℚ) (h : 0 ≤ q) : f2i (q + 64) = f2i q + 64 := by
  unfold f2i
  rw [if_pos h, if_pos (by linarith)]
  have : q + 64 = q + ((64 : ℤ) : ℚ) := by push_cast; ring
  rw [this, Int.floor_add_int]

/-- The column range of a loop around centre `c + 64` is the range around `c` moved by 64, when
the radius lies on the `2^-17` grid. -/
theorem column_range_shift (c r : ℚ) (x : ℤ) (hc1 : 22 ≤ c) (hc2 : c ≤ 42) (j : ℤ)
    (hr : r = (j : ℚ) / 131072) (hr0 : 0 ≤ r) (hr9 : r ≤ 9) :
    x + 64 ∈ forLe (f2i (f32 (roundf (c + 64) - r))) (f32 (roundf (c + 64) + r)) ↔
      x ∈ forLe (f2i (f32 (roundf c - r))) (f32 (roundf c + r)) := by
  obtain ⟨n, hn, hna, hnb⟩ := roundf_spec c
  have hn1 : 22 ≤ n := hna 22 (by push_cast; linarith)
  have hn2 : n ≤ 42 := hnb 42 (by push_cast; linarith)
  have hn1q : (22 : ℚ) ≤ n := by exact_mod_cast hn1
  have hn2q : (n : ℚ) ≤ 42 := by exact_mod_cast hn2
  rw [roundf_add_64 c (by linarith), hn]
  have e1 : f32 ((n : ℚ) - r) = (n : ℚ) - r :=
    f32_grid17 _ (n * 131072 - j) (by rw [hr]; push_cast; ring)
      (by rw [abs_lt]; constructor <;> linarith)
  have e2 : f32 ((n : ℚ) + r) = (n : ℚ) + r :=
    f32_grid17 _ (n * 131072 + j) (by rw [hr]; push_cast; ring)
      (by rw [abs_lt]; constructor <;> linarith)
  have e3 : f32 ((n : ℚ) + 64 - r) = (n : ℚ) - r + 64 := by
    rw [f32_grid17 _ ((n + 64) * 131072 - j) (by rw [hr]; push_cast; ring)
      (by rw [abs_lt]; constructor <;> linarith)]
    ring
  have e4 : f32 ((n : ℚ) + 64 + r) = (n : ℚ) + r + 64 := by
    rw [f32_grid17 _ ((n + 64) * 131072 + j) (by rw [hr]; push_cast; ring)
      (by rw [abs_lt]; constructor <;> linarith)]
    ring
  rw [mem_forLe, mem_forLe, e1, e2, e3, e4, f2i_add_64 _ (by linarith)]
  push_cast
  constructor
  · rintro ⟨h1, h2⟩
    exact ⟨by omega, by linarith⟩
  · rintro ⟨h1, h2⟩
    exact ⟨by omega, by linarith⟩

theorem within_shift (x y : ℤ) (c icy bound : ℚ) (hx0 : 0 ≤ x) (hx1 : x < 64) :
    within (x + 64) (c + 64) y icy bound = within x c y icy bound := by
  unfold within
  have h1 : i2f (x + 64) - (c + 64) = i2f x - c := by
    rw [i2f_eq _ (by rw [abs_lt]; constructor <;> omega),
      i2f_eq _ (by rw [abs_lt]; constructor <;> omega)]
    push_cast; ring
  rw [h1]

/-- C9, amended: for `eyebrow_angle = 0` and in-range parameters whose gaze shift
`pupil_x * IRIS_SHIFT_X` and pupil radius, as computed in binary32, are multiples of `2^-17`
(so that adding 32 or 96 and the loop bounds round nothing away; e.g. `pupil_x = 0`,
`pupil_size = 0.5`), the output satisfies `bit(x, y) = bit(x + 64, y)` for all `0 <= x < 64`,
`0 <= y < 64`. -/
theorem eyes_are_translates (tanf : ℚ → ℚ) (htan : ∀ t : ℚ, |t| ≤ 1 / 2 → |tanf t| ≤ 1)
    (htan0 : tanf 0 = 0) (pupil_y pupil_x eyebrows_low pupil_size : ℚ)
    (hy1 : -1 ≤ pupil_y) (hy2 : pupil_y ≤ 1) (hx1 : -1 ≤ pupil_x) (hx2 : pupil_x ≤ 1)
    (hl1 : 0 ≤ eyebrows_low) (hl2 : eyebrows_low ≤ 1)
    (hs1 : 0 ≤ pupil_size) (hs2 : pupil_size ≤ 1)
    (hgx : ∃ k : ℤ, f32 (pupil_x * IRIS_SHIFT_X) = (k : ℚ) / 131072)
    (hgr : ∃ j : ℤ, pupil_radius pupil_size = (j : ℚ) / 131072)
    (buffer : List ℕ) (hlen : buffer.length = 1024) (s : State) (hv : s.Valid) :
    ∃ out s', draw_open tanf pupil_y pupil_x eyebrows_low pupil_size 0 buffer s
        = some (out, s') ∧
      ∀ x y : ℤ, 0 ≤ x → x < 64 → 0 ≤ y → y < 64 →
        pixel_bit out x y = pixel_bit out (x + 64) y := by
  have hscr := draw_open_calls_inScreen tanf htan pupil_y pupil_x eyebrows_low pupil_size 0
    (by linarith) (by linarith) (by linarith) (by linarith) (by linarith) (by linarith)
    (by linarith) (by linarith)
  obtain ⟨out, m, ho, _, _, hbit⟩ := draw_open_spec tanf pupil_y pupil_x eyebrows_low pupil_size
    0 buffer s hlen hv hscr
  refine ⟨out, _, ho, ?_⟩
  intro x y hx0 hx1 hy0 hy1'
  obtain ⟨k, hk⟩ := hgx
  obtain ⟨j, hj⟩ := hgr
  simp only [IRIS_SHIFT_X] at hk
  obtain ⟨hr3, hr7, _⟩ := pupil_radius_range pupil_size hs1 hs2
  -- the two iris columns
  have ht1 : ((-10 : ℤ) : ℚ) ≤ f32 (pupil_x * 10) :=
    int_le_f32 (by norm_num) (by push_cast; linarith)
  have ht2 : f32 (pupil_x * 10) ≤ ((10 : ℤ) : ℚ) :=
    f32_le_int (by norm_num) (by push_cast; linarith)
  push_cast at ht1 ht2
  have hcL : iris_center (32 + 0 * 64) pupil_x 10 = 32 + f32 (pupil_x * 10) := by
    unfold iris_center
    have hi : i2f (32 + 0 * 64) = 32 := by
      have := i2f_eq 32 (by norm_num); simpa using this
    rw [hi]
    exact f32_grid17 _ (32 * 131072 + k) (by rw [hk]; push_cast; ring)
      (by rw [abs_lt]; constructor <;> linarith)
  have hcR : iris_center (32 + 1 * 64) pupil_x 10
      = iris_center (32 + 0 * 64) pupil_x 10 + 64 := by
    rw [hcL]
    unfold iris_center
    have hi : i2f (32 + 1 * 64) = 96 := by
      have := i2f_eq 96 (by norm_num); simpa using this
    rw [hi, f32_grid17 _ (96 * 131072 + k) (by rw [hk]; push_cast; ring)
      (by rw [abs_lt]; constructor <;> linarith)]
    ring
  have hL1 : 22 ≤ iris_center (32 + 0 * 64) pupil_x 10 := by rw [hcL]; linarith
  have hL2 : iris_center (32 + 0 * 64) pupil_x 10 ≤ 42 := by rw [hcL]; linarith
  have h9 : i2f IRIS_R = ((9 * 131072 : ℤ) : ℚ) / 131072 := by
    have := i2f_eq 9 (by norm_num)
    simp only [IRIS_R]
    rw [this]; norm_num
  have h9' : i2f IRIS_R = 9 := by rw [h9]; norm_num
  have hbase := eyebrow_base_bounds eyebrows_low (by linarith) (by linarith)
  simp only [EYEBROW_Y_BASE, EYEBROW_Y_RANGE] at hbase
  have hbrow : touches (eyebrow_calls (32 + 1 * 64) (12 + f2i (f32 (eyebrows_low * i2f 12)))
        (tanf (tan_arg (clamped_angle 1 0)))) (x + 64) y
      = touches (eyebrow_calls (32 + 0 * 64) (12 + f2i (f32 (eyebrows_low * i2f 12)))
        (tanf (tan_arg (clamped_angle 0 0)))) x y := by
    rw [Bool.eq_iff_iff,
      touches_eyebrow_zero tanf htan0 1 _ _ (by rw [abs_lt]; constructor <;> omega),
      touches_eyebrow_zero tanf htan0 0 _ _ (by rw [abs_lt]; constructor <;> omega)]
    constructor
    · rintro ⟨a, b, c, d⟩
      exact ⟨by omega, by omega, c, d⟩
    · rintro ⟨a, b, c, d⟩
      exact ⟨by omega, by omega, c, d⟩
  have hpupil : touches (pupil_calls (iris_center (32 + 1 * 64) pupil_x 10)
        (iris_center 32 pupil_y 10) (pupil_radius pupil_size)) (x + 64) y
      = touches (pupil_calls (iris_center (32 + 0 * 64) pupil_x 10)
        (iris_center 32 pupil_y 10) (pupil_radius pupil_size)) x y := by
    rw [Bool.eq_iff_iff, hcR, touches_pupil, touches_pupil,
      column_range_shift _ _ x hL1 hL2 j hj (by linarith) (by linarith),
      within_shift x y _ _ _ hx0 hx1]
  have hiris : touches (iris_calls (iris_center (32 + 1 * 64) pupil_x 10)
        (iris_center 32 pupil_y 10)) (x + 64) y
      = touches (iris_calls (iris_center (32 + 0 * 64) pupil_x 10)
        (iris_center 32 pupil_y 10)) x y := by
    rw [Bool.eq_iff_iff, hcR, touches_iris, touches_iris,
      column_range_shift _ _ x hL1 hL2 (9 * 131072) h9 (by rw [h9']; norm_num)
        (by rw [h9']),
      within_shift x y _ _ _ hx0 hx1]
  rw [hbit x y hx0 (by omega) hy0 hy1', hbit (x + 64) y (by omega) (by omega) hy0 hy1',
    paint_draw_open tanf htan pupil_y pupil_x eyebrows_low pupil_size 0 (by linarith)
      (by linarith) (by linarith) (by linarith) (by linarith) (by linarith) (by linarith)
      (by linarith) 0 (Or.inl rfl) _ x y (by omega) (by omega),
    paint_draw_open tanf htan pupil_y pupil_x eyebrows_low pupil_size 0 (by linarith)
      (by linarith) (by linarith) (by linarith) (by linarith) (by linarith) (by linarith)
      (by linarith) 1 (Or.inr rfl) _ (x + 64) y (by omega) (by omega),
    eye_paint, eye_paint, hbrow, hpupil, hiris, sclera_bit_shift x y hx0 hx1]

theorem eyes_are_translates_witness :
    ∃ out s', draw_open tanf_approx 0 0 0 (1 / 2) 0 (List.replicate 1024 0) State.initial
        = some (out, s') ∧
      ∀ x y : ℤ, 0 ≤ x → x < 64 → 0 ≤ y → y < 64 →
        pixel_bit out x y = pixel_bit out (x + 64) y :=
  eyes_are_translates tanf_approx tanf_approx_bound tanf_approx_zero 0 0 0 (1 / 2)
    (by norm_num) (by norm_num) (by norm_num) (by norm_num) (by norm_num) (by norm_num)
    (by norm_num) (by norm_num)
    ⟨0, by rw [zero_mul, f32_zero]; norm_num⟩
    ⟨5 * 131072, by rw [pupil_radius_half]; norm_num⟩
    (List.replicate 1024 0) (List.length_replicate _ _) State.initial State.initial_valid

/-! ## The half-open frame -/

theorem iris_center_zero (c : ℤ) (hc : |c| < 1000) : iris_center c 0 10 = (c : ℚ) := by
  have h := iris_center_int c 0 hc (by norm_num)
  simpa using h

/-- The test `within` around an integer centre is the exact integer comparison. -/
theorem within_int_int (x C y D : ℤ) (bound : ℚ) (hx : |x| < 1000) (hC : |C| < 1000)
    (hy : |y| < 1000) (hD : |D| < 1000) :
    within x (C : ℚ) y (D : ℚ) bound
      = decide ((((x - C) * (x - C) + (y - D) * (y - D) : ℤ) : ℚ) ≤ bound) := by
  rw [within_int_center x C y (D : ℚ) bound hx hC]
  rw [abs_lt] at hx hC hy hD
  have h1 : f32 (i2f y - (D : ℚ)) = ((y - D : ℤ) : ℚ) := by
    rw [i2f_eq y (by rw [abs_lt]; constructor <;> omega)]
    have := f32_int (y - D) (by rw [abs_lt]; constructor <;> omega)
    rw [← this]; push_cast; rfl
  have h2 : f32 (((y - D : ℤ) : ℚ) * ((y - D : ℤ) : ℚ)) = (((y - D) * (y - D) : ℤ) : ℚ) := by
    have := f32_int ((y - D) * (y - D)) (by rw [abs_lt]; constructor <;> nlinarith)
    rw [← this]; push_cast; rfl
  have h3 : f32 ((((x - C) * (x - C) : ℤ) : ℚ) + (((y - D) * (y - D) : ℤ) : ℚ))
      = (((x - C) * (x - C) + (y - D) * (y - D) : ℤ) : ℚ) := by
    have := f32_int ((x - C) * (x - C) + (y - D) * (y - D))
      (by rw [abs_lt]; constructor <;> nlinarith)
    rw [← this]; push_cast; rfl
  rw [h1, h2, h3]

/-- The squared pupil radius of `draw_half_open` (`pupil_size = 0.3f`) lies between 17 and
18. -/
theorem half_open_pupil_sq :
    17 ≤ f32 (pupil_radius (f32 (3 / 10)) * pupil_radius (f32 (3 / 10))) ∧
      f32 (pupil_radius (f32 (3 / 10)) * pupil_radius (f32 (3 / 10))) < 18 := by
  have hlo {x : ℚ} (z k : ℤ) (hz : |z| < 16777216) (hk : -149 ≤ k)
      (h : (z : ℚ) * (2 : ℚ) ^ k ≤ x) : (z : ℚ) * (2 : ℚ) ^ k ≤ f32 x :=
    le_roundBin_of_le (by norm_num) (isRep32_of_grid z k hz hk) h
  have a1 : (19 : ℚ) / 64 ≤ f32 (3 / 10) := by
    have := hlo (x := 3 / 10) 19 (-6) (by norm_num) (by norm_num) (by norm_num [zpow_neg])
    norm_num [zpow_neg] at this
    linarith
  have a2 : f32 (3 / 10) ≤ (39 : ℚ) / 128 := by
    have := f32_le_of_grid (x := 3 / 10) 39 (-7) (by norm_num) (by norm_num)
      (by norm_num [zpow_neg])
    norm_num [zpow_neg] at this
    linarith
  have h4 : f32 (PUPIL_R_MAX - PUPIL_R_MIN) = 4 := by
    have := f32_int 4 (by norm_num)
    norm_num [PUPIL_R_MAX, PUPIL_R_MIN] at this ⊢
    exact this
  have b1 : (19 : ℚ) / 16 ≤ f32 (f32 (PUPIL_R_MAX - PUPIL_R_MIN) * f32 (3 / 10)) := by
    rw [h4]
    have := hlo (x := 4 * f32 (3 / 10)) 19 (-4) (by norm_num) (by norm_num)
      (by norm_num [zpow_neg]; linarith)
    norm_num [zpow_neg] at this
    linarith
  have b2 : f32 (f32 (PUPIL_R_MAX - PUPIL_R_MIN) * f32 (3 / 10)) ≤ (39 : ℚ) / 32 := by
    rw [h4]
    have := f32_le_of_grid (x := 4 * f32 (3 / 10)) 39 (-5) (by norm_num) (by norm_num)
      (by norm_num [zpow_neg]; linarith)
    norm_num [zpow_neg] at this
    linarith
  have c1 : (67 : ℚ) / 16 ≤ pupil_radius (f32 (3 / 10)) := by
    unfold pupil_radius
    generalize f32 (f32 (PUPIL_R_MAX - PUPIL_R_MIN) * f32 (3 / 10)) = t at b1 b2 ⊢
    have := hlo (x := PUPIL_R_MIN + t)
      67 (-4) (by norm_num) (by norm_num) (by norm_num [zpow_neg, PUPIL_R_MIN]; linarith)
    norm_num [zpow_neg] at this
    linarith
  have c2 : pupil_radius (f32 (3 / 10)) ≤ (135 : ℚ) / 32 := by
    unfold pupil_radius
    generalize f32 (f32 (PUPIL_R_MAX - PUPIL_R_MIN) * f32 (3 / 10)) = t at b1 b2 ⊢
    have := f32_le_of_grid (x := PUPIL_R_MIN + t)
      135 (-5) (by norm_num) (by norm_num) (by norm_num [zpow_neg, PUPIL_R_MIN]; linarith)
    norm_num [zpow_neg] at this
    linarith
  constructor
  · have := int_le_f32 (x := pupil_radius (f32 (3 / 10)) * pupil_radius (f32 (3 / 10)))
      (n := 17) (by norm_num) (by push_cast; nlinarith)
    exact_mod_cast this
  · have := f32_le_of_grid
      (x := pupil_radius (f32 (3 / 10)) * pupil_radius (f32 (3 / 10)))
      143 (-3) (by norm_num) (by norm_num) (by norm_num [zpow_neg]; nlinarith)
    norm_num [zpow_neg] at this
    linarith

/-- The last test of `draw_half_open` around the integer centre `(C, 32)`: squared distance
above 81 or at most 17. -/
theorem half_open_ring (x C y : ℤ) (hx : |x| < 1000) (hC : |C| < 1000) (hy : |y| < 1000) :
    (!within x (C : ℚ) y ((32 : ℤ) : ℚ) (i2f (IRIS_R * IRIS_R))
        || within x (C : ℚ) y ((32 : ℤ) : ℚ)
            (f32 (pupil_radius (f32 (3 / 10)) * pupil_radius (f32 (3 / 10))))) = true ↔
      (81 < (x - C) * (x - C) + (y - 32) * (y - 32)
        ∨ (x - C) * (x - C) + (y - 32) * (y - 32) ≤ 17) := by
  rw [within_int_int x C y 32 _ hx hC hy (by norm_num),
    within_int_int x C y 32 _ hx hC hy (by norm_num)]
  have h81 : i2f (IRIS_R * IRIS_R) = 81 := by
    rw [i2f_eq _ (by norm_num [IRIS_R])]; norm_num [IRIS_R]
  obtain ⟨p1, p2⟩ := half_open_pupil_sq
  rw [h81]
  simp only [Bool.or_eq_true, Bool.not_eq_true', decide_eq_false_iff_not, decide_eq_true_eq,
    not_le]
  constructor
  · rintro (h | h)
    · left; exact_mod_cast h
    · right
      have : (((x - C) * (x - C) + (y - 32) * (y - 32) : ℤ) : ℚ) < 18 := lt_of_le_of_lt h p2
      have h18 : (x - C) * (x - C) + (y - 32) * (y - 32) < 18 := by exact_mod_cast this
      omega
  · rintro (h | h)
    · left; exact_mod_cast h
    · right
      have : (((x - C) * (x - C) + (y - 32) * (y - 32) : ℤ) : ℚ) ≤ 17 := by exact_mod_cast h
      linarith

theorem mem_draw_half_open_calls (c : Call) : c ∈ draw_half_open_calls ↔
    ∃ x y : ℤ, c = Call.set x y ∧ 24 ≤ y ∧ y ≤ 40 ∧
      (4 ≤ x ∧ x < 60 ∧ in_eye 32 x y = true ∧
          (81 < (x - 32) * (x - 32) + (y - 32) * (y - 32)
            ∨ (x - 32) * (x - 32) + (y - 32) * (y - 32) ≤ 17)
        ∨ 68 ≤ x ∧ x < 124 ∧ in_eye 96 x y = true ∧
          (81 < (x - 96) * (x - 96) + (y - 32) * (y - 32)
            ∨ (x - 96) * (x - 96) + (y - 32) * (y - 32) ≤ 17)) := by
  have hc0 : iris_center 32 0 10 = ((32 : ℤ) : ℚ) := iris_center_zero 32 (by norm_num)
  have hc1 : iris_center 96 0 10 = ((96 : ℤ) : ℚ) := iris_center_zero 96 (by norm_num)
  unfold draw_half_open_calls
  simp only [List.mem_flatMap, List.mem_map, List.mem_filter, mem_forLt, LEFT_EYE_CENTER_X,
    EYE_SEPARATION, SCREEN_HEIGHT, EYE_R, EYE_CENTER_Y, IRIS_SHIFT_X, IRIS_SHIFT_Y,
    UPPER_EYELID_Y, LOWER_EYELID_Y, Bool.and_eq_true]
  constructor
  · rintro ⟨i, hi, y, hy, x, ⟨hx, ⟨hin, hband⟩, hring⟩, rfl⟩
    have hb : 24 ≤ y ∧ y ≤ 40 := by
      simp only [Bool.not_eq_true', Bool.or_eq_false_iff, decide_eq_false_iff_not, not_lt]
        at hband
      exact hband
    have : i = 0 ∨ i = 1 := by omega
    rcases this with rfl | rfl
    · norm_num at hx hin hring
      rw [hc0] at hring
      have hr := (half_open_ring x 32 y (by rw [abs_lt]; constructor <;> omega) (by norm_num)
        (by rw [abs_lt]; constructor <;> omega)).mp (by simpa using hring)
      exact ⟨x, y, rfl, hb.1, hb.2, Or.inl ⟨by omega, by omega, hin, hr⟩⟩
    · norm_num at hx hin hring
      rw [hc1, hc0] at hring
      have hr := (half_open_ring x 96 y (by rw [abs_lt]; constructor <;> omega) (by norm_num)
        (by rw [abs_lt]; constructor <;> omega)).mp (by simpa using hring)
      exact ⟨x, y, rfl, hb.1, hb.2, Or.inr ⟨by omega, by omega, hin, hr⟩⟩
  · rintro ⟨x, y, rfl, hy1, hy2, ⟨h1, h2, h3, h4⟩ | ⟨h1, h2, h3, h4⟩⟩
    · have hr := (half_open_ring x 32 y (by rw [abs_lt]; constructor <;> omega) (by norm_num)
        (by rw [abs_lt]; constructor <;> omega)).mpr h4
      refine ⟨0, by omega, y, by omega, x, ⟨by omega, ⟨by simpa using h3, ?_⟩, ?_⟩, rfl⟩
      · simp only [Bool.not_eq_true', Bool.or_eq_false_iff, decide_eq_false_iff_not, not_lt]
        exact ⟨hy1, hy2⟩
      · norm_num
        rw [hc0]
        simpa using hr
    · have hr := (half_open_ring x 96 y (by rw [abs_lt]; constructor <;> omega) (by norm_num)
        (by rw [abs_lt]; constructor <;> omega)).mpr h4
      refine ⟨1, by omega, y, by omega, x, ⟨by omega, ⟨by simpa using h3, ?_⟩, ?_⟩, rfl⟩
      · simp only [Bool.not_eq_true', Bool.or_eq_false_iff, decide_eq_false_iff_not, not_lt]
        exact ⟨hy1, hy2⟩
      · norm_num
        rw [hc1, hc0]
        simpa using hr

theorem draw_half_open_calls_lit : ∀ c ∈ draw_half_open_calls, c.lit = true := by
  intro c hc
  obtain ⟨x, y, rfl, _⟩ := (mem_draw_half_open_calls c).mp hc
  rfl

/-- The pixels written by `draw_half_open`, in terms of the bit of the sclera mask. -/
theorem half_open_touch_iff (x y : ℤ) :
    (∃ c ∈ draw_half_open_calls, c.x = x ∧ c.y = y) ↔
      sclera_bit x y = true ∧ 24 ≤ y ∧ y ≤ 40 ∧
        (81 < (x - (if x < 64 then 32 else 96)) * (x - (if x < 64 then 32 else 96))
              + (y - 32) * (y - 32)
          ∨ (x - (if x < 64 then 32 else 96)) * (x - (if x < 64 then 32 else 96))
              + (y - 32) * (y - 32) ≤ 17) := by
  constructor
  · rintro ⟨c, hc, hcx, hcy⟩
    obtain ⟨x', y', rfl, hy1, hy2, h⟩ := (mem_draw_half_open_calls c).mp hc
    simp only [Call.x, Call.y] at hcx hcy
    subst hcx hcy
    rcases h with ⟨h1, h2, h3, h4⟩ | ⟨h1, h2, h3, h4⟩
    · refine ⟨by simp [sclera_bit, h1, h2, h3], hy1, hy2, ?_⟩
      rw [if_pos (by omega)]
      exact h4
    · refine ⟨by simp [sclera_bit, h1, h2, h3], hy1, hy2, ?_⟩
      rw [if_neg (by omega)]
      exact h4
  · rintro ⟨hs, hy1, hy2, h4⟩
    have hs' : (4 ≤ x ∧ x < 60 ∧ in_eye 32 x y = true)
        ∨ (68 ≤ x ∧ x < 124 ∧ in_eye 96 x y = true) := by
      unfold sclera_bit at hs
      simp only [Bool.or_eq_true, Bool.and_eq_true, decide_eq_true_eq] at hs
      tauto
    rcases hs' with ⟨h1, h2, h3⟩ | ⟨h1, h2, h3⟩
    · rw [if_pos (by omega)] at h4
      exact ⟨Call.set x y, (mem_draw_half_open_calls _).mpr
        ⟨x, y, rfl, hy1, hy2, Or.inl ⟨h1, h2, h3, h4⟩⟩, rfl, rfl⟩
    · rw [if_neg (by omega)] at h4
      exact ⟨Call.set x y, (mem_draw_half_open_calls _).mpr
        ⟨x, y, rfl, hy1, hy2, Or.inr ⟨h1, h2, h3, h4⟩⟩, rfl, rfl⟩
/-! ## The half-open frame is the filtered sclera mask -/

/-- C12: for every 1024-byte buffer `draw_half_open` returns a frame whose bit at every pixel
`(x, y)` of the screen is the specified one: the bit of the built sclera mask at `(x, y)`, and
`24 <= y <= 40`, and squared distance to the centre `(cx, 32)` of the eye of the pixel above 81
or at most `4.2 ^ 2`. -/
theorem draw_half_open_filtered_mask (buffer : List ℕ) (hlen : buffer.length = 1024) :
    ∃ mask out, built_mask = some mask ∧ draw_half_open buffer = some out ∧
      out.length = 1024 ∧
      ∀ x y : ℤ, 0 ≤ x → x < 128 → 0 ≤ y → y < 64 →
        pixel_bit out x y = half_open_spec mask x y := by
  obtain ⟨mask, hmask, _, hbit⟩ := built_mask_spec
  obtain ⟨out, hout, holen, hpix⟩ := run_spec draw_half_open_calls (List.replicate 1024 0)
    draw_half_open_calls_inScreen (List.length_replicate _ _)
  refine ⟨mask, out, hmask, ?_, holen, ?_⟩
  · unfold draw_half_open
    rw [clear_buffer_eq buffer hlen]
    exact hout
  · intro x y hx1 hx2 hy1 hy2
    rw [hpix x y hx1 hx2 hy1 hy2, pixel_bit_zeros,
      paint_uniform true _ false x y draw_half_open_calls_lit]
    simp only [half_open_spec]
    rw [hbit x y hx1 hx2 hy1 hy2]
    have key := half_open_touch_iff x y
    have hsq : ∀ a b : ℤ, a ^ 2 + b ^ 2 = a * a + b * b := fun a b => by ring
    rw [hsq]
    by_cases hP : ∃ c ∈ draw_half_open_calls, c.x = x ∧ c.y = y
    · rw [if_pos hP]
      obtain ⟨k1, k2, k3, k4⟩ := key.mp hP
      symm
      simp only [Bool.and_eq_true, Bool.or_eq_true, decide_eq_true_eq]
      refine ⟨⟨k1, k2, k3⟩, ?_⟩
      rcases k4 with k4 | k4
      · left; exact_mod_cast k4
      · right
        have : ((((x - if x < 64 then 32 else 96) * (x - if x < 64 then 32 else 96)
            + (y - 32) * (y - 32) : ℤ)) : ℚ) ≤ 17 := by exact_mod_cast k4
        linarith
    · rw [if_neg hP]
      symm
      rw [Bool.eq_false_iff]
      intro hall
      simp only [Bool.and_eq_true, Bool.or_eq_true, decide_eq_true_eq] at hall
      obtain ⟨⟨k1, k2, k3⟩, k4⟩ := hall
      apply hP
      apply key.mpr
      refine ⟨k1, k2, k3, ?_⟩
      rcases k4 with k4 | k4
      · left; exact_mod_cast k4
      · right
        have h18 : ((((x - if x < 64 then 32 else 96) * (x - if x < 64 then 32 else 96)
            + (y - 32) * (y - 32) : ℤ)) : ℚ) < 18 := by
          refine lt_of_le_of_lt k4 ?_
          norm_num
        have : (x - if x < 64 then 32 else 96) * (x - if x < 64 then 32 else 96)
            + (y - 32) * (y - 32) < 18 := by exact_mod_cast h18
        omega

theorem draw_half_open_filtered_mask_witness :
    (List.replicate 1024 255).length = 1024 ∧
    ∃ mask out, built_mask = some mask ∧ draw_half_open (List.replicate 1024 255) = some out ∧
      out.length = 1024 ∧
      ∀ x y : ℤ, 0 ≤ x → x < 128 → 0 ≤ y → y < 64 →
        pixel_bit out x y = half_open_spec mask x y :=
  ⟨List.length_replicate _ _,
    draw_half_open_filtered_mask (List.replicate 1024 255) (List.length_replicate _ _)⟩
/-! ## Compositing of `draw_open`: the iris box, the eyebrow rows -/

/-- The function `roundf` moves its argument by at most one half. -/
theorem roundf_near (q : ℚ) : ∃ n : ℤ, roundf q = n ∧ (n : ℚ) - 1 / 2 ≤ q ∧ q ≤ n + 1 / 2 := by
  unfold roundf
  by_cases h : 0 ≤ q
  · rw [if_pos h]
    refine ⟨⌊q + 1 / 2⌋, rfl, ?_, ?_⟩
    · have := Int.floor_le (q + 1 / 2); linarith
    · have := Int.lt_floor_add_one (q + 1 / 2); linarith
  · rw [if_neg h]
    refine ⟨⌈q - 1 / 2⌉, rfl, ?_, ?_⟩
    · have := Int.ceil_lt_add_one (q - 1 / 2); linarith
    · have := Int.le_ceil (q - 1 / 2); linarith

/-- A binary32 rounding below 9.5 in absolute value comes from such a value. -/
theorem abs_lt_of_f32_abs_lt (q : ℚ) (h : |f32 q| < 19 / 2) : |q| < 19 / 2 := by
  by_contra hq
  rw [not_lt, le_abs] at hq
  rw [abs_lt] at h
  rcases hq with hq | hq
  · have : ((19 : ℤ) : ℚ) * (2 : ℚ) ^ (-1 : ℤ) ≤ f32 q :=
      le_roundBin_of_le (by norm_num) (isRep32_of_grid 19 (-1) (by norm_num) (by norm_num))
        (by norm_num [zpow_neg]; linarith)
    norm_num [zpow_neg] at this
    linarith
  · have := f32_le_of_grid (x := q) (-19) (-1) (by norm_num) (by norm_num)
      (by norm_num [zpow_neg]; linarith)
    norm_num [zpow_neg] at this
    linarith

/-- A sum of two rounded squares that rounds to at most 81 has terms below 9.5. -/
theorem abs_lt_of_sq_sum_le (a b bound : ℚ) (hb : bound ≤ 81)
    (h : f32 (f32 (a * a) + f32 (b * b)) ≤ bound) : |a| < 19 / 2 := by
  by_contra ha
  rw [not_lt] at ha
  have h1 : (361 : ℚ) / 4 ≤ a * a := by
    rw [← abs_mul_abs_self a]
    nlinarith [abs_nonneg a]
  have h2 : ((90 : ℤ) : ℚ) ≤ f32 (a * a) := int_le_f32 (by norm_num) (by push_cast; linarith)
  have h3 : 0 ≤ f32 (b * b) := f32_nonneg (mul_self_nonneg b)
  have h4 : ((90 : ℤ) : ℚ) ≤ f32 (f32 (a * a) + f32 (b * b)) :=
    int_le_f32 (by norm_num) (by push_cast at h2 ⊢; linarith)
  push_cast at h4
  linarith

/-- A pixel that passes a disk test of squared radius at most 81 is less than 9.5 away from
the centre in each coordinate. -/
theorem within_true_near (x y : ℤ) (cx cy bound : ℚ) (hx : |x| < 16777216)
    (hy : |y| < 16777216) (hb : bound ≤ 81) (h : within x cx y cy bound = true) :
    |(x : ℚ) - cx| < 19 / 2 ∧ |(y : ℚ) - cy| < 19 / 2 := by
  unfold within at h
  simp only [decide_eq_true_eq] at h
  rw [i2f_eq x hx, i2f_eq y hy] at h
  constructor
  · exact abs_lt_of_f32_abs_lt _ (abs_lt_of_sq_sum_le _ _ bound hb h)
  · rw [add_comm] at h
    exact abs_lt_of_f32_abs_lt _ (abs_lt_of_sq_sum_le _ _ bound hb h)

/-- The range `roundf(c) - IRIS_R .. roundf(c) + IRIS_R` of the iris loops contains every
integer less than 9.5 away from `c`. -/
theorem mem_iris_range_of_near (v : ℤ) (c : ℚ) (hc : |c| ≤ 1000) (h : |(v : ℚ) - c| < 19 / 2) :
    v ∈ forLe (f2i (f32 (roundf c - i2f IRIS_R))) (f32 (roundf c + i2f IRIS_R)) := by
  obtain ⟨n, hn, hn1, hn2⟩ := roundf_near c
  rw [abs_le] at hc
  rw [abs_lt] at h
  have hnb : -1001 ≤ n ∧ n ≤ 1001 := by
    constructor
    · have : (-1002 : ℚ) < n := by linarith
      have : (-1002 : ℤ) < n := by exact_mod_cast this
      omega
    · have : (n : ℚ) < 1002 := by linarith
      have : n < (1002 : ℤ) := by exact_mod_cast this
      omega
  have h9 : i2f IRIS_R = 9 := by
    rw [i2f_eq _ (by norm_num [IRIS_R])]; norm_num [IRIS_R]
  have e1 : f32 ((n : ℚ) - 9) = ((n - 9 : ℤ) : ℚ) := by
    have := f32_int (n - 9) (by rw [abs_lt]; constructor <;> omega)
    rw [← this]; push_cast; rfl
  have e2 : f32 ((n : ℚ) + 9) = ((n + 9 : ℤ) : ℚ) := by
    have := f32_int (n + 9) (by rw [abs_lt]; constructor <;> omega)
    rw [← this]; push_cast; rfl
  rw [hn, h9, e1, e2, f2i_int, mem_forLe]
  constructor
  · have : ((n : ℚ) - 10) < v := by linarith
    have : n - 10 < v := by exact_mod_cast this
    omega
  · have : (v : ℚ) < n + 10 := by linarith
    have : v < n + 10 := by exact_mod_cast this
    have : v ≤ n + 9 := by omega
    exact_mod_cast this

/-- A pixel that passes the test of the iris loop is visited by the loop: the rounded centre
is at most one half away from the centre and the radius is an integer. -/
theorem touches_iris_of_within (x y : ℤ) (icx icy : ℚ) (hx : |x| < 16777216)
    (hy : |y| < 16777216) (hcx : |icx| ≤ 1000) (hcy : |icy| ≤ 1000)
    (h : within x icx y icy (i2f (IRIS_R * IRIS_R)) = true) :
    touches (iris_calls icx icy) x y = true := by
  have h81 : i2f (IRIS_R * IRIS_R) = 81 := by
    rw [i2f_eq _ (by norm_num [IRIS_R])]; norm_num [IRIS_R]
  obtain ⟨hnx, hny⟩ := within_true_near x y icx icy _ hx hy (le_of_eq h81) h
  rw [touches_iris]
  exact ⟨mem_iris_range_of_near y icy hcy hny, mem_iris_range_of_near x icx hcx hnx, h⟩

/-- The row `eyebrow_y_at_x` of the eyebrow loop is the integer sum of the base row and the
rounded slope term. -/
theorem eyebrow_row_eq (base : ℤ) (t : ℚ) (off : ℤ) (hb1 : -100 ≤ base) (hb2 : base ≤ 100)
    (ht : |t| ≤ 1) (ho1 : -28 ≤ off) (ho2 : off ≤ 28) :
    f2i (f32 (i2f base + roundf (f32 (t * i2f off))))
      = base + f2i (roundf (f32 (t * i2f off))) := by
  have hoff : i2f off = off := i2f_eq off (by rw [abs_lt]; constructor <;> omega)
  have hbase : i2f base = base := i2f_eq base (by rw [abs_lt]; constructor <;> omega)
  rw [hoff, hbase]
  rw [abs_le] at ht
  have ho1q : (-28 : ℚ) ≤ off := by exact_mod_cast ho1
  have ho2q : (off : ℚ) ≤ 28 := by exact_mod_cast ho2
  have hprod : t * off ≤ 28 ∧ -28 ≤ t * off := by
    constructor <;> nlinarith [ht.1, ht.2]
  have h1 : f32 (t * off) ≤ ((28 : ℤ) : ℚ) := f32_le_int (by norm_num) (by push_cast; linarith)
  have h2 : ((-28 : ℤ) : ℚ) ≤ f32 (t * off) := int_le_f32 (by norm_num) (by push_cast; linarith)
  obtain ⟨n, hn, hna, hnb⟩ := roundf_spec (f32 (t * off))
  have hn28 : n ≤ 28 := hnb 28 h1
  have hn28' : -28 ≤ n := hna (-28) h2
  rw [hn, f2i_int]
  have e : f32 ((base : ℚ) + n) = ((base + n : ℤ) : ℚ) := by
    have := f32_int (base + n) (by rw [abs_lt]; constructor <;> omega)
    rw [← this]; push_cast; rfl
  rw [e, f2i_int]

/-- The columns of a pixel of the sclera mask, relative to the centre of its eye. -/
theorem sclera_bit_columns (i : ℤ) (hi : i = 0 ∨ i = 1) (x y : ℤ) (h1 : 64 * i ≤ x)
    (h2 : x < 64 * i + 64) (h : sclera_bit x y = true) :
    -28 ≤ x - (32 + i * 64) ∧ x - (32 + i * 64) < 28 := by
  unfold sclera_bit at h
  simp only [Bool.or_eq_true, Bool.and_eq_true, decide_eq_true_eq] at h
  rcases hi with rfl | rfl <;> omega
/-! ## Compositing upper bound for `draw_open` -/

/-- C11, amended: for parameters in the declared ranges `draw_open` returns a frame in which,
for each eye `i` and every pixel `(x, y)` of its half of the screen: a set bit lies in the
columns `cx - 28 .. cx + 28`, not above the eyebrow baseline
`12 + trunc(eyebrows_low * 12) + roundf(tan_angle * (x - cx))` of its column, and is either a
pixel of the sclera mask that fails the iris test of the code (`dx * dx + dy * dy` computed in
`float` is at most `IRIS_R * IRIS_R`) or a pixel that passes the pupil test of the code (at most
`pupil_r * pupil_r`); a pixel that passes the iris test and fails the pupil test is unset; and
every pixel of the columns `cx - 28 .. cx + 28` above the baseline is unset. -/
theorem draw_open_compositing_bound (tanf : ℚ → ℚ)
    (htan : ∀ t : ℚ, |t| ≤ 1 / 2 → |tanf t| ≤ 1)
    (pupil_y pupil_x eyebrows_low pupil_size eyebrow_angle : ℚ)
    (hy1 : -1 ≤ pupil_y) (hy2 : pupil_y ≤ 1) (hx1 : -1 ≤ pupil_x) (hx2 : pupil_x ≤ 1)
    (hl1 : 0 ≤ eyebrows_low) (hl2 : eyebrows_low ≤ 1)
    (hs1 : 0 ≤ pupil_size) (hs2 : pupil_size ≤ 1)
    (buffer : List ℕ) (hlen : buffer.length = 1024) (s : State) (hs : s.Valid) :
    ∃ out mask,
      draw_open tanf pupil_y pupil_x eyebrows_low pupil_size eyebrow_angle buffer s
        = some (out, ⟨mask, true⟩) ∧
      built_mask = some mask ∧ out.length = 1024 ∧
      ∀ i : ℤ, i = 0 ∨ i = 1 → ∀ x y : ℤ, 64 * i ≤ x → x < 64 * i + 64 → 0 ≤ y → y < 64 →
        let eye_center_x := LEFT_EYE_CENTER_X + i * EYE_SEPARATION
        let iris_cx := iris_center eye_center_x pupil_x IRIS_SHIFT_X
        let iris_cy := iris_center EYE_CENTER_Y pupil_y IRIS_SHIFT_Y
        let pupil_r := pupil_radius pupil_size
        let tan_angle := tanf (tan_arg (clamped_angle i eyebrow_angle))
        let baseline := EYEBROW_Y_BASE + f2i (f32 (eyebrows_low * i2f EYEBROW_Y_RANGE))
          + f2i (roundf (f32 (tan_angle * i2f (x - eye_center_x))))
        (pixel_bit out x y = true →
          (-28 ≤ x - eye_center_x ∧ x - eye_center_x ≤ 28 ∧ baseline ≤ y) ∧
          (pixel_bit mask x y = true
              ∧ within x iris_cx y iris_cy (i2f (IRIS_R * IRIS_R)) = false
            ∨ within x iris_cx y iris_cy (f32 (pupil_r * pupil_r)) = true)) ∧
        (within x iris_cx y iris_cy (i2f (IRIS_R * IRIS_R)) = true →
          within x iris_cx y iris_cy (f32 (pupil_r * pupil_r)) = false →
          pixel_bit out x y = false) ∧
        (-28 ≤ x - eye_center_x → x - eye_center_x ≤ 28 → y < baseline →
          pixel_bit out x y = false) := by
  have hscr := draw_open_calls_inScreen tanf htan pupil_y pupil_x eyebrows_low pupil_size
    eyebrow_angle (by linarith) (by linarith) (by linarith) (by linarith) (by linarith)
    (by linarith) (by linarith) (by linarith)
  obtain ⟨out, mask, ho, hmask, holen, hbit⟩ := draw_open_spec tanf pupil_y pupil_x eyebrows_low
    pupil_size eyebrow_angle buffer s hlen hs hscr
  obtain ⟨m', hm', _, hmbit⟩ := built_mask_spec
  have hmm : m' = mask := by
    rw [hmask] at hm'
    exact (Option.some.inj hm').symm
  subst hmm
  refine ⟨out, m', ho, hmask, holen, ?_⟩
  intro i hi x y h1 h2 h3 h4
  simp only [LEFT_EYE_CENTER_X, EYE_SEPARATION, EYE_CENTER_Y, IRIS_SHIFT_X, IRIS_SHIFT_Y,
    EYEBROW_Y_BASE, EYEBROW_Y_RANGE]
  have hi01 : 0 ≤ i ∧ i ≤ 1 := by rcases hi with rfl | rfl <;> norm_num
  have hx0 : 0 ≤ x ∧ x < 128 := by omega
  rw [hbit x y hx0.1 hx0.2 h3 h4, hmbit x y hx0.1 hx0.2 h3 h4,
    paint_draw_open tanf htan pupil_y pupil_x eyebrows_low pupil_size eyebrow_angle
      (by linarith) (by linarith) (by linarith) (by linarith) (by linarith) (by linarith)
      (by linarith) (by linarith) i hi _ x y h1 h2,
    eye_paint]
  -- the three loops at this pixel
  obtain ⟨hb1, hb2⟩ := eyebrow_base_bounds eyebrows_low (by linarith) (by linarith)
  simp only [EYEBROW_Y_BASE, EYEBROW_Y_RANGE] at hb1 hb2
  obtain ⟨ha1, ha2⟩ := clamped_angle_bounds i eyebrow_angle
  have ht : |tanf (tan_arg (clamped_angle i eyebrow_angle))| ≤ 1 :=
    htan _ (tan_arg_bounds _ ha1 ha2)
  have hE : touches (eyebrow_calls (32 + i * 64) (12 + f2i (f32 (eyebrows_low * i2f 12)))
      (tanf (tan_arg (clamped_angle i eyebrow_angle)))) x y = true ↔
      -28 ≤ x - (32 + i * 64) ∧ x - (32 + i * 64) ≤ 28 ∧
        y < 12 + f2i (f32 (eyebrows_low * i2f 12))
          + f2i (roundf (f32 (tanf (tan_arg (clamped_angle i eyebrow_angle))
              * i2f (x - (32 + i * 64))))) := by
    rw [touches_eyebrow]
    constructor
    · rintro ⟨e1, e2, _, e4⟩
      rw [eyebrow_row_eq _ _ _ (by omega) (by omega) ht e1 e2] at e4
      exact ⟨e1, e2, e4⟩
    · rintro ⟨e1, e2, e4⟩
      rw [eyebrow_row_eq _ _ _ (by omega) (by omega) ht e1 e2]
      exact ⟨e1, e2, h3, e4⟩
  obtain ⟨hcx1, hcx2⟩ := iris_center_bounds (32 + i * 64) pupil_x
    (by rw [abs_lt]; constructor <;> omega) (by linarith) (by linarith)
  obtain ⟨hcy1, hcy2⟩ := iris_center_bounds 32 pupil_y (by norm_num) (by linarith)
    (by linarith)
  obtain ⟨_, hr7, _⟩ := pupil_radius_range pupil_size hs1 hs2
  have hP : touches (pupil_calls (iris_center (32 + i * 64) pupil_x 10)
      (iris_center 32 pupil_y 10) (pupil_radius pupil_size)) x y = true →
      within x (iris_center (32 + i * 64) pupil_x 10) y (iris_center 32 pupil_y 10)
          (f32 (pupil_radius pupil_size * pupil_radius pupil_size)) = true ∧
        -28 ≤ x - (32 + i * 64) ∧ x - (32 + i * 64) ≤ 28 := by
    rw [touches_pupil]
    rintro ⟨_, p2, p3⟩
    have := box_bounds (R := 7) hcx1 hcx2 (by exact_mod_cast hr7)
      (by rw [abs_lt]; constructor <;> omega) (by rw [abs_lt]; constructor <;> omega) p2
    exact ⟨p3, by omega, by omega⟩
  have hI : within x (iris_center (32 + i * 64) pupil_x 10) y (iris_center 32 pupil_y 10)
      (i2f (IRIS_R * IRIS_R)) = true →
      touches (iris_calls (iris_center (32 + i * 64) pupil_x 10)
        (iris_center 32 pupil_y 10)) x y = true := by
    intro h
    have q1 : ((32 + i * 64 - 20 : ℤ) : ℚ) ≥ -1000 := by
      have : (-1000 : ℤ) ≤ 32 + i * 64 - 20 := by omega
      exact_mod_cast this
    have q2 : ((32 + i * 64 + 20 : ℤ) : ℚ) ≤ 1000 := by
      have : 32 + i * 64 + 20 ≤ (1000 : ℤ) := by omega
      exact_mod_cast this
    push_cast at hcy1 hcy2
    exact touches_iris_of_within x y _ _ (by rw [abs_lt]; constructor <;> omega)
      (by rw [abs_lt]; constructor <;> omega)
      (by rw [abs_le]; constructor <;> linarith)
      (by rw [abs_le]; constructor <;> linarith) h
  have hS := sclera_bit_columns i hi x y h1 h2
  generalize touches (eyebrow_calls (32 + i * 64) (12 + f2i (f32 (eyebrows_low * i2f 12)))
      (tanf (tan_arg (clamped_angle i eyebrow_angle)))) x y = E at hE ⊢
  generalize touches (pupil_calls (iris_center (32 + i * 64) pupil_x 10)
      (iris_center 32 pupil_y 10) (pupil_radius pupil_size)) x y = P at hP ⊢
  generalize touches (iris_calls (iris_center (32 + i * 64) pupil_x 10)
      (iris_center 32 pupil_y 10)) x y = I at hI ⊢
  generalize within x (iris_center (32 + i * 64) pupil_x 10) y (iris_center 32 pupil_y 10)
      (i2f (IRIS_R * IRIS_R)) = wI at hI ⊢
  generalize within x (iris_center (32 + i * 64) pupil_x 10) y (iris_center 32 pupil_y 10)
      (f32 (pupil_radius pupil_size * pupil_radius pupil_size)) = wP at hP ⊢
  generalize sclera_bit x y = S at hS ⊢
  generalize 12 + f2i (f32 (eyebrows_low * i2f 12))
      + f2i (roundf (f32 (tanf (tan_arg (clamped_angle i eyebrow_angle))
          * i2f (x - (32 + i * 64))))) = B at hE ⊢
  refine ⟨?_, ?_, ?_⟩
  · intro hset
    cases hEv : E with
    | true => rw [hEv] at hset; simp at hset
    | false =>
      rw [hEv] at hset hE
      simp only [Bool.false_eq_true, if_false] at hset
      have hnot : ¬ (-28 ≤ x - (32 + i * 64) ∧ x - (32 + i * 64) ≤ 28 ∧ y < B) :=
        fun hh => by simpa using hE.mpr hh
      cases hPv : P with
      | true =>
        obtain ⟨p1, p2, p3⟩ := hP hPv
        refine ⟨⟨p2, p3, ?_⟩, Or.inr p1⟩
        by_contra hlt
        exact hnot ⟨p2, p3, by omega⟩
      | false =>
        rw [hPv] at hset
        simp only [Bool.false_eq_true, if_false] at hset
        cases hIv : I with
        | true => rw [hIv] at hset; simp at hset
        | false =>
          rw [hIv] at hset hI
          simp only [Bool.false_eq_true, if_false] at hset
          obtain ⟨s1, s2⟩ := hS hset
          have hwI : wI = false := by
            cases hw : wI with
            | false => rfl
            | true => exact absurd (hI hw) (by simp)
          refine ⟨⟨s1, by omega, ?_⟩, Or.inl ⟨hset, hwI⟩⟩
          by_contra hlt
          exact hnot ⟨s1, by omega, by omega⟩
  · intro hw1 hw2
    have hIv : I = true := hI hw1
    have hPv : P = false := by
      cases hp : P with
      | false => rfl
      | true =>
        have := (hP hp).1
        rw [hw2] at this
        exact absurd this (by simp)
    rw [hIv, hPv]
    cases E <;> simp
  · intro e1 e2 e3
    rw [hE.mpr ⟨e1, e2, e3⟩]
    simp

theorem draw_open_compositing_bound_witness :
    ∃ out mask,
      draw_open tanf_approx (1 / 2) (-1 / 2) (1 / 2) (1 / 2) 5 (List.replicate 1024 0)
        State.initial = some (out, ⟨mask, true⟩) ∧
      built_mask = some mask ∧ out.length = 1024 ∧
      ∀ i : ℤ, i = 0 ∨ i = 1 → ∀ x y : ℤ, 64 * i ≤ x → x < 64 * i + 64 → 0 ≤ y → y < 64 →
        let eye_center_x := LEFT_EYE_CENTER_X + i * EYE_SEPARATION
        let iris_cx := iris_center eye_center_x (-1 / 2) IRIS_SHIFT_X
        let iris_cy := iris_center EYE_CENTER_Y (1 / 2) IRIS_SHIFT_Y
        let pupil_r := pupil_radius (1 / 2)
        let tan_angle := tanf_approx (tan_arg (clamped_angle i 5))
        let baseline := EYEBROW_Y_BASE + f2i (f32 (1 / 2 * i2f EYEBROW_Y_RANGE))
          + f2i (roundf (f32 (tan_angle * i2f (x - eye_center_x))))
        (pixel_bit out x y = true →
          (-28 ≤ x - eye_center_x ∧ x - eye_center_x ≤ 28 ∧ baseline ≤ y) ∧
          (pixel_bit mask x y = true
              ∧ within x iris_cx y iris_cy (i2f (IRIS_R * IRIS_R)) = false
            ∨ within x iris_cx y iris_cy (f32 (pupil_r * pupil_r)) = true)) ∧
        (within x iris_cx y iris_cy (i2f (IRIS_R * IRIS_R)) = true →
          within x iris_cx y iris_cy (f32 (pupil_r * pupil_r)) = false →
          pixel_bit out x y = false) ∧
        (-28 ≤ x - eye_center_x → x - eye_center_x ≤ 28 → y < baseline →
          pixel_bit out x y = false) :=
  draw_open_compositing_bound tanf_approx tanf_approx_bound (1 / 2) (-1 / 2) (1 / 2) (1 / 2) 5
    (by norm_num) (by norm_num) (by norm_num) (by norm_num) (by norm_num) (by norm_num)
    (by norm_num) (by norm_num) (List.replicate 1024 0) (List.length_replicate _ _)
    State.initial State.initial_valid
/-! ## A lit pixel outside the exact pupil disk -/

theorem iris_cx_left_neg_tiny :
    iris_center (32 + 0 * 64) (-(1 / 4194304)) 10 = 16777215 / 524288 := by
  unfold iris_center
  have hi : i2f (32 + 0 * 64) = 32 := by
    have := i2f_eq 32 (by norm_num); simpa using this
  have h1 : f32 (-(1 / 4194304) * 10) = -(5 / 2097152) := by
    rw [f32_exact _ (-5) (-21) (by norm_num [zpow_neg]) (by norm_num) (by norm_num)]; norm_num
  rw [hi, h1, f32_eq_of_near (32 + -(5 / 2097152)) 4 16777215 (by norm_num [abs_of_pos])
    (by norm_num [abs_of_pos]) (by norm_num) (by norm_num [zpow_neg, abs_lt])]
  norm_num [zpow_neg]

/-- The sum of squares that the pupil test of the left eye computes for pixel `(32, 37)` when
the iris column is `32 - 2^-19`: the exact value `25 + 2^-38` rounds to 25. -/
theorem left_sum_32_37 :
    f32 (f32 (f32 (i2f 32 - 16777215 / 524288) * f32 (i2f 32 - 16777215 / 524288))
      + f32 (f32 (i2f 37 - 32) * f32 (i2f 37 - 32))) = 25 := by
  have h32 : i2f 32 = 32 := by
    have := i2f_eq 32 (by norm_num); simpa using this
  have h37 : i2f 37 = 37 := by
    have := i2f_eq 37 (by norm_num); simpa using this
  have hdx : f32 (32 - 16777215 / 524288) = 1 / 524288 := by
    rw [f32_exact _ 1 (-19) (by norm_num [zpow_neg]) (by norm_num) (by norm_num)]
    norm_num
  have hdy : f32 (37 - 32) = 5 := by norm_num [f32_ofNat]
  have hsq : f32 (1 / 524288 * (1 / 524288)) = 1 / 274877906944 := by
    rw [f32_exact _ 1 (-38) (by norm_num [zpow_neg]) (by norm_num) (by norm_num)]
    norm_num
  have h25 : f32 (5 * 5) = 25 := by norm_num [f32_ofNat]
  rw [h32, h37, hdx, hdy, hsq, h25,
    f32_eq_of_near (1 / 274877906944 + 25) 4 13107200 (by norm_num [abs_of_pos])
      (by norm_num [abs_of_pos]) (by norm_num) (by norm_num [zpow_neg, abs_lt])]
  norm_num [zpow_neg]

/-- C11, refuted as stated: for the in-range tuple `draw_open(0, -2^-22, 0, 0.5, 0)` the left
iris column `32 - 10 * 2^-22` rounds to `32 - 2^-19` in binary32, the iris row is 32 and
`pupil_r` is 5.  Pixel `(32, 37)` is set by the pupil loop, because the computed sum of squares
`25 + 2^-38` rounds to 25, which passes `<= pupil_r * pupil_r`.  Its exact squared distance to
the iris centre is `25 + 2^-38`: more than `pupil_r^2 = 25`, so the pixel is not within `pupil_r`
of the centre, and at most `IRIS_R^2 = 81`, so it is not farther than `IRIS_R` either; it is a
lit pixel of the ring between `pupil_r` and `IRIS_R`. -/
theorem lit_pixel_outside_pupil_disk :
    ∃ out s', draw_open tanf_approx 0 (-(1 / 4194304)) 0 (1 / 2) 0 (List.replicate 1024 0)
        State.initial = some (out, s') ∧
      pixel_bit out 32 37 = true ∧
      pupil_radius (1 / 2) ^ 2
        < ((32 : ℚ) - iris_center (LEFT_EYE_CENTER_X + 0 * EYE_SEPARATION) (-(1 / 4194304))
              IRIS_SHIFT_X) ^ 2
          + ((37 : ℚ) - iris_center EYE_CENTER_Y 0 IRIS_SHIFT_Y) ^ 2 ∧
      ((32 : ℚ) - iris_center (LEFT_EYE_CENTER_X + 0 * EYE_SEPARATION) (-(1 / 4194304))
            IRIS_SHIFT_X) ^ 2
          + ((37 : ℚ) - iris_center EYE_CENTER_Y 0 IRIS_SHIFT_Y) ^ 2
        ≤ ((IRIS_R : ℤ) : ℚ) ^ 2 := by
  have hscr := draw_open_calls_inScreen tanf_approx tanf_approx_bound 0 (-(1 / 4194304)) 0
    (1 / 2) 0 (by norm_num) (by norm_num) (by norm_num) (by norm_num) (by norm_num)
    (by norm_num) (by norm_num) (by norm_num)
  obtain ⟨out, m, ho, _, _, hbit⟩ := draw_open_spec tanf_approx 0 (-(1 / 4194304)) 0 (1 / 2) 0
    (List.replicate 1024 0) State.initial (List.length_replicate _ _) State.initial_valid hscr
  have hcx : iris_center (LEFT_EYE_CENTER_X + 0 * EYE_SEPARATION) (-(1 / 4194304)) IRIS_SHIFT_X
      = 32 - 1 / 524288 := by
    have := iris_cx_left_neg_tiny
    simp only [LEFT_EYE_CENTER_X, EYE_SEPARATION, IRIS_SHIFT_X]
    rw [this]; norm_num
  have hcy : iris_center EYE_CENTER_Y 0 IRIS_SHIFT_Y = 32 := iris_cy_zero
  have hlit : pixel_bit out 32 37 = true := by
    rw [hbit 32 37 (by norm_num) (by norm_num) (by norm_num) (by norm_num),
      paint_draw_open tanf_approx tanf_approx_bound 0 (-(1 / 4194304)) 0 (1 / 2) 0 (by norm_num)
        (by norm_num) (by norm_num) (by norm_num) (by norm_num) (by norm_num) (by norm_num)
        (by norm_num) 0 (Or.inl rfl) _ 32 37 (by norm_num) (by norm_num),
      eye_paint, iris_cx_left_neg_tiny, iris_cy_zero, pupil_radius_half]
    have hbrow : ¬ touches (eyebrow_calls (32 + 0 * 64) (12 + f2i (f32 (0 * i2f 12)))
        (tanf_approx (tan_arg (clamped_angle 0 0)))) 32 37 = true := by
      have hb : (12 : ℤ) + f2i (f32 (0 * i2f 12)) = 12 := by
        rw [zero_mul, f32_zero]
        have := f2i_int 0
        norm_num at this
        rw [this]; rfl
      rw [hb, touches_eyebrow_zero tanf_approx tanf_approx_zero 0 _ 12 (by norm_num)]
      rintro ⟨_, _, _, h⟩
      norm_num at h
    have hpupil : touches (pupil_calls (16777215 / 524288) 32 5) 32 37 = true := by
      rw [touches_pupil]
      refine ⟨?_, ?_, ?_⟩
      · rw [mem_forLe]
        norm_num [f32_ofNat, roundf_ofNat, f2i_ofNat]
      · have hrf : roundf (16777215 / 524288) = ((32 : ℤ) : ℚ) :=
          roundf_eq _ 32 (by norm_num) (by norm_num) (by norm_num)
        rw [mem_forLe, hrf]
        norm_num [f32_ofNat, f2i_ofNat]
      · simp only [within]
        rw [left_sum_32_37]
        apply decide_eq_true
        norm_num [f32_ofNat]
    rw [if_neg hbrow, if_pos hpupil]
  refine ⟨out, _, ho, hlit, ?_, ?_⟩
  · rw [pupil_radius_half, hcx, hcy]; norm_num
  · rw [hcx, hcy]; norm_num [IRIS_R]
/-! ## Eyebrow angles that are not finite -/

theorem clamped_angle_any_finite (i : ℤ) (a : ℚ) :
    clamped_angle_any i (CFloat.finite a) = clamped_angle i a := by
  unfold clamped_angle_any clamped_angle
  by_cases hi : i = 1
  · simp only [hi, if_true, CFloat.neg, fminf_any, fmaxf_any]
  · simp only [hi, if_false, fminf_any, fmaxf_any]

/-- For a NaN angle both eyes get `+10`: `-NaN` is NaN and `fminf(10, NaN)` is 10. -/
theorem clamped_angle_any_nan (i : ℤ) : clamped_angle_any i CFloat.nan = 10 := by
  unfold clamped_angle_any
  have h : (if i = 1 then CFloat.nan.neg else CFloat.nan) = CFloat.nan := by
    split_ifs <;> rfl
  rw [h]
  simp only [fminf_any, fmaxf_any, fmaxf, EYEBROW_ANGLE_LIMIT]
  norm_num

theorem clamped_angle_ten (i : ℤ) : clamped_angle i 10 = if i = 1 then -10 else 10 := by
  unfold clamped_angle fmaxf fminf EYEBROW_ANGLE_LIMIT
  split_ifs <;> norm_num

theorem clamped_angle_neg_ten (i : ℤ) : clamped_angle i (-10) = if i = 1 then 10 else -10 := by
  unfold clamped_angle fmaxf fminf EYEBROW_ANGLE_LIMIT
  split_ifs <;> norm_num

theorem clamped_angle_any_inf (i : ℤ) : clamped_angle_any i CFloat.inf = clamped_angle i 10 := by
  rw [clamped_angle_ten]
  unfold clamped_angle_any
  by_cases hi : i = 1
  · simp only [hi, if_true, CFloat.neg, fminf_any, fmaxf_any, EYEBROW_ANGLE_LIMIT]
  · simp only [hi, if_false, fminf_any, fmaxf_any, fmaxf, EYEBROW_ANGLE_LIMIT]
    norm_num

theorem clamped_angle_any_neg_inf (i : ℤ) :
    clamped_angle_any i CFloat.neg_inf = clamped_angle i (-10) := by
  rw [clamped_angle_neg_ten]
  unfold clamped_angle_any
  by_cases hi : i = 1
  · simp only [hi, if_true, CFloat.neg, fminf_any, fmaxf_any, fmaxf, EYEBROW_ANGLE_LIMIT]
    norm_num
  · simp only [hi, if_false, fminf_any, fmaxf_any, EYEBROW_ANGLE_LIMIT]

theorem eye_calls_any_eq (tanf : ℚ → ℚ) (py px el ps : ℚ) (a : CFloat) (b : ℚ) (i : ℤ)
    (h : clamped_angle_any i a = clamped_angle i b) :
    eye_calls_any tanf py px el ps a i = eye_calls tanf py px el ps b i := by
  unfold eye_calls_any eye_calls
  rw [h]

theorem draw_open_calls_any_eq (tanf : ℚ → ℚ) (py px el ps : ℚ) (a : CFloat) :
    draw_open_calls_any tanf py px el ps a
      = eye_calls_any tanf py px el ps a 0 ++ eye_calls_any tanf py px el ps a 1 := by
  unfold draw_open_calls_any
  have : forLt 0 2 = [0, 1] := by decide
  rw [this]
  simp [List.flatMap_cons]

/-- An angle whose clamped value in each eye is that of the finite angle `b` gives the writes
of `b`. -/
theorem draw_open_calls_any_of (tanf : ℚ → ℚ) (py px el ps : ℚ) (a : CFloat) (b : ℚ)
    (h : ∀ i : ℤ, clamped_angle_any i a = clamped_angle i b) :
    draw_open_calls_any tanf py px el ps a = draw_open_calls tanf py px el ps b := by
  rw [draw_open_calls_any_eq, draw_open_calls_eq, eye_calls_any_eq _ _ _ _ _ a b 0 (h 0),
    eye_calls_any_eq _ _ _ _ _ a b 1 (h 1)]

theorem draw_open_any_of (tanf : ℚ → ℚ) (py px el ps : ℚ) (a : CFloat) (b : ℚ)
    (h : ∀ i : ℤ, clamped_angle_any i a = clamped_angle i b) (buffer : List ℕ) (s : State) :
    draw_open_any tanf py px el ps a buffer s = draw_open tanf py px el ps b buffer s := by
  unfold draw_open_any draw_open
  rw [draw_open_calls_any_of tanf py px el ps a b h]

/-- On a finite angle the renderer for any `float` angle is `draw_open`. -/
theorem draw_open_any_finite (tanf : ℚ → ℚ) (py px el ps a : ℚ) (buffer : List ℕ)
    (s : State) :
    draw_open_any tanf py px el ps (CFloat.finite a) buffer s
      = draw_open tanf py px el ps a buffer s :=
  draw_open_any_of tanf py px el ps _ a (fun i => clamped_angle_any_finite i a) buffer s

/-- For a NaN angle the writes are those of the left eye of angle 10 followed by those of the
right eye of angle -10. -/
theorem draw_open_calls_any_nan (tanf : ℚ → ℚ) (py px el ps : ℚ) :
    draw_open_calls_any tanf py px el ps CFloat.nan
      = eye_calls tanf py px el ps 10 0 ++ eye_calls tanf py px el ps (-10) 1 := by
  rw [draw_open_calls_any_eq,
    eye_calls_any_eq _ _ _ _ _ CFloat.nan 10 0
      (by rw [clamped_angle_any_nan, clamped_angle_ten]; norm_num),
    eye_calls_any_eq _ _ _ _ _ CFloat.nan (-10) 1
      (by rw [clamped_angle_any_nan, clamped_angle_neg_ten]; norm_num)]

/-- The renderer for any `float` angle from a valid state, when all its writes are on the
screen. -/
theorem draw_open_any_spec (tanf : ℚ → ℚ) (py px el ps : ℚ) (a : CFloat) (buffer : List ℕ)
    (s : State) (hlen : buffer.length = 1024) (hs : s.Valid)
    (hscr : ∀ c ∈ draw_open_calls_any tanf py px el ps a, InScreen c) :
    ∃ out m, draw_open_any tanf py px el ps a buffer s = some (out, ⟨m, true⟩) ∧
      built_mask = some m ∧ out.length = 1024 ∧
      ∀ x y : ℤ, 0 ≤ x → x < 128 → 0 ≤ y → y < 64 →
        pixel_bit out x y
          = paint (draw_open_calls_any tanf py px el ps a) (sclera_bit x y) x y := by
  obtain ⟨m, hm, hmlen, hmbit⟩ := built_mask_spec
  obtain ⟨out, hout, holen, hobit⟩ := run_spec (draw_open_calls_any tanf py px el ps a) m hscr
    hmlen
  refine ⟨out, m, ?_, hm, holen, ?_⟩
  · unfold draw_open_any
    rw [generate_valid s hs m hm]
    show (run (draw_open_calls_any tanf py px el ps a) (memcpy buffer m BUFFER_SIZE)).map _ = _
    rw [memcpy_eq buffer m hlen hmlen, hout]
    rfl
  · intro x y hx hx2 hy hy2
    rw [hobit x y hx hx2 hy hy2, hmbit x y hx hx2 hy hy2]

/-! ## The eyebrow rows of angle 10 and -10 at offset 22 -/

theorem roundf_neg (q : ℚ) : roundf (-q) = -roundf q := by
  unfold roundf
  rcases lt_trichotomy q 0 with h | h | h
  · rw [if_pos (by linarith), if_neg (by linarith)]
    have : -q + 1 / 2 = -(q - 1 / 2) := by ring
    rw [this, Int.floor_neg]
    push_cast; ring
  · subst h
    norm_num
  · rw [if_neg (by linarith), if_pos (by linarith)]
    have : -q - 1 / 2 = -(q + 1 / 2) := by ring
    rw [this, Int.ceil_neg]
    push_cast; ring

theorem tan_arg_neg (a : ℚ) : tan_arg (-a) = -tan_arg a := by
  unfold tan_arg f64
  rw [neg_mul, roundBin_neg, neg_div, roundBin_neg, f32_neg]

theorem tanf_approx_neg (t : ℚ) : tanf_approx (-t) = -tanf_approx t := by
  unfold tanf_approx
  have h1 : -t * -t = t * t := by ring
  rw [h1, mul_neg, f32_neg, neg_div, f32_neg, ← neg_add, f32_neg]

theorem tan_arg_ten_bounds : 11 / 64 ≤ tan_arg 10 ∧ tan_arg 10 ≤ 23 / 128 := by
  unfold tan_arg M_PI
  have r31 : IsRep 53 (-1074) ((31 : ℤ) : ℚ) := isRep_int 31 (by norm_num) (by norm_num)
  have r32 : IsRep 53 (-1074) ((32 : ℤ) : ℚ) := isRep_int 32 (by norm_num) (by norm_num)
  have a1 : ((31 : ℤ) : ℚ) ≤ f64 (10 * (884279719003555 / 281474976710656)) :=
    le_roundBin_of_le (by norm_num) r31 (by norm_num)
  have a2 : f64 (10 * (884279719003555 / 281474976710656)) ≤ ((32 : ℤ) : ℚ) :=
    roundBin_le_of_le (by norm_num) r32 (by norm_num)
  push_cast at a1 a2
  have rl64 : IsRep 53 (-1074) (11 / 64) :=
    ⟨11, -6, by norm_num, by norm_num, by norm_num [zpow_neg]⟩
  have ru64 : IsRep 53 (-1074) (23 / 128) :=
    ⟨23, -7, by norm_num, by norm_num, by norm_num [zpow_neg]⟩
  have rl32 : IsRep 24 (-149) (11 / 64) :=
    ⟨11, -6, by norm_num, by norm_num, by norm_num [zpow_neg]⟩
  have ru32 : IsRep 24 (-149) (23 / 128) :=
    ⟨23, -7, by norm_num, by norm_num, by norm_num [zpow_neg]⟩
  have b1 : 11 / 64 ≤ f64 (f64 (10 * (884279719003555 / 281474976710656)) / 180) :=
    le_roundBin_of_le (by norm_num) rl64 (by linarith)
  have b2 : f64 (f64 (10 * (884279719003555 / 281474976710656)) / 180) ≤ 23 / 128 :=
    roundBin_le_of_le (by norm_num) ru64 (by linarith)
  exact ⟨le_roundBin_of_le (by norm_num) rl32 b1, roundBin_le_of_le (by norm_num) ru32 b2⟩

theorem tanf_approx_ten_bounds :
    11 / 64 ≤ tanf_approx (tan_arg 10) ∧ tanf_approx (tan_arg 10) ≤ 25 / 128 := by
  obtain ⟨h1, h2⟩ := tan_arg_ten_bounds
  generalize tan_arg 10 = u at h1 h2
  unfold tanf_approx
  have hlo {x : ℚ} (z k : ℤ) (hz : |z| < 16777216) (hk : -149 ≤ k)
      (h : (z : ℚ) * (2 : ℚ) ^ k ≤ x) : (z : ℚ) * (2 : ℚ) ^ k ≤ f32 x :=
    le_roundBin_of_le (by norm_num) (isRep32_of_grid z k hz hk) h
  have a0 : 0 ≤ f32 (u * u) := f32_nonneg (by nlinarith)
  have a1 : f32 (u * u) ≤ 1 / 16 := by
    have := f32_le_of_grid (x := u * u) 1 (-4) (by norm_num) (by norm_num)
      (by norm_num [zpow_neg]; nlinarith)
    norm_num [zpow_neg] at this
    linarith
  have b0 : 0 ≤ f32 (f32 (u * u) * u) := f32_nonneg (by nlinarith)
  have b1 : f32 (f32 (u * u) * u) ≤ 1 / 64 := by
    have := f32_le_of_grid (x := f32 (u * u) * u) 1 (-6) (by norm_num) (by norm_num)
      (by norm_num [zpow_neg]; nlinarith)
    norm_num [zpow_neg] at this
    linarith
  have c0 : 0 ≤ f32 (f32 (f32 (u * u) * u) / 3) := f32_nonneg (by linarith)
  have c1 : f32 (f32 (f32 (u * u) * u) / 3) ≤ 1 / 128 := by
    have := f32_le_of_grid (x := f32 (f32 (u * u) * u) / 3) 1 (-7) (by norm_num)
      (by norm_num) (by norm_num [zpow_neg]; linarith)
    norm_num [zpow_neg] at this
    linarith
  constructor
  · have := hlo (x := u + f32 (f32 (f32 (u * u) * u) / 3)) 11 (-6) (by norm_num)
      (by norm_num) (by norm_num [zpow_neg]; linarith)
    norm_num [zpow_neg] at this
    linarith
  · have := f32_le_of_grid (x := u + f32 (f32 (f32 (u * u) * u) / 3)) 25 (-7) (by norm_num)
      (by norm_num) (by norm_num [zpow_neg]; linarith)
    norm_num [zpow_neg] at this
    linarith

/-- With `tan_angle = tanf(10 degrees)` the slope term at offset 22 rounds to 4. -/
theorem roundf_slope_ten : roundf (f32 (tanf_approx (tan_arg 10) * i2f 22)) = 4 := by
  obtain ⟨h1, h2⟩ := tanf_approx_ten_bounds
  generalize tanf_approx (tan_arg 10) = t at h1 h2
  have h22 : i2f 22 = 22 := by
    have := i2f_eq 22 (by norm_num); simpa using this
  rw [h22]
  have l : (7 : ℚ) / 2 ≤ f32 (t * 22) := by
    have : ((7 : ℤ) : ℚ) * (2 : ℚ) ^ (-1 : ℤ) ≤ f32 (t * 22) :=
      le_roundBin_of_le (by norm_num) (isRep32_of_grid 7 (-1) (by norm_num) (by norm_num))
        (by norm_num [zpow_neg]; linarith)
    norm_num [zpow_neg] at this
    linarith
  have u : f32 (t * 22) ≤ 35 / 8 := by
    have := f32_le_of_grid (x := t * 22) 35 (-3) (by norm_num) (by norm_num)
      (by norm_num [zpow_neg]; linarith)
    norm_num [zpow_neg] at this
    linarith
  have := roundf_eq (f32 (t * 22)) 4 (by linarith) (by push_cast; linarith)
    (by push_cast; linarith)
  simpa using this

theorem roundf_slope_neg_ten : roundf (f32 (tanf_approx (tan_arg (-10)) * i2f 22)) = -4 := by
  rw [tan_arg_neg, tanf_approx_neg, neg_mul, f32_neg, roundf_neg, roundf_slope_ten]

theorem eyebrow_base_zero : (12 : ℤ) + f2i (f32 (0 * i2f 12)) = 12 := by
  rw [zero_mul, f32_zero]
  have := f2i_int 0
  norm_num at this
  rw [this]; rfl

/-- Pixel `(cx + 22, 15)` passes the disk test of the sclera mask. -/
theorem in_eye_22_15 (c : ℤ) : in_eye c (c + 22) 15 = true := by
  unfold in_eye
  simp only [EYE_CENTER_Y, EYE_R, add_sub_cancel_left]
  have e22 : i2f 22 = 22 := by
    have := i2f_eq 22 (by norm_num); simpa using this
  have e28 : i2f 28 = 28 := by
    have := i2f_eq 28 (by norm_num); simpa using this
  have e17 : i2f (15 - 32) = -17 := by
    have := i2f_eq (-17) (by norm_num); simpa using this
  rw [e22, e28, e17]
  have hlo {x : ℚ} (z k : ℤ) (hz : |z| < 16777216) (hk : -149 ≤ k)
      (h : (z : ℚ) * (2 : ℚ) ^ k ≤ x) : (z : ℚ) * (2 : ℚ) ^ k ≤ f32 x :=
    le_roundBin_of_le (by norm_num) (isRep32_of_grid z k hz hk) h
  have dx0 : 0 ≤ f32 (22 / 28) := f32_nonneg (by norm_num)
  have dx1 : f32 (22 / 28) ≤ 101 / 128 := by
    have := f32_le_of_grid (x := 22 / 28) 101 (-7) (by norm_num) (by norm_num)
      (by norm_num [zpow_neg])
    norm_num [zpow_neg] at this
    linarith
  have dy0 : f32 (-17 / 28) ≤ 0 := by
    have := f32_le_int (x := -17 / 28) (n := 0) (by norm_num) (by norm_num)
    simpa using this
  have dy1 : -(39 / 64) ≤ f32 (-17 / 28) := by
    have := hlo (x := -17 / 28) (-39) (-6) (by norm_num) (by norm_num)
      (by norm_num [zpow_neg])
    norm_num [zpow_neg] at this
    linarith
  have sx : f32 (f32 (22 / 28) * f32 (22 / 28)) ≤ 5 / 8 := by
    have := f32_le_of_grid (x := f32 (22 / 28) * f32 (22 / 28)) 5 (-3) (by norm_num)
      (by norm_num) (by norm_num [zpow_neg]; nlinarith)
    norm_num [zpow_neg] at this
    linarith
  have sy : f32 (f32 (-17 / 28) * f32 (-17 / 28)) ≤ 3 / 8 := by
    have := f32_le_of_grid (x := f32 (-17 / 28) * f32 (-17 / 28)) 3 (-3) (by norm_num)
      (by norm_num) (by norm_num [zpow_neg]; nlinarith)
    norm_num [zpow_neg] at this
    linarith
  apply decide_eq_true
  have := f32_le_int (x := f32 (f32 (22 / 28) * f32 (22 / 28))
    + f32 (f32 (-17 / 28) * f32 (-17 / 28))) (n := 1) (by norm_num) (by push_cast; linarith)
  simpa using this

theorem sclera_bit_22_15 (i : ℤ) (hi : i = 0 ∨ i = 1) :
    sclera_bit (32 + i * 64 + 22) 15 = true := by
  unfold sclera_bit
  rcases hi with rfl | rfl
  · have := in_eye_22_15 32
    norm_num at this ⊢
    exact this
  · have := in_eye_22_15 96
    norm_num at this ⊢
    exact this

/-- Eye `i` of the frame `(0, 0, 0, 0.5)` with clamped angle `+10`: the eyebrow row of column
`cx + 22` is `12 + 4 = 16`, so pixel `(cx + 22, 15)` is cleared. -/
theorem eye_paint_plus_ten (a : ℚ) (i : ℤ) (h : clamped_angle i a = 10) (v : Bool) :
    paint (eye_calls tanf_approx 0 0 0 (1 / 2) a i) v (32 + i * 64 + 22) 15 = false := by
  rw [eye_paint, h]
  have hbrow : touches (eyebrow_calls (32 + i * 64) (12 + f2i (f32 (0 * i2f 12)))
      (tanf_approx (tan_arg 10))) (32 + i * 64 + 22) 15 = true := by
    rw [touches_eyebrow, eyebrow_base_zero, add_sub_cancel_left, roundf_slope_ten]
    have e12 : i2f 12 = 12 := by
      have := i2f_eq 12 (by norm_num); simpa using this
    rw [e12]
    norm_num [f32_ofNat, f2i_ofNat]
  rw [if_pos hbrow]

/-- Eye `i` of the frame `(0, 0, 0, 0.5)` with clamped angle `-10`: the eyebrow row of column
`cx + 22` is `12 - 4 = 8` and the iris and pupil loops stay in rows 23..41, so pixel
`(cx + 22, 15)` keeps its value. -/
theorem eye_paint_minus_ten (a : ℚ) (i : ℤ) (h : clamped_angle i a = -10) (v : Bool) :
    paint (eye_calls tanf_approx 0 0 0 (1 / 2) a i) v (32 + i * 64 + 22) 15 = v := by
  rw [eye_paint, h, iris_cy_zero, pupil_radius_half]
  have hbrow : ¬ touches (eyebrow_calls (32 + i * 64) (12 + f2i (f32 (0 * i2f 12)))
      (tanf_approx (tan_arg (-10)))) (32 + i * 64 + 22) 15 = true := by
    rw [touches_eyebrow, eyebrow_base_zero, add_sub_cancel_left, roundf_slope_neg_ten]
    have e12 : i2f 12 = 12 := by
      have := i2f_eq 12 (by norm_num); simpa using this
    rw [e12]
    norm_num [f32_ofNat, f2i_ofNat]
  have hpupil : ¬ touches (pupil_calls (iris_center (32 + i * 64) 0 10) 32 5)
      (32 + i * 64 + 22) 15 = true := by
    rw [touches_pupil]
    rintro ⟨hy, _, _⟩
    rw [mem_forLe] at hy
    norm_num [f32_ofNat, roundf_ofNat, f2i_ofNat] at hy
  have hiris : ¬ touches (iris_calls (iris_center (32 + i * 64) 0 10) 32)
      (32 + i * 64 + 22) 15 = true := by
    have h9 : i2f IRIS_R = 9 := by
      have := i2f_eq 9 (by norm_num); simpa [IRIS_R] using this
    rw [touches_iris, h9]
    rintro ⟨hy, _, _⟩
    rw [mem_forLe] at hy
    norm_num [f32_ofNat, roundf_ofNat, f2i_ofNat] at hy
  rw [if_neg hbrow, if_neg hpupil, if_neg hiris]
/-! ## Eyebrow-angle clamping -/

/-- C6, refuted as stated: for `eyebrow_angle = NaN` the clamp of the code,
`fmaxf(-10, fminf(10, NaN))`, gives `+10` in both eyes (`-NaN` is NaN), so the right eye is not
mirrored.  With the in-range parameters `(0, 0, 0, 0.5)` the frame of NaN has pixel `(118, 15)`
cleared by the right eyebrow (row `12 + roundf(tan(10 deg) * 22) = 16`), whereas the frame of
angle 10 has it set (right eye at -10, row 8); and it has pixel `(54, 15)` cleared by the left
eyebrow, whereas the frame of angle -10 has it set.  The frame of NaN is neither the frame of
10 nor that of -10. -/
theorem nan_angle_not_clamped :
    clamped_angle_any 0 CFloat.nan = 10 ∧ clamped_angle_any 1 CFloat.nan = 10 ∧
    ∃ out_nan out_10 out_m10 s1 s2 s3,
      draw_open_any tanf_approx 0 0 0 (1 / 2) CFloat.nan (List.replicate 1024 0) State.initial
        = some (out_nan, s1) ∧
      draw_open_any tanf_approx 0 0 0 (1 / 2) (CFloat.finite 10) (List.replicate 1024 0)
        State.initial = some (out_10, s2) ∧
      draw_open_any tanf_approx 0 0 0 (1 / 2) (CFloat.finite (-10)) (List.replicate 1024 0)
        State.initial = some (out_m10, s3) ∧
      pixel_bit out_nan 118 15 = false ∧ pixel_bit out_10 118 15 = true ∧
      pixel_bit out_nan 54 15 = false ∧ pixel_bit out_m10 54 15 = true := by
  refine ⟨clamped_angle_any_nan 0, clamped_angle_any_nan 1, ?_⟩
  have hreg := eye_calls_region tanf_approx tanf_approx_bound 0 0 0 (1 / 2)
  have hscr10 := draw_open_calls_inScreen tanf_approx tanf_approx_bound 0 0 0 (1 / 2) 10
    (by norm_num) (by norm_num) (by norm_num) (by norm_num) (by norm_num) (by norm_num)
    (by norm_num) (by norm_num)
  have hscrm := draw_open_calls_inScreen tanf_approx tanf_approx_bound 0 0 0 (1 / 2) (-10)
    (by norm_num) (by norm_num) (by norm_num) (by norm_num) (by norm_num) (by norm_num)
    (by norm_num) (by norm_num)
  have hscrN : ∀ c ∈ draw_open_calls_any tanf_approx 0 0 0 (1 / 2) CFloat.nan, InScreen c := by
    intro c hc
    rw [draw_open_calls_any_nan, List.mem_append] at hc
    simp only [InScreen, SCREEN_WIDTH, SCREEN_HEIGHT]
    rcases hc with hc | hc
    · have := hreg 10 (by norm_num) (by norm_num) (by norm_num) (by norm_num) (by norm_num)
        (by norm_num) (by norm_num) (by norm_num) 0 (Or.inl rfl) c hc
      omega
    · have := hreg (-10) (by norm_num) (by norm_num) (by norm_num) (by norm_num) (by norm_num)
        (by norm_num) (by norm_num) (by norm_num) 1 (Or.inr rfl) c hc
      omega
  obtain ⟨outN, mN, hoN, _, _, hbitN⟩ := draw_open_any_spec tanf_approx 0 0 0 (1 / 2)
    CFloat.nan (List.replicate 1024 0) State.initial (List.length_replicate _ _)
    State.initial_valid hscrN
  obtain ⟨out10, m10, ho10, _, _, hbit10⟩ := draw_open_spec tanf_approx 0 0 0 (1 / 2) 10
    (List.replicate 1024 0) State.initial (List.length_replicate _ _) State.initial_valid hscr10
  obtain ⟨outm, mm, hom, _, _, hbitm⟩ := draw_open_spec tanf_approx 0 0 0 (1 / 2) (-10)
    (List.replicate 1024 0) State.initial (List.length_replicate _ _) State.initial_valid hscrm
  have e118 : (32 + 1 * 64 + 22 : ℤ) = 118 := by norm_num
  have e54 : (32 + 0 * 64 + 22 : ℤ) = 54 := by norm_num
  have hp1 := eye_paint_plus_ten (-10) 1 (by rw [clamped_angle_neg_ten]; norm_num)
  have hp0 := eye_paint_plus_ten 10 0 (by rw [clamped_angle_ten]; norm_num)
  have hm1 := eye_paint_minus_ten 10 1 (by rw [clamped_angle_ten]; norm_num)
  have hm0 := eye_paint_minus_ten (-10) 0 (by rw [clamped_angle_neg_ten]; norm_num)
  have hs1 := sclera_bit_22_15 1 (Or.inr rfl)
  have hs0 := sclera_bit_22_15 0 (Or.inl rfl)
  rw [e118] at hp1 hm1 hs1
  rw [e54] at hp0 hm0 hs0
  refine ⟨outN, out10, outm, ⟨mN, true⟩, ⟨m10, true⟩, ⟨mm, true⟩, hoN, ?_, ?_, ?_, ?_, ?_, ?_⟩
  · rw [draw_open_any_finite]; exact ho10
  · rw [draw_open_any_finite]; exact hom
  · rw [hbitN 118 15 (by norm_num) (by norm_num) (by norm_num) (by norm_num),
      draw_open_calls_any_nan, paint_append]
    exact hp1 _
  · rw [hbit10 118 15 (by norm_num) (by norm_num) (by norm_num) (by norm_num),
      paint_draw_open tanf_approx tanf_approx_bound 0 0 0 (1 / 2) 10 (by norm_num)
        (by norm_num) (by norm_num) (by norm_num) (by norm_num) (by norm_num) (by norm_num)
        (by norm_num) 1 (Or.inr rfl) _ 118 15 (by norm_num) (by norm_num),
      hm1, hs1]
  · rw [hbitN 54 15 (by norm_num) (by norm_num) (by norm_num) (by norm_num),
      draw_open_calls_any_nan, paint_append, hp0]
    apply paint_of_not_mem
    intro c hc hxy
    have := hreg (-10) (by norm_num) (by norm_num) (by norm_num) (by norm_num) (by norm_num)
      (by norm_num) (by norm_num) (by norm_num) 1 (Or.inr rfl) c hc
    omega
  · rw [hbitm 54 15 (by norm_num) (by norm_num) (by norm_num) (by norm_num),
      paint_draw_open tanf_approx tanf_approx_bound 0 0 0 (1 / 2) (-10) (by norm_num)
        (by norm_num) (by norm_num) (by norm_num) (by norm_num) (by norm_num) (by norm_num)
        (by norm_num) 0 (Or.inl rfl) _ 54 15 (by norm_num) (by norm_num),
      hm0, hs0]

/-- C6, amended: for every parameter tuple and every eyebrow angle that is not NaN, `draw_open`
returns the same bitmap as with the angle clamped to `[-10, 10]`: a finite angle `a` gives the
bitmap of `max(-10, min(10, a))`, with the right eye using the negated clamped angle of the left
eye; `+inf` gives the bitmap of 10 and `-inf` that of -10; in particular angle 45 gives the
bitmap of angle 10 and angle -45 that of -10. -/
theorem eyebrow_angle_clamping_non_nan (tanf : ℚ → ℚ)
    (pupil_y pupil_x eyebrows_low pupil_size : ℚ) (buffer : List ℕ) (s : State) :
    (∀ a : ℚ,
      draw_open_any tanf pupil_y pupil_x eyebrows_low pupil_size (CFloat.finite a) buffer s
        = draw_open_any tanf pupil_y pupil_x eyebrows_low pupil_size
            (CFloat.finite (max (-10) (min 10 a))) buffer s ∧
      clamped_angle_any 0 (CFloat.finite a) = max (-10) (min 10 a) ∧
      clamped_angle_any 1 (CFloat.finite a) = -max (-10) (min 10 a)) ∧
    draw_open_any tanf pupil_y pupil_x eyebrows_low pupil_size CFloat.inf buffer s
      = draw_open_any tanf pupil_y pupil_x eyebrows_low pupil_size (CFloat.finite 10) buffer s ∧
    draw_open_any tanf pupil_y pupil_x eyebrows_low pupil_size CFloat.neg_inf buffer s
      = draw_open_any tanf pupil_y pupil_x eyebrows_low pupil_size (CFloat.finite (-10))
          buffer s ∧
    draw_open_any tanf pupil_y pupil_x eyebrows_low pupil_size (CFloat.finite 45) buffer s
      = draw_open_any tanf pupil_y pupil_x eyebrows_low pupil_size (CFloat.finite 10) buffer s ∧
    draw_open_any tanf pupil_y pupil_x eyebrows_low pupil_size (CFloat.finite (-45)) buffer s
      = draw_open_any tanf pupil_y pupil_x eyebrows_low pupil_size (CFloat.finite (-10))
          buffer s := by
  have key := draw_open_clamp tanf pupil_y pupil_x eyebrows_low pupil_size
  unfold fmaxf fminf EYEBROW_ANGLE_LIMIT at key
  have hfin : ∀ a : ℚ,
      draw_open_any tanf pupil_y pupil_x eyebrows_low pupil_size (CFloat.finite a) buffer s
        = draw_open_any tanf pupil_y pupil_x eyebrows_low pupil_size
            (CFloat.finite (max (-10) (min 10 a))) buffer s := by
    intro a
    rw [draw_open_any_finite, draw_open_any_finite]
    exact key a buffer s
  refine ⟨fun a => ⟨hfin a, ?_, ?_⟩, ?_, ?_, ?_, ?_⟩
  · rw [clamped_angle_any_finite]
    unfold clamped_angle fmaxf fminf EYEBROW_ANGLE_LIMIT
    simp
  · rw [clamped_angle_any_finite, clamped_angle_mirror]
    unfold clamped_angle fmaxf fminf EYEBROW_ANGLE_LIMIT
    simp
  · rw [draw_open_any_finite]
    exact draw_open_any_of tanf pupil_y pupil_x eyebrows_low pupil_size CFloat.inf 10
      clamped_angle_any_inf buffer s
  · rw [draw_open_any_finite]
    exact draw_open_any_of tanf pupil_y pupil_x eyebrows_low pupil_size CFloat.neg_inf (-10)
      clamped_angle_any_neg_inf buffer s
  · rw [hfin 45]; norm_num
  · rw [hfin (-45)]; norm_num
end Eyes

/-! # `hexToBytes` and the capacity of its output array -/

namespace Main

theorem hexDigit_zero : hexDigit '0' = some 0 := by decide

/-- On `2 * n` characters `'0'` the loop makes `n` more writes and returns `outIndex + n`. -/
theorem hexLoop_zeros (n : ℕ) : ∀ (outIndex : ℕ) (writes : List (ℕ × ℕ)),
    hexLoop (List.replicate (2 * n) '0') outIndex writes
      = ⟨writes ++ (List.range n).map (fun k => (outIndex + k, 0)), outIndex + n⟩ := by
  induction n with
  | zero => intro outIndex writes; simp [hexLoop]
  | succ n ih =>
    intro outIndex writes
    have h : List.replicate (2 * (n + 1)) '0' = '0' :: '0' :: List.replicate (2 * n) '0' := by
      rw [show 2 * (n + 1) = 2 * n + 1 + 1 by ring, List.replicate_succ, List.replicate_succ]
    rw [h, hexLoop, hexDigit_zero]
    simp only
    rw [ih]
    congr 1
    · rw [List.append_assoc]
      congr 1
      rw [List.range_succ_eq_map, List.map_cons, List.map_map]
      simp only [List.singleton_append, Nat.add_zero]
      congr 1
      apply List.map_congr_left
      intro k _
      simp only [Function.comp, Nat.succ_eq_add_one]
      congr 1
      omega
    · omega

/-- C13, the code at failing inputs: `hexToBytes` never looks at `outMax`.  With capacity 1 the
four characters `00ff` make it write `out[1] = 255` and return 2; for every capacity `outMax`,
the string of `2 * (outMax + 1)` characters `0` makes it write index `outMax` and return
`outMax + 1` (so 20481 for the 20480 bytes of `decodedData`, 513 for the 512 of `soundData`). -/
theorem hexToBytes_ignores_capacity :
    hexToBytes ['0', '0', 'f', 'f'] 1 = ⟨[(0, 0), (1, 255)], 2⟩ ∧
    (∀ (hex : List Char) (a b : ℕ), hexToBytes hex a = hexToBytes hex b) ∧
    (∀ outMax : ℕ,
      (outMax, 0) ∈ (hexToBytes (List.replicate (2 * (outMax + 1)) '0') outMax).writes ∧
      (hexToBytes (List.replicate (2 * (outMax + 1)) '0') outMax).ret = outMax + 1) := by
  refine ⟨by decide, fun _ _ _ => rfl, ?_⟩
  intro outMax
  have hlen : ¬ ((List.replicate (2 * (outMax + 1)) '0').length % 2 ≠ 0) := by
    rw [List.length_replicate]; omega
  unfold hexToBytes
  rw [if_neg hlen, hexLoop_zeros]
  constructor
  · simp only [List.nil_append, List.mem_map, List.mem_range]
    exact ⟨outMax, by omega, by simp⟩
  · simp

end Main
